import Mathlib

/-!
Verification development for the maviz991/automation_python repository.

The scripts' string manipulation is embedded shallowly: Python strings are
modelled as `List Char`, and each Python helper (`re.sub` collapsing,
`str.strip`, `str.split`, `str.capitalize`, `str.replace`, `str.split(sep)`,
decimal formatting of the duplicate counter) is given an executable Lean
counterpart.  `unicodedata.normalize('NFD', ·)` and the combining-mark filter
are modelled by an explicit decomposition table restricted to the precomposed
Latin letters that occur in the repository's (Portuguese) layer and field
names; every other character decomposes to itself.
-/

/-- Characters that Python's str.strip() / str.split() treat as whitespace
(restricted to code points that can occur in layer or field names). -/
def pyIsSpace (c : Char) : Bool :=
  c == ' ' || c == '\t' || c == '\n' || c == '\r' || c == '\x0b' || c == '\x0c' ||
  c == ' ' || c == ' ' || c == ' ' || c == '　'

/-- The character class of the regex [a-zA-Z0-9] used by both sanitizers. -/
def isAsciiAlnum (c : Char) : Bool :=
  ('a' ≤ c && c ≤ 'z') || ('A' ≤ c && c ≤ 'Z') || ('0' ≤ c && c ≤ '9')

/-- Canonical decomposition (unicodedata NFD) restricted to precomposed
Latin letters with a one-base-one-mark decomposition; `none` means the
character decomposes to itself.  Characters such as '²' (a compatibility,
not canonical, decomposition) correctly stay undecomposed. -/
def nfdTable : List (Char × Char × Char) :=
  [('À', 'A', '̀'), ('Á', 'A', '́'), ('Â', 'A', '̂'), ('Ã', 'A', '̃'), ('Ä', 'A', '̈'),
   ('Ç', 'C', '̧'), ('È', 'E', '̀'), ('É', 'E', '́'), ('Ê', 'E', '̂'), ('Ë', 'E', '̈'),
   ('Ì', 'I', '̀'), ('Í', 'I', '́'), ('Î', 'I', '̂'), ('Ï', 'I', '̈'), ('Ñ', 'N', '̃'),
   ('Ò', 'O', '̀'), ('Ó', 'O', '́'), ('Ô', 'O', '̂'), ('Õ', 'O', '̃'), ('Ö', 'O', '̈'),
   ('Ù', 'U', '̀'), ('Ú', 'U', '́'), ('Û', 'U', '̂'), ('Ü', 'U', '̈'), ('Ý', 'Y', '́'),
   ('à', 'a', '̀'), ('á', 'a', '́'), ('â', 'a', '̂'), ('ã', 'a', '̃'), ('ä', 'a', '̈'),
   ('ç', 'c', '̧'), ('è', 'e', '̀'), ('é', 'e', '́'), ('ê', 'e', '̂'), ('ë', 'e', '̈'),
   ('ì', 'i', '̀'), ('í', 'i', '́'), ('î', 'i', '̂'), ('ï', 'i', '̈'), ('ñ', 'n', '̃'),
   ('ò', 'o', '̀'), ('ó', 'o', '́'), ('ô', 'o', '̂'), ('õ', 'o', '̃'), ('ö', 'o', '̈'),
   ('ù', 'u', '̀'), ('ú', 'u', '́'), ('û', 'u', '̂'), ('ü', 'u', '̈'), ('ý', 'y', '́'),
   ('ÿ', 'y', '̈')]

/-- Canonical decomposition lookup: the decomposition of c, or none when c
decomposes to itself. -/
def nfdDecomp (c : Char) : Option (Char × Char) :=
  (nfdTable.find? (fun e => e.1 == c)).map (fun e => e.2)

/-- Combining diacritical marks (Unicode category Mn) reachable through
`nfdDecomp`. -/
def isMn (c : Char) : Bool :=
  c == '̀' || c == '́' || c == '̂' || c == '̃' ||
  c == '̈' || c == '̧'

/-- NFD of a single character. -/
def nfdChar (c : Char) : List Char :=
  match nfdDecomp c with
  | some (b, m) => [b, m]
  | none => [c]

/-- unicodedata.normalize('NFD', text). -/
def nfd (s : List Char) : List Char := (s.map nfdChar).flatten

/-- Dropping every character of category Mn, as both sanitizers do right
after NFD normalization. -/
def removeMn (s : List Char) : List Char := s.filter (fun c => !(isMn c))

/-- re.sub with pattern [^a-zA-Z0-9]+ and a one-character replacement `sep`:
each maximal run of non-alphanumeric characters becomes a single `sep`.
`inRun` records whether the previous character belonged to such a run. -/
def subNonAlnumAux (sep : Char) : Bool → List Char → List Char
  | _, [] => []
  | inRun, c :: cs =>
    if isAsciiAlnum c then c :: subNonAlnumAux sep false cs
    else if inRun then subNonAlnumAux sep true cs
    else sep :: subNonAlnumAux sep true cs

def subNonAlnum (sep : Char) (s : List Char) : List Char := subNonAlnumAux sep false s

/-- Python str.strip(ch): drop leading and trailing occurrences of `ch`. -/
def pyStripChar (ch : Char) (s : List Char) : List Char :=
  ((s.dropWhile (· == ch)).reverse.dropWhile (· == ch)).reverse

/-- Decimal digit character. -/
def digitChar (n : Nat) : Char := Char.ofNat (48 + n)

/-- Decimal digits of a Nat (the embedding of Python's decimal formatting of
the duplicate counter); fuel-based so that it reduces by rfl.  `natDigits`
supplies fuel `n`, which is enough because n / 10 decreases strictly. -/
def natDigitsAux : Nat → Nat → List Char → List Char
  | 0, n, acc => digitChar n :: acc
  | fuel + 1, n, acc =>
    if n < 10 then digitChar n :: acc
    else natDigitsAux fuel (n / 10) (digitChar (n % 10) :: acc)

def natDigits (n : Nat) : List Char := natDigitsAux n n []

/-- The k-th candidate tried by the duplicate-resolution while-loops: the
bare base for k = 0 and base ++ "_" ++ str(k) for k ≥ 1. -/
def suffixCand (base : List Char) (k : Nat) : List Char :=
  if k = 0 then base else base ++ '_' :: natDigits k

/-- The while-loop shared by build_field_rename and the phase-one renamer:
starting at candidate index k, return the first candidate not in `seen`.
When fuel runs out the current candidate is returned; fuel is chosen large
enough (seen.length + 2) that this branch is unreachable. -/
def searchSuffix (seen : List (List Char)) (base : List Char) : Nat → Nat → List Char
  | k, 0 => suffixCand base k
  | k, fuel + 1 =>
    if suffixCand base k ∈ seen then searchSuffix seen base (k + 1) fuel
    else suffixCand base k

/-- base = f_clean; count = 1; while f_clean in seen: f_clean = base_count. -/
def resolveDup (seen : List (List Char)) (base : List Char) : List Char :=
  searchSuffix seen base 0 (seen.length + 2)

/-- Python str.split() (no argument): maximal whitespace-free words, empty
words dropped. -/
def pySplitWsAux (cur : List Char) : List Char → List (List Char)
  | [] => if cur.isEmpty then [] else [cur.reverse]
  | c :: cs =>
    if pyIsSpace c then
      if cur.isEmpty then pySplitWsAux [] cs else cur.reverse :: pySplitWsAux [] cs
    else pySplitWsAux (c :: cur) cs

def pySplitWs (s : List Char) : List (List Char) := pySplitWsAux [] s

/-- Python str.capitalize(): first character uppercased, the rest lowercased. -/
def pyCapitalize : List Char → List Char
  | [] => []
  | c :: cs => c.toUpper :: cs.map Char.toLower

namespace Producao

/-- Configuration constant TABLE_PREFIX of clean_and_export-producao.py. -/
def TABLE_PREFIX : List Char := "teste006_".data

/-- Configuration constant TRUNCATE_LIMIT. -/
def TRUNCATE_LIMIT : Nat := 63

/-- The core snake_case pipeline of sanitize_name (steps 1 and 2 of the
source): NFD, drop combining marks, collapse non-alphanumerics to '_',
strip '_', lowercase. -/
def cleanBody (text : List Char) : List Char :=
  (pyStripChar '_' (subNonAlnum '_' (removeMn (nfd text)))).map Char.toLower

/-- sanitize_name of clean_and_export-producao.py: NFD + drop marks, collapse
non-alphanumerics to '_', strip '_', lowercase, optional prefix, truncate. -/
def sanitize_name (text : List Char) (addPrefix : Bool) : List Char :=
  if text.all pyIsSpace then
    if addPrefix then TABLE_PREFIX ++ "sem_nome".data else "sem_nome".data
  else if cleanBody text = [] then
    if addPrefix then TABLE_PREFIX ++ "sem_nome".data else "sem_nome".data
  else if addPrefix && !(TABLE_PREFIX.isPrefixOf (cleanBody text)) then
    (TABLE_PREFIX ++ cleanBody text).take TRUNCATE_LIMIT
  else
    (cleanBody text).take TRUNCATE_LIMIT

def build_field_rename_aux : List (List Char) → List (List Char) → List (List Char × List Char)
  | _, [] => []
  | seen, f :: fs =>
    let fClean := resolveDup seen (sanitize_name f false)
    (f, fClean) :: build_field_rename_aux (seen ++ [fClean]) fs

/-- build_field_rename of clean_and_export-producao.py over the ordered list
of field names; `seen` accumulates the sanitized outputs already assigned. -/
def build_field_rename (fields : List (List Char)) : List (List Char × List Char) :=
  build_field_rename_aux [] fields

end Producao

namespace SldVariant

/-- Configuration constant TABLE_PREFIX of clean_and_export_gpkg-DB-sld.py. -/
def TABLE_PREFIX : List Char := "teste_".data

/-- Configuration constant TRUNCATE_LIMIT. -/
def TRUNCATE_LIMIT : Nat := 63

/-- The word list words = re.sub(r'[^a-zA-Z0-9]+', ' ', text).split() after
NFD and mark removal. -/
def wordsOf (text : List Char) : List (List Char) :=
  pySplitWs (subNonAlnum ' ' (removeMn (nfd text)))

/-- words[0].lower() + "".join(w.capitalize() for w in words[1:]). -/
def camelOf : List (List Char) → List Char
  | [] => []
  | w :: ws => w.map Char.toLower ++ (ws.map pyCapitalize).flatten

/-- sanitize_name of clean_and_export_gpkg-DB-sld.py: NFD + drop marks,
split into alphanumeric words, camelCase join, optional prefix, truncate. -/
def sanitize_name (text : List Char) (addPrefix : Bool) : List Char :=
  if text.all pyIsSpace then
    if addPrefix then TABLE_PREFIX ++ "semNome".data else "semNome".data
  else if wordsOf text = [] then
    if addPrefix then TABLE_PREFIX ++ "semNome".data else "semNome".data
  else if addPrefix && !(TABLE_PREFIX.isPrefixOf (camelOf (wordsOf text))) then
    (TABLE_PREFIX ++ camelOf (wordsOf text)).take TRUNCATE_LIMIT
  else
    (camelOf (wordsOf text)).take TRUNCATE_LIMIT

end SldVariant

/-! Character-class helpers shared by the theorems. -/

/-- Characters allowed in a sanitized identifier: ASCII letters, digits,
underscore. -/
def identChar (c : Char) : Bool := isAsciiAlnum c || c == '_'

theorem identChar_toLower {c : Char} (h : identChar c = true) :
    identChar c.toLower = true := by
  unfold Char.toLower
  show identChar (if c.toNat ≥ 65 ∧ c.toNat ≤ 90 then Char.ofNat (c.toNat + 32) else c) = true
  by_cases hn : c.toNat ≥ 65 ∧ c.toNat ≤ 90
  · rw [if_pos hn]
    obtain ⟨h1, h2⟩ := hn
    interval_cases hc : c.toNat <;> decide
  · rw [if_neg hn]
    exact h

theorem identChar_toUpper {c : Char} (h : identChar c = true) :
    identChar c.toUpper = true := by
  unfold Char.toUpper
  show identChar (if c.toNat ≥ 97 ∧ c.toNat ≤ 122 then Char.ofNat (c.toNat - 32) else c) = true
  by_cases hn : c.toNat ≥ 97 ∧ c.toNat ≤ 122
  · rw [if_pos hn]
    obtain ⟨h1, h2⟩ := hn
    interval_cases hc : c.toNat <;> decide
  · rw [if_neg hn]
    exact h

theorem mem_dropWhile_mem {p : Char → Bool} {l : List Char} {c : Char}
    (h : c ∈ l.dropWhile p) : c ∈ l := by
  induction l with
  | nil => simp [List.dropWhile] at h
  | cons d ds ih =>
    rw [List.dropWhile_cons] at h
    by_cases hp : p d = true
    · simp only [hp, if_true] at h
      exact List.mem_cons_of_mem _ (ih h)
    · simp only [hp, if_false] at h
      exact h

theorem mem_pyStripChar_mem {ch : Char} {l : List Char} {c : Char}
    (h : c ∈ pyStripChar ch l) : c ∈ l := by
  unfold pyStripChar at h
  rw [List.mem_reverse] at h
  have h2 := mem_dropWhile_mem h
  rw [List.mem_reverse] at h2
  exact mem_dropWhile_mem h2

theorem mem_subNonAlnumAux {sep : Char} {s : List Char} {c : Char} :
    ∀ {b : Bool}, c ∈ subNonAlnumAux sep b s → isAsciiAlnum c = true ∨ c = sep := by
  induction s with
  | nil => intro b h; simp [subNonAlnumAux] at h
  | cons d ds ih =>
    intro b h
    unfold subNonAlnumAux at h
    by_cases ha : isAsciiAlnum d = true
    · simp only [ha, if_true] at h
      rcases List.mem_cons.mp h with h | h
      · exact Or.inl (h ▸ ha)
      · exact ih h
    · simp only [ha] at h
      cases b with
      | true => simpa using ih h
      | false =>
        simp only [Bool.false_eq_true, if_false] at h
        rcases List.mem_cons.mp h with h | h
        · exact Or.inr h
        · exact ih h

/-- Words produced by pySplitWs contain no whitespace and only characters of
the input (or of the accumulator). -/
theorem pySplitWsAux_words {s : List Char} :
    ∀ {cur : List Char}, (∀ c ∈ cur, pyIsSpace c = false) →
      ∀ w ∈ pySplitWsAux cur s, w ≠ [] ∧
        ∀ c ∈ w, pyIsSpace c = false ∧ (c ∈ cur ∨ c ∈ s) := by
  induction s with
  | nil =>
    intro cur hcur w hw
    unfold pySplitWsAux at hw
    by_cases hc : cur.isEmpty
    · simp [hc] at hw
    · simp only [hc, Bool.false_eq_true, if_false, List.mem_singleton] at hw
      subst hw
      refine ⟨by simpa [List.isEmpty_iff] using hc, ?_⟩
      intro c hcm
      rw [List.mem_reverse] at hcm
      exact ⟨hcur c hcm, Or.inl hcm⟩
  | cons d ds ih =>
    intro cur hcur w hw
    unfold pySplitWsAux at hw
    by_cases hd : pyIsSpace d = true
    · simp only [hd, if_true] at hw
      by_cases hc : cur.isEmpty
      · simp only [hc, if_true] at hw
        obtain ⟨hne, hmem⟩ := ih (by intro c h; simp at h) w hw
        exact ⟨hne, fun c hcm => ⟨(hmem c hcm).1,
          Or.inr (List.mem_cons_of_mem _ ((hmem c hcm).2.resolve_left (by intro h; simp at h)))⟩⟩
      · simp only [hc, Bool.false_eq_true, if_false] at hw
        rcases List.mem_cons.mp hw with hw | hw
        · subst hw
          refine ⟨by simpa [List.isEmpty_iff] using hc, ?_⟩
          intro c hcm
          rw [List.mem_reverse] at hcm
          exact ⟨hcur c hcm, Or.inl hcm⟩
        · obtain ⟨hne, hmem⟩ := ih (by intro c h; simp at h) w hw
          exact ⟨hne, fun c hcm => ⟨(hmem c hcm).1,
            Or.inr (List.mem_cons_of_mem _ ((hmem c hcm).2.resolve_left (by intro h; simp at h)))⟩⟩
    · simp only [hd, Bool.false_eq_true, if_false] at hw
      have hcur' : ∀ c ∈ d :: cur, pyIsSpace c = false := by
        intro c hcm
        rcases List.mem_cons.mp hcm with h | h
        · exact h ▸ (by simpa using hd)
        · exact hcur c h
      obtain ⟨hne, hmem⟩ := ih hcur' w hw
      refine ⟨hne, fun c hcm => ⟨(hmem c hcm).1, ?_⟩⟩
      rcases (hmem c hcm).2 with h | h
      · rcases List.mem_cons.mp h with h | h
        · exact Or.inr (h ▸ List.mem_cons_self _ _)
        · exact Or.inl h
      · exact Or.inr (List.mem_cons_of_mem _ h)

/-! List helpers for prefixes and truncation. -/

theorem prefix_take_of_prefix {α : Type} {p l : List α} {n : Nat}
    (h : p <+: l) (hn : p.length ≤ n) : p <+: l.take n := by
  obtain ⟨t, rfl⟩ := h
  rw [List.take_append_eq_append_take, List.take_of_length_le hn]
  exact List.prefix_append _ _

theorem take_ne_nil_of_ne_nil {α : Type} {l : List α} (h : l ≠ []) {n : Nat}
    (hn : n ≠ 0) : l.take n ≠ [] := by
  simp [List.take_eq_nil_iff, h, hn]

theorem head?_cons_pre {α : Type} {p r : List α} {c : α}
    (h : (c :: p) <+: r) : r.head? = some c := by
  obtain ⟨t, rfl⟩ := h
  rfl

namespace Producao

theorem cleanBody_chars {text : List Char} : ∀ c ∈ cleanBody text, identChar c = true := by
  intro c hc
  unfold cleanBody at hc
  obtain ⟨d, hd, rfl⟩ := List.mem_map.mp hc
  apply identChar_toLower
  rcases mem_subNonAlnumAux (mem_pyStripChar_mem hd) with h | h
  · simp [identChar, h]
  · subst h; decide

/-- Well-formedness of the snake_case sanitizer: non-empty, identifier
characters only, within the truncation limit, prefixed when requested. -/
theorem sanitize_wf_snake (text : List Char) (b : Bool) :
    sanitize_name text b ≠ [] ∧ (∀ c ∈ sanitize_name text b, identChar c = true) ∧
    (sanitize_name text b).length ≤ TRUNCATE_LIMIT ∧
    (b = true → TABLE_PREFIX <+: sanitize_name text b) := by
  unfold sanitize_name
  by_cases h0 : text.all pyIsSpace = true
  · simp only [h0, if_true]
    cases b
    · exact ⟨by decide, by decide, by decide, by intro h; cases h⟩
    · exact ⟨by decide, by decide, by decide, fun _ => by decide⟩
  · simp only [h0, Bool.false_eq_true, if_false]
    by_cases h2 : cleanBody text = []
    · simp only [h2, if_true]
      cases b
      · exact ⟨by decide, by decide, by decide, by intro h; cases h⟩
      · exact ⟨by decide, by decide, by decide, fun _ => by decide⟩
    · simp only [h2, if_false]
      by_cases h3 : (b && !(TABLE_PREFIX.isPrefixOf (cleanBody text))) = true
      · simp only [h3, if_true]
        refine ⟨take_ne_nil_of_ne_nil (by simp [TABLE_PREFIX]) (by decide), ?_, ?_, ?_⟩
        · intro c hc
          rcases List.mem_append.mp ((List.take_sublist _ _).mem hc) with h | h
          · revert h
            have : ∀ c ∈ TABLE_PREFIX, identChar c = true := by decide
            exact this c
          · exact cleanBody_chars c h
        · rw [List.length_take]; exact min_le_left _ _
        · intro _
          exact prefix_take_of_prefix (List.prefix_append _ _) (by decide)
      · simp only [h3, Bool.false_eq_true, if_false]
        refine ⟨take_ne_nil_of_ne_nil h2 (by decide), ?_, ?_, ?_⟩
        · intro c hc
          exact cleanBody_chars c ((List.take_sublist _ _).mem hc)
        · rw [List.length_take]; exact min_le_left _ _
        · intro hb
          subst hb
          have hp : TABLE_PREFIX.isPrefixOf (cleanBody text) = true := by
            simpa using h3
          exact prefix_take_of_prefix (List.isPrefixOf_iff_prefix.mp hp) (by decide)

end Producao

namespace SldVariant

theorem wordsOf_chars {text : List Char} :
    ∀ w ∈ wordsOf text, w ≠ [] ∧ ∀ c ∈ w, isAsciiAlnum c = true := by
  intro w hw
  unfold wordsOf pySplitWs at hw
  obtain ⟨hne, hmem⟩ := pySplitWsAux_words (by intro c h; cases h) w hw
  refine ⟨hne, fun c hc => ?_⟩
  obtain ⟨hns, hin⟩ := hmem c hc
  rcases hin with h | h
  · cases h
  · rcases mem_subNonAlnumAux h with h | h
    · exact h
    · subst h; cases hns

theorem camelOf_chars {ws : List (List Char)}
    (h : ∀ w ∈ ws, ∀ c ∈ w, isAsciiAlnum c = true) :
    ∀ c ∈ camelOf ws, identChar c = true := by
  intro c hc
  cases ws with
  | nil => cases hc
  | cons w rest =>
    unfold camelOf at hc
    rcases List.mem_append.mp hc with hm | hm
    · obtain ⟨d, hd, rfl⟩ := List.mem_map.mp hm
      exact identChar_toLower (by simp [identChar, h w (List.mem_cons_self _ _) d hd])
    · obtain ⟨w', hw', hcw⟩ := List.mem_flatten.mp hm
      obtain ⟨w0, hw0, rfl⟩ := List.mem_map.mp hw'
      cases w0 with
      | nil => cases hcw
      | cons e es =>
        unfold pyCapitalize at hcw
        rcases List.mem_cons.mp hcw with h' | h'
        · subst h'
          exact identChar_toUpper
            (by simp [identChar, h _ (List.mem_cons_of_mem _ hw0) e (List.mem_cons_self _ _)])
        · obtain ⟨d, hd, rfl⟩ := List.mem_map.mp h'
          exact identChar_toLower
            (by simp [identChar, h _ (List.mem_cons_of_mem _ hw0) d (List.mem_cons_of_mem _ hd)])

theorem camelOf_ne_nil {ws : List (List Char)} (hne : ws ≠ [])
    (h : ∀ w ∈ ws, w ≠ []) : camelOf ws ≠ [] := by
  cases ws with
  | nil => exact absurd rfl hne
  | cons w rest =>
    unfold camelOf
    have : w ≠ [] := h w (List.mem_cons_self _ _)
    cases w with
    | nil => exact absurd rfl this
    | cons c cs => simp

/-- Well-formedness of the camelCase sanitizer: non-empty, identifier
characters only, within the truncation limit, prefixed when requested. -/
theorem sanitize_wf_camel (text : List Char) (b : Bool) :
    sanitize_name text b ≠ [] ∧ (∀ c ∈ sanitize_name text b, identChar c = true) ∧
    (sanitize_name text b).length ≤ TRUNCATE_LIMIT ∧
    (b = true → TABLE_PREFIX <+: sanitize_name text b) := by
  unfold sanitize_name
  by_cases h0 : text.all pyIsSpace = true
  · simp only [h0, if_true]
    cases b
    · exact ⟨by decide, by decide, by decide, by intro h; cases h⟩
    · exact ⟨by decide, by decide, by decide, fun _ => by decide⟩
  · simp only [h0, Bool.false_eq_true, if_false]
    by_cases h2 : wordsOf text = []
    · simp only [h2, if_true]
      cases b
      · exact ⟨by decide, by decide, by decide, by intro h; cases h⟩
      · exact ⟨by decide, by decide, by decide, fun _ => by decide⟩
    · simp only [h2, if_false]
      have hcm : camelOf (wordsOf text) ≠ [] :=
        camelOf_ne_nil h2 (fun w hw => (wordsOf_chars w hw).1)
      have hch : ∀ c ∈ camelOf (wordsOf text), identChar c = true :=
        camelOf_chars (fun w hw => (wordsOf_chars w hw).2)
      by_cases h3 : (b && !(TABLE_PREFIX.isPrefixOf (camelOf (wordsOf text)))) = true
      · simp only [h3, if_true]
        refine ⟨take_ne_nil_of_ne_nil (by simp [TABLE_PREFIX]) (by decide), ?_, ?_, ?_⟩
        · intro c hc
          rcases List.mem_append.mp ((List.take_sublist _ _).mem hc) with h | h
          · revert h
            have : ∀ c ∈ TABLE_PREFIX, identChar c = true := by decide
            exact this c
          · exact hch c h
        · rw [List.length_take]; exact min_le_left _ _
        · intro _
          exact prefix_take_of_prefix (List.prefix_append _ _) (by decide)
      · simp only [h3, Bool.false_eq_true, if_false]
        refine ⟨take_ne_nil_of_ne_nil hcm (by decide), ?_, ?_, ?_⟩
        · intro c hc
          exact hch c ((List.take_sublist _ _).mem hc)
        · rw [List.length_take]; exact min_le_left _ _
        · intro hb
          subst hb
          have hp : TABLE_PREFIX.isPrefixOf (camelOf (wordsOf text)) = true := by
            simpa using h3
          exact prefix_take_of_prefix (List.isPrefixOf_iff_prefix.mp hp) (by decide)

end SldVariant

/-- C1: for every input string and every boolean addPrefix, sanitize_name
returns a non-empty string of ASCII letters, digits and underscores, of
length at most TRUNCATE_LIMIT = 63; when addPrefix is true the result
starts with the configured table prefix and therefore does not start with a
digit.  This holds for the lowercase-underscore variant
(clean_and_export-producao.py) and for the camelCase variant
(clean_and_export_gpkg-DB-sld.py). -/
theorem c1_sanitize_name_wellformed (text : List Char) (b : Bool) :
    (Producao.sanitize_name text b ≠ [] ∧
      (∀ c ∈ Producao.sanitize_name text b, identChar c = true) ∧
      (Producao.sanitize_name text b).length ≤ Producao.TRUNCATE_LIMIT ∧
      (b = true → Producao.TABLE_PREFIX <+: Producao.sanitize_name text b ∧
        ∀ c, (Producao.sanitize_name text b).head? = some c → c.isDigit = false)) ∧
    (SldVariant.sanitize_name text b ≠ [] ∧
      (∀ c ∈ SldVariant.sanitize_name text b, identChar c = true) ∧
      (SldVariant.sanitize_name text b).length ≤ SldVariant.TRUNCATE_LIMIT ∧
      (b = true → SldVariant.TABLE_PREFIX <+: SldVariant.sanitize_name text b ∧
        ∀ c, (SldVariant.sanitize_name text b).head? = some c → c.isDigit = false)) := by
  obtain ⟨p1, p2, p3, p4⟩ := Producao.sanitize_wf_snake text b
  obtain ⟨q1, q2, q3, q4⟩ := SldVariant.sanitize_wf_camel text b
  refine ⟨⟨p1, p2, p3, fun hb => ⟨p4 hb, ?_⟩⟩, ⟨q1, q2, q3, fun hb => ⟨q4 hb, ?_⟩⟩⟩
  · have hpre := p4 hb
    rw [show Producao.TABLE_PREFIX = 't' :: "este006_".data from rfl] at hpre
    intro c hc
    rw [head?_cons_pre hpre] at hc
    cases hc
    decide
  · have hpre := q4 hb
    rw [show SldVariant.TABLE_PREFIX = 't' :: "este_".data from rfl] at hpre
    intro c hc
    rw [head?_cons_pre hpre] at hc
    cases hc
    decide

/-- Witness for C1 at the concrete layer name "Uso do Solo (2024)" with
addPrefix = true, discharging the inner hypothesis b = true. -/
theorem c1_sanitize_name_wellformed_witness :
    Producao.TABLE_PREFIX <+: Producao.sanitize_name "Uso do Solo (2024)".data true ∧
    SldVariant.TABLE_PREFIX <+: SldVariant.sanitize_name "Uso do Solo (2024)".data true :=
  ⟨((c1_sanitize_name_wellformed "Uso do Solo (2024)".data true).1.2.2.2 rfl).1,
   ((c1_sanitize_name_wellformed "Uso do Solo (2024)".data true).2.2.2.2 rfl).1⟩

/-- C7: under the camelCase variant with prefix "teste_",
sanitize_name("Área km²", True) = "teste_areaKm": the accent is stripped,
'²' acts as a separator producing an empty trailing word that is dropped,
and "km" is capitalized as the second word. -/
theorem c7_area_km2_camel :
    SldVariant.sanitize_name "Área km²".data true = "teste_areaKm".data := by decide

/-! Infrastructure for the duplicate-suffix resolver. -/

theorem natDigitsAux_append (fuel : Nat) : ∀ (n : Nat) (acc : List Char),
    natDigitsAux fuel n acc = natDigitsAux fuel n [] ++ acc := by
  induction fuel with
  | zero => intro n acc; rfl
  | succ fuel ih =>
    intro n acc
    unfold natDigitsAux
    by_cases h : n < 10
    · rw [if_pos h, if_pos h]; rfl
    · rw [if_neg h, if_neg h, ih (n / 10), ih (n / 10) [digitChar (n % 10)]]
      simp

theorem natDigitsAux_fuel : ∀ (n f1 f2 : Nat), n ≤ f1 → n ≤ f2 →
    natDigitsAux f1 n [] = natDigitsAux f2 n [] := by
  intro n
  induction n using Nat.strong_induction_on with
  | _ n ih =>
    intro f1 f2 h1 h2
    by_cases h : n < 10
    · cases f1 <;> cases f2 <;> simp [natDigitsAux, h]
    · obtain ⟨f1', rfl⟩ : ∃ k, f1 = k + 1 := ⟨f1 - 1, by omega⟩
      obtain ⟨f2', rfl⟩ : ∃ k, f2 = k + 1 := ⟨f2 - 1, by omega⟩
      unfold natDigitsAux
      rw [if_neg h, if_neg h]
      rw [natDigitsAux_append f1', natDigitsAux_append f2']
      rw [ih (n / 10) (Nat.div_lt_self (by omega) (by omega)) f1' f2' (by omega) (by omega)]

theorem natDigits_eq_of_ge (n : Nat) (h : 10 ≤ n) :
    natDigits n = natDigits (n / 10) ++ [digitChar (n % 10)] := by
  have h1 : natDigits n = natDigitsAux (n - 1 + 1) n [] := by
    unfold natDigits; congr 1; omega
  rw [h1]
  unfold natDigitsAux
  rw [if_neg (by omega)]
  rw [natDigitsAux_append]
  unfold natDigits
  rw [natDigitsAux_fuel (n / 10) (n - 1) (n / 10) (by omega) (le_refl _)]

theorem digitChar_toNat {d : Nat} (h : d < 10) : (digitChar d).toNat = 48 + d := by
  interval_cases d <;> decide

/-- Decimal value of a digit string; used only to prove natDigits injective. -/
def digitsVal (l : List Char) : Nat := l.foldl (fun a c => 10 * a + (c.toNat - 48)) 0

theorem digitsVal_natDigits : ∀ n, digitsVal (natDigits n) = n := by
  intro n
  induction n using Nat.strong_induction_on with
  | _ n ih =>
    by_cases h : n < 10
    · have he : natDigits n = [digitChar n] := by
        unfold natDigits
        cases hn : n with
        | zero => rfl
        | succ m =>
          unfold natDigitsAux
          rw [if_pos (by omega)]
      rw [he]
      have := digitChar_toNat h
      unfold digitsVal
      simp only [List.foldl_cons, List.foldl_nil]
      omega
    · rw [natDigits_eq_of_ge n (by omega)]
      unfold digitsVal
      rw [List.foldl_append]
      show 10 * digitsVal (natDigits (n / 10)) + ((digitChar (n % 10)).toNat - 48) = n
      rw [ih (n / 10) (Nat.div_lt_self (by omega) (by omega)), digitChar_toNat (by omega)]
      omega

theorem natDigits_injective : Function.Injective natDigits := by
  intro m n h
  have hm := digitsVal_natDigits m
  rw [h, digitsVal_natDigits] at hm
  omega

theorem suffixCand_inj {base : List Char} {j k : Nat} (hj : 1 ≤ j) (hk : 1 ≤ k)
    (h : suffixCand base j = suffixCand base k) : j = k := by
  unfold suffixCand at h
  rw [if_neg (by omega), if_neg (by omega)] at h
  have h2 := List.append_cancel_left h
  have h3 : natDigits j = natDigits k := by injection h2
  exact natDigits_injective h3

theorem exists_fresh_suffix (seen : List (List Char)) (base : List Char) :
    ∃ j, 1 ≤ j ∧ j < seen.length + 2 ∧ suffixCand base j ∉ seen := by
  by_contra hcon
  push_neg at hcon
  have hsub : ((List.range (seen.length + 1)).map (fun i => suffixCand base (i + 1))) ⊆ seen := by
    intro x hx
    obtain ⟨i, hi, rfl⟩ := List.mem_map.mp hx
    rw [List.mem_range] at hi
    exact hcon (i + 1) (by omega) (by omega)
  have hinj : Function.Injective (fun i => suffixCand base (i + 1)) := by
    intro a b hab
    have := @suffixCand_inj base (a + 1) (b + 1) (by omega) (by omega) hab
    omega
  have hnd := (List.nodup_range (seen.length + 1)).map hinj
  have := (List.subperm_of_subset hnd hsub).length_le
  simp at this

theorem searchSuffix_spec (seen : List (List Char)) (base : List Char) :
    ∀ (fuel k : Nat), (∃ j, k ≤ j ∧ j < k + fuel ∧ suffixCand base j ∉ seen) →
      ∃ j, k ≤ j ∧ searchSuffix seen base k fuel = suffixCand base j ∧
        suffixCand base j ∉ seen ∧ ∀ i, k ≤ i → i < j → suffixCand base i ∈ seen := by
  intro fuel
  induction fuel with
  | zero =>
    intro k h
    obtain ⟨j, h1, h2, _⟩ := h
    omega
  | succ fuel ih =>
    intro k hex
    unfold searchSuffix
    by_cases hk : suffixCand base k ∈ seen
    · rw [if_pos hk]
      obtain ⟨j, hj1, hj2, hj3⟩ := hex
      have hjk : j ≠ k := fun h => hj3 (h ▸ hk)
      obtain ⟨j', hj'1, hj'2, hj'3, hj'4⟩ := ih (k + 1) ⟨j, by omega, by omega, hj3⟩
      refine ⟨j', by omega, hj'2, hj'3, ?_⟩
      intro i hi1 hi2
      rcases Nat.eq_or_lt_of_le hi1 with rfl | hlt
      · exact hk
      · exact hj'4 i hlt hi2
    · rw [if_neg hk]
      exact ⟨k, le_refl _, rfl, hk, fun i h1 h2 => absurd (lt_of_le_of_lt h1 h2) (lt_irrefl _)⟩

theorem resolveDup_spec (seen : List (List Char)) (base : List Char) :
    ∃ j, resolveDup seen base = suffixCand base j ∧ suffixCand base j ∉ seen ∧
      ∀ i, i < j → suffixCand base i ∈ seen := by
  obtain ⟨j0, h1, h2, h3⟩ := exists_fresh_suffix seen base
  obtain ⟨j, _, h5, h6, h7⟩ :=
    searchSuffix_spec seen base (seen.length + 2) 0 ⟨j0, by omega, by omega, h3⟩
  exact ⟨j, h5, h6, fun i hi => h7 i (by omega) hi⟩

theorem resolveDup_not_mem (seen : List (List Char)) (base : List Char) :
    resolveDup seen base ∉ seen := by
  obtain ⟨j, h1, h2, _⟩ := resolveDup_spec seen base
  rw [h1]
  exact h2

theorem resolveDup_of_not_mem {seen : List (List Char)} {base : List Char}
    (h : base ∉ seen) : resolveDup seen base = base := by
  obtain ⟨j, h1, h2, h3⟩ := resolveDup_spec seen base
  rcases Nat.eq_zero_or_pos j with rfl | hpos
  · simpa [suffixCand] using h1
  · exact absurd (by simpa [suffixCand] using h3 0 hpos) h

namespace Producao

theorem build_field_rename_aux_length :
    ∀ (fs seen : List (List Char)),
      (build_field_rename_aux seen fs).length = fs.length := by
  intro fs
  induction fs with
  | nil => intro seen; rfl
  | cons f fs' ih =>
    intro seen
    unfold build_field_rename_aux
    simp [ih]

theorem build_field_rename_aux_fst :
    ∀ (fs seen : List (List Char)),
      (build_field_rename_aux seen fs).map Prod.fst = fs := by
  intro fs
  induction fs with
  | nil => intro seen; rfl
  | cons f fs' ih =>
    intro seen
    unfold build_field_rename_aux
    simp [ih]

theorem build_field_rename_aux_snd_fresh :
    ∀ (fs seen : List (List Char)),
      (((build_field_rename_aux seen fs).map Prod.snd).Nodup ∧
        ∀ v ∈ (build_field_rename_aux seen fs).map Prod.snd, v ∉ seen) := by
  intro fs
  induction fs with
  | nil =>
    intro seen
    exact ⟨List.nodup_nil, by intro v h; cases h⟩
  | cons f fs' ih =>
    intro seen
    obtain ⟨ih1, ih2⟩ := ih (seen ++ [resolveDup seen (sanitize_name f false)])
    have hstep : (build_field_rename_aux seen (f :: fs')).map Prod.snd =
        resolveDup seen (sanitize_name f false) ::
          (build_field_rename_aux (seen ++ [resolveDup seen (sanitize_name f false)]) fs').map
            Prod.snd := rfl
    rw [hstep]
    constructor
    · refine List.nodup_cons.mpr ⟨?_, ih1⟩
      intro hmem
      have := ih2 _ hmem
      simp at this
    · intro v hv
      rcases List.mem_cons.mp hv with rfl | hv'
      · exact resolveDup_not_mem seen _
      · intro hvs
        exact (ih2 v hv') (List.mem_append.mpr (Or.inl hvs))

theorem build_field_rename_aux_get :
    ∀ (fs seen : List (List Char)) (i : Nat) (hi : i < fs.length)
      (hi2 : i < (build_field_rename_aux seen fs).length),
      (build_field_rename_aux seen fs).get ⟨i, hi2⟩ =
        (fs.get ⟨i, hi⟩,
          resolveDup (seen ++ ((build_field_rename_aux seen fs).map Prod.snd).take i)
            (sanitize_name (fs.get ⟨i, hi⟩) false)) := by
  intro fs
  induction fs with
  | nil =>
    intro seen i hi
    cases hi
  | cons f fs' ih =>
    intro seen i hi hi2
    cases i with
    | zero =>
      show (f, resolveDup seen (sanitize_name f false)) = _
      simp
    | succ i' =>
      have hi' : i' < fs'.length := by simpa using hi
      have hi2' : i' < (build_field_rename_aux
          (seen ++ [resolveDup seen (sanitize_name f false)]) fs').length := by
        rw [build_field_rename_aux_length]
        exact hi'
      show (build_field_rename_aux (seen ++ [resolveDup seen (sanitize_name f false)]) fs').get
          ⟨i', hi2'⟩ =
        (fs'.get ⟨i', hi'⟩,
          resolveDup (seen ++ (resolveDup seen (sanitize_name f false) ::
              ((build_field_rename_aux (seen ++ [resolveDup seen (sanitize_name f false)]) fs').map
                Prod.snd).take i'))
            (sanitize_name (fs'.get ⟨i', hi'⟩) false))
      rw [ih _ i' hi' hi2']
      have harr : (seen ++ [resolveDup seen (sanitize_name f false)]) ++
          ((build_field_rename_aux (seen ++ [resolveDup seen (sanitize_name f false)]) fs').map
            Prod.snd).take i' =
          seen ++ (resolveDup seen (sanitize_name f false) ::
            ((build_field_rename_aux (seen ++ [resolveDup seen (sanitize_name f false)]) fs').map
              Prod.snd).take i') := by
        simp
      rw [harr]

end Producao

/-- C2: for every ordered list of pairwise-distinct field names,
build_field_rename returns one entry per input field (keys in order, so
length = number of fields) with pairwise-distinct values; a field whose
sanitized form was not produced by any earlier field maps to that form
unchanged, and a colliding field maps to that form suffixed with _k for the
smallest positive integer k whose candidate is not among the earlier
outputs; in particular ["ID", "id"] resolves to ID ↦ id, id ↦ id_1. -/
theorem c2_build_field_rename_collision_resolution
    (fields : List (List Char)) (hnd : fields.Nodup) :
    ((Producao.build_field_rename fields).map Prod.fst = fields) ∧
    (Producao.build_field_rename fields).length = fields.length ∧
    ((Producao.build_field_rename fields).map Prod.snd).Nodup ∧
    (∀ (i : Nat) (hi : i < fields.length)
        (hi2 : i < (Producao.build_field_rename fields).length),
      (Producao.sanitize_name (fields.get ⟨i, hi⟩) false ∉
          ((Producao.build_field_rename fields).map Prod.snd).take i →
        ((Producao.build_field_rename fields).get ⟨i, hi2⟩).snd =
          Producao.sanitize_name (fields.get ⟨i, hi⟩) false) ∧
      (Producao.sanitize_name (fields.get ⟨i, hi⟩) false ∈
          ((Producao.build_field_rename fields).map Prod.snd).take i →
        ∃ k, 1 ≤ k ∧
          ((Producao.build_field_rename fields).get ⟨i, hi2⟩).snd =
            suffixCand (Producao.sanitize_name (fields.get ⟨i, hi⟩) false) k ∧
          suffixCand (Producao.sanitize_name (fields.get ⟨i, hi⟩) false) k ∉
            ((Producao.build_field_rename fields).map Prod.snd).take i ∧
          ∀ j, 1 ≤ j → j < k →
            suffixCand (Producao.sanitize_name (fields.get ⟨i, hi⟩) false) j ∈
              ((Producao.build_field_rename fields).map Prod.snd).take i)) ∧
    Producao.build_field_rename ["ID".data, "id".data] =
      [("ID".data, "id".data), ("id".data, "id_1".data)] := by
  unfold Producao.build_field_rename
  refine ⟨Producao.build_field_rename_aux_fst fields [],
    Producao.build_field_rename_aux_length fields [],
    (Producao.build_field_rename_aux_snd_fresh fields []).1, ?_, by decide⟩
  intro i hi hi2
  have hget := Producao.build_field_rename_aux_get fields [] i hi hi2
  rw [List.nil_append] at hget
  constructor
  · intro hnm
    rw [hget]
    exact resolveDup_of_not_mem hnm
  · intro hm
    obtain ⟨j, hj1, hj2, hj3⟩ :=
      resolveDup_spec (((Producao.build_field_rename fields).map Prod.snd).take i)
        (Producao.sanitize_name (fields.get ⟨i, hi⟩) false)
    have hjpos : 1 ≤ j := by
      rcases Nat.eq_zero_or_pos j with rfl | hp
      · exact absurd (by simpa [suffixCand] using hj2) (by simpa using hm)
      · exact hp
    refine ⟨j, hjpos, ?_, hj2, ?_⟩
    · rw [hget]
      exact hj1
    · intro j' h1 h2
      exact hj3 j' h2

/-- Witness for C2 at the concrete field list ["ID", "id"], discharging the
distinctness hypothesis. -/
theorem c2_build_field_rename_collision_resolution_witness :
    (["ID".data, "id".data] : List (List Char)).Nodup ∧
    ((Producao.build_field_rename ["ID".data, "id".data]).map Prod.snd).Nodup :=
  ⟨by decide,
    (c2_build_field_rename_collision_resolution ["ID".data, "id".data] (by decide)).2.2.1⟩

/-! Infrastructure for idempotence of the snake_case sanitizer (C4). -/

theorem char_le_iff {c d : Char} : c ≤ d ↔ c.toNat ≤ d.toNat := by
  rw [Char.le_def, UInt32.le_def]
  exact Iff.rfl

theorem char_beq_false_of_toNat_ne {c d : Char} (h : c.toNat ≠ d.toNat) :
    (c == d) = false :=
  beq_eq_false_iff_ne.mpr (fun he => h (he ▸ rfl))

/-- The characters a lowercase snake-identifier word consists of. -/
def lowerAlnum (c : Char) : Bool := ('a' ≤ c && c ≤ 'z') || ('0' ≤ c && c ≤ '9')

theorem lowerAlnum_toNat {c : Char} (h : lowerAlnum c = true) :
    (97 ≤ c.toNat ∧ c.toNat ≤ 122) ∨ (48 ≤ c.toNat ∧ c.toNat ≤ 57) := by
  unfold lowerAlnum at h
  simp only [Bool.or_eq_true, Bool.and_eq_true, decide_eq_true_eq] at h
  rcases h with ⟨h1, h2⟩ | ⟨h1, h2⟩
  · exact Or.inl ⟨char_le_iff.mp h1, char_le_iff.mp h2⟩
  · exact Or.inr ⟨char_le_iff.mp h1, char_le_iff.mp h2⟩

theorem lowerAlnum_isAsciiAlnum {c : Char} (h : lowerAlnum c = true) :
    isAsciiAlnum c = true := by
  unfold lowerAlnum at h
  unfold isAsciiAlnum
  simp only [Bool.or_eq_true] at h ⊢
  rcases h with h | h
  · exact Or.inl (Or.inl h)
  · exact Or.inr h

theorem nfdDecomp_eq_none {c : Char} (h : c.toNat < 192) : nfdDecomp c = none := by
  unfold nfdDecomp
  rw [List.find?_eq_none.mpr]
  · rfl
  · intro e he hbeq
    have hall : ∀ e ∈ nfdTable, 192 ≤ e.1.toNat := by decide
    rw [beq_iff_eq] at hbeq
    have := hall e he
    rw [hbeq] at this
    omega

theorem isMn_eq_false_of_ascii {c : Char} (h : c.toNat < 192) : isMn c = false := by
  unfold isMn
  rw [char_beq_false_of_toNat_ne (by intro he; rw [he] at h; exact absurd h (by decide)),
    char_beq_false_of_toNat_ne (by intro he; rw [he] at h; exact absurd h (by decide)),
    char_beq_false_of_toNat_ne (by intro he; rw [he] at h; exact absurd h (by decide)),
    char_beq_false_of_toNat_ne (by intro he; rw [he] at h; exact absurd h (by decide)),
    char_beq_false_of_toNat_ne (by intro he; rw [he] at h; exact absurd h (by decide)),
    char_beq_false_of_toNat_ne (by intro he; rw [he] at h; exact absurd h (by decide))]
  rfl

theorem nfdChar_eq_self {c : Char} (h : c.toNat < 192) : nfdChar c = [c] := by
  unfold nfdChar
  rw [nfdDecomp_eq_none h]

theorem nfd_eq_self {s : List Char} (h : ∀ c ∈ s, c.toNat < 192) : nfd s = s := by
  induction s with
  | nil => rfl
  | cons c cs ih =>
    show nfdChar c ++ nfd cs = c :: cs
    rw [nfdChar_eq_self (h c (List.mem_cons_self _ _)),
      ih (fun d hd => h d (List.mem_cons_of_mem _ hd))]
    rfl

theorem removeMn_eq_self {s : List Char} (h : ∀ c ∈ s, c.toNat < 192) : removeMn s = s :=
  List.filter_eq_self.mpr (fun c hc => by rw [isMn_eq_false_of_ascii (h c hc)]; rfl)

theorem pyIsSpace_eq_false {c : Char} (h : 48 ≤ c.toNat ∧ c.toNat ≤ 122) :
    pyIsSpace c = false := by
  unfold pyIsSpace
  rw [char_beq_false_of_toNat_ne (by intro he; rw [he] at h; exact absurd h (by decide)),
    char_beq_false_of_toNat_ne (by intro he; rw [he] at h; exact absurd h (by decide)),
    char_beq_false_of_toNat_ne (by intro he; rw [he] at h; exact absurd h (by decide)),
    char_beq_false_of_toNat_ne (by intro he; rw [he] at h; exact absurd h (by decide)),
    char_beq_false_of_toNat_ne (by intro he; rw [he] at h; exact absurd h (by decide)),
    char_beq_false_of_toNat_ne (by intro he; rw [he] at h; exact absurd h (by decide)),
    char_beq_false_of_toNat_ne (by intro he; rw [he] at h; exact absurd h (by decide)),
    char_beq_false_of_toNat_ne (by intro he; rw [he] at h; exact absurd h (by decide)),
    char_beq_false_of_toNat_ne (by intro he; rw [he] at h; exact absurd h (by decide)),
    char_beq_false_of_toNat_ne (by intro he; rw [he] at h; exact absurd h (by decide))]
  rfl

theorem toLower_eq_self {c : Char} (h : ¬(65 ≤ c.toNat ∧ c.toNat ≤ 90)) :
    c.toLower = c := by
  unfold Char.toLower
  show (if c.toNat ≥ 65 ∧ c.toNat ≤ 90 then Char.ofNat (c.toNat + 32) else c) = c
  rw [if_neg (by omega)]

/-- The canonical interleaving of identifier words with single underscores
(the untruncated shape of a snake_case sanitizer output). -/
def underscoreJoin : List (List Char) → List Char
  | [] => []
  | [w] => w
  | w :: v :: ws => w ++ '_' :: underscoreJoin (v :: ws)

theorem underscoreJoin_head? {v : List Char} {ws : List (List Char)} (h : v ≠ []) :
    (underscoreJoin (v :: ws)).head? = v.head? := by
  cases ws with
  | nil => rfl
  | cons v' ws' =>
    show (v ++ '_' :: underscoreJoin (v' :: ws')).head? = v.head?
    cases v with
    | nil => exact absurd rfl h
    | cons c cs => rfl

theorem underscoreJoin_ne_nil {v : List Char} {ws : List (List Char)} (h : v ≠ []) :
    underscoreJoin (v :: ws) ≠ [] := by
  cases ws with
  | nil => exact h
  | cons v' ws' =>
    show v ++ '_' :: underscoreJoin (v' :: ws') ≠ []
    simp

theorem underscoreJoin_getLast? : ∀ {ws : List (List Char)}, (∀ w ∈ ws, w ≠ []) →
    ws ≠ [] → ∃ c, (underscoreJoin ws).getLast? = some c ∧ ∃ w ∈ ws, c ∈ w := by
  intro ws
  induction ws with
  | nil => intro _ h; exact absurd rfl h
  | cons w ws' ih =>
    intro hne _
    cases ws' with
    | nil =>
      have hw : w ≠ [] := hne w (List.mem_cons_self _ _)
      obtain ⟨c, hc⟩ : ∃ c, w.getLast? = some c := by
        cases hgl : w.getLast? with
        | none => exact absurd (List.getLast?_eq_none_iff.mp hgl) hw
        | some c => exact ⟨c, rfl⟩
      refine ⟨c, hc, w, List.mem_cons_self _ _, ?_⟩
      obtain ⟨hx, hy⟩ := List.mem_getLast?_eq_getLast (by rw [hc]; rfl)
      exact hy ▸ List.getLast_mem hx
    | cons v' ws'' =>
      have hne' : ∀ u ∈ v' :: ws'', u ≠ [] := fun u hu => hne u (List.mem_cons_of_mem _ hu)
      obtain ⟨c, hc1, u, hu, hcu⟩ := ih hne' (by simp)
      refine ⟨c, ?_, u, List.mem_cons_of_mem _ hu, hcu⟩
      show (w ++ '_' :: underscoreJoin (v' :: ws'')).getLast? = some c
      rw [List.getLast?_append]
      rw [List.getLast?_cons, hc1]
      have : underscoreJoin (v' :: ws'') ≠ [] :=
        underscoreJoin_ne_nil (hne' v' (List.mem_cons_self _ _))
      simp

theorem pyStripChar_eq_self {ch : Char} {s : List Char}
    (h1 : ∀ c, s.head? = some c → (c == ch) = false)
    (h2 : ∀ c, s.getLast? = some c → (c == ch) = false) :
    pyStripChar ch s = s := by
  unfold pyStripChar
  have d1 : s.dropWhile (· == ch) = s := by
    cases s with
    | nil => rfl
    | cons c cs =>
      rw [List.dropWhile_cons, if_neg]
      simp [h1 c rfl]
  rw [d1]
  have d2 : s.reverse.dropWhile (· == ch) = s.reverse := by
    cases hs : s.reverse with
    | nil => rfl
    | cons c cs =>
      rw [List.dropWhile_cons, if_neg]
      have hl : s.getLast? = some c := by
        rw [← List.head?_reverse, hs]
        rfl
      simp [h2 c hl]
  rw [d2, List.reverse_reverse]

theorem subNonAlnumAux_alnum_pre (sep : Char) : ∀ (w r : List Char),
    (∀ c ∈ w, isAsciiAlnum c = true) →
    subNonAlnumAux sep false (w ++ r) = w ++ subNonAlnumAux sep false r := by
  intro w
  induction w with
  | nil => intro r _; rfl
  | cons c cs ih =>
    intro r h
    show (if isAsciiAlnum c = true then c :: subNonAlnumAux sep false (cs ++ r)
      else if false = true then subNonAlnumAux sep true (cs ++ r)
      else sep :: subNonAlnumAux sep true (cs ++ r)) = (c :: cs) ++ subNonAlnumAux sep false r
    rw [if_pos (h c (List.mem_cons_self _ _)), ih r (fun d hd => h d (List.mem_cons_of_mem _ hd))]
    rfl

theorem subNonAlnumAux_true_of_head_alnum (sep : Char) {l : List Char}
    (h : ∀ c, l.head? = some c → isAsciiAlnum c = true) :
    subNonAlnumAux sep true l = subNonAlnumAux sep false l := by
  cases l with
  | nil => rfl
  | cons c cs =>
    have hc := h c rfl
    show (if isAsciiAlnum c = true then c :: subNonAlnumAux sep false cs
      else if true = true then subNonAlnumAux sep true cs else sep :: subNonAlnumAux sep true cs) =
      (if isAsciiAlnum c = true then c :: subNonAlnumAux sep false cs
      else if false = true then subNonAlnumAux sep true cs else sep :: subNonAlnumAux sep true cs)
    rw [if_pos hc, if_pos hc]

theorem subNonAlnum_underscoreJoin : ∀ (ws : List (List Char)),
    (∀ w ∈ ws, w ≠ []) → (∀ w ∈ ws, ∀ c ∈ w, isAsciiAlnum c = true) →
    subNonAlnum '_' (underscoreJoin ws) = underscoreJoin ws := by
  intro ws
  induction ws with
  | nil => intro _ _; rfl
  | cons w ws' ih =>
    intro hne hch
    cases ws' with
    | nil =>
      show subNonAlnum '_' w = w
      have h1 := subNonAlnumAux_alnum_pre '_' w [] (hch w (List.mem_cons_self _ _))
      unfold subNonAlnum
      simpa [subNonAlnumAux] using h1
    | cons v ws'' =>
      show subNonAlnum '_' (w ++ '_' :: underscoreJoin (v :: ws'')) =
        w ++ '_' :: underscoreJoin (v :: ws'')
      unfold subNonAlnum
      rw [subNonAlnumAux_alnum_pre '_' w _ (hch w (List.mem_cons_self _ _))]
      congr 1
      show (if isAsciiAlnum '_' = true then '_' :: subNonAlnumAux '_' false (underscoreJoin (v :: ws''))
        else if false = true then subNonAlnumAux '_' true (underscoreJoin (v :: ws''))
        else '_' :: subNonAlnumAux '_' true (underscoreJoin (v :: ws''))) =
        '_' :: underscoreJoin (v :: ws'')
      rw [if_neg (by decide), if_neg (by decide)]
      have hvne : v ≠ [] := hne v (List.mem_cons_of_mem _ (List.mem_cons_self _ _))
      rw [subNonAlnumAux_true_of_head_alnum '_' (fun c hc => by
        rw [underscoreJoin_head? hvne] at hc
        cases v with
        | nil => exact absurd rfl hvne
        | cons d ds =>
          have hdc : d = c := by simpa using hc
          subst hdc
          exact hch _ (List.mem_cons_of_mem _ (List.mem_cons_self _ _)) d
            (List.mem_cons_self _ _))]
      have ih' := ih (fun u hu => hne u (List.mem_cons_of_mem _ hu))
        (fun u hu => hch u (List.mem_cons_of_mem _ hu))
      unfold subNonAlnum at ih'
      rw [ih']

theorem mem_underscoreJoin {c : Char} : ∀ {ws : List (List Char)},
    c ∈ underscoreJoin ws → (∃ w ∈ ws, c ∈ w) ∨ c = '_' := by
  intro ws
  induction ws with
  | nil => intro h; cases h
  | cons w ws' ih =>
    cases ws' with
    | nil =>
      intro h
      exact Or.inl ⟨w, List.mem_cons_self _ _, h⟩
    | cons v ws'' =>
      intro h
      rcases List.mem_append.mp h with h | h
      · exact Or.inl ⟨w, List.mem_cons_self _ _, h⟩
      · rcases List.mem_cons.mp h with rfl | h
        · exact Or.inr rfl
        · rcases ih h with ⟨u, hu, hcu⟩ | h
          · exact Or.inl ⟨u, List.mem_cons_of_mem _ hu, hcu⟩
          · exact Or.inr h


/-- C4 amended, positive part: the lowercase-underscore sanitizer is
idempotent on every untruncated canonical prefixed output: a prefix-bearing,
within-limit interleaving of nonempty lowercase-alphanumeric words with
single underscores.  (The camelCase variant is not idempotent on its
prefixed outputs, and a truncated snake output ending in '_' is not a fixed
point either; see the counterexample.) -/
theorem c4_snake_sanitize_idempotent (ws : List (List Char)) (hws : ws ≠ [])
    (hne : ∀ w ∈ ws, w ≠ []) (hch : ∀ w ∈ ws, ∀ c ∈ w, lowerAlnum c = true)
    (hpre : Producao.TABLE_PREFIX <+: underscoreJoin ws)
    (hlen : (underscoreJoin ws).length ≤ Producao.TRUNCATE_LIMIT) :
    Producao.sanitize_name (underscoreJoin ws) true = underscoreJoin ws := by
  cases ws with
  | nil => exact absurd rfl hws
  | cons w0 ws0 =>
  have hcs : ∀ c ∈ underscoreJoin (w0 :: ws0), lowerAlnum c = true ∨ c = '_' := by
    intro c hc
    rcases mem_underscoreJoin hc with ⟨w, hw, hcw⟩ | h
    · exact Or.inl (hch w hw c hcw)
    · exact Or.inr h
  have hascii : ∀ c ∈ underscoreJoin (w0 :: ws0), c.toNat < 192 := by
    intro c hc
    rcases hcs c hc with h | rfl
    · rcases lowerAlnum_toNat h with ⟨h1, h2⟩ | ⟨h1, h2⟩ <;> omega
    · decide
  have hw0 : w0 ≠ [] := hne w0 (List.mem_cons_self _ _)
  obtain ⟨ch, rr, hv⟩ : ∃ ch rr, w0 = ch :: rr := by
    cases w0 with
    | nil => exact absurd rfl hw0
    | cons a b => exact ⟨a, b, rfl⟩
  obtain ⟨c0, hc0h, hc0a⟩ :
      ∃ c0, (underscoreJoin (w0 :: ws0)).head? = some c0 ∧ lowerAlnum c0 = true := by
    refine ⟨ch, ?_, ?_⟩
    · rw [underscoreJoin_head? hw0, hv]
      rfl
    · exact hch w0 (List.mem_cons_self _ _) ch (by rw [hv]; exact List.mem_cons_self _ _)
  have hguard : (underscoreJoin (w0 :: ws0)).all pyIsSpace = false := by
    cases hall : (underscoreJoin (w0 :: ws0)).all pyIsSpace with
    | false => rfl
    | true =>
      have hc0m : c0 ∈ underscoreJoin (w0 :: ws0) := by
        cases hs : underscoreJoin (w0 :: ws0) with
        | nil => rw [hs] at hc0h; cases hc0h
        | cons a as =>
          rw [hs] at hc0h
          have haa : a = c0 := by simpa using hc0h
          exact haa ▸ List.mem_cons_self _ _
      have hsp := List.all_eq_true.mp hall c0 hc0m
      have hb : 48 ≤ c0.toNat ∧ c0.toNat ≤ 122 := by
        rcases lowerAlnum_toNat hc0a with ⟨h1, h2⟩ | ⟨h1, h2⟩ <;> omega
      rw [pyIsSpace_eq_false hb] at hsp
      cases hsp
  have hstrip1 : ∀ c, (underscoreJoin (w0 :: ws0)).head? = some c → (c == '_') = false := by
    intro c hc
    rw [hc0h] at hc
    have hcc : c0 = c := by simpa using hc
    subst hcc
    apply char_beq_false_of_toNat_ne
    rw [show ('_').toNat = 95 from rfl]
    rcases lowerAlnum_toNat hc0a with ⟨h1, h2⟩ | ⟨h1, h2⟩ <;> omega
  have hstrip2 : ∀ c, (underscoreJoin (w0 :: ws0)).getLast? = some c → (c == '_') = false := by
    intro c hc
    obtain ⟨cl, hcl1, u, hu, hcu⟩ := underscoreJoin_getLast? hne (by simp)
    rw [hcl1] at hc
    have hcc : cl = c := by simpa using hc
    subst hcc
    apply char_beq_false_of_toNat_ne
    rw [show ('_').toNat = 95 from rfl]
    rcases lowerAlnum_toNat (hch u hu cl hcu) with ⟨h1, h2⟩ | ⟨h1, h2⟩ <;> omega
  have hclean : Producao.cleanBody (underscoreJoin (w0 :: ws0)) =
      underscoreJoin (w0 :: ws0) := by
    unfold Producao.cleanBody
    rw [nfd_eq_self hascii, removeMn_eq_self hascii]
    rw [subNonAlnum_underscoreJoin _ hne
      (fun w hw c hc => lowerAlnum_isAsciiAlnum (hch w hw c hc))]
    rw [pyStripChar_eq_self hstrip1 hstrip2]
    have hmap : (underscoreJoin (w0 :: ws0)).map Char.toLower =
        (underscoreJoin (w0 :: ws0)).map id := by
      apply List.map_congr_left
      intro c hc
      apply toLower_eq_self
      rcases hcs c hc with h | rfl
      · rcases lowerAlnum_toNat h with ⟨h1, h2⟩ | ⟨h1, h2⟩ <;> omega
      · decide
    rw [hmap, List.map_id]
  unfold Producao.sanitize_name
  simp only [hguard, Bool.false_eq_true, if_false]
  rw [if_neg (by rw [hclean]; exact underscoreJoin_ne_nil hw0)]
  rw [if_neg (by
    rw [hclean, List.isPrefixOf_iff_prefix.mpr hpre]
    simp)]
  rw [hclean, List.take_of_length_le hlen]

/-- C4 counterexample: both variants fail idempotence on valid prefixed
within-limit sanitizer outputs.  camelCase: "teste_areaKm" is the sanitizer
output of "Área km²", starts with the prefix and is within the limit, yet
re-sanitizing gives "teste_testeAreakm" (the prefix underscore is camelized
away and the prefix prepended again).  snake_case: the 63-character
truncated output of a 64-character identifier ends in '_' and re-sanitizing
strips that underscore. -/
theorem c4_idempotence_counterexample :
    (SldVariant.sanitize_name "Área km²".data true = "teste_areaKm".data ∧
      SldVariant.TABLE_PREFIX <+: "teste_areaKm".data ∧
      ("teste_areaKm".data).length ≤ SldVariant.TRUNCATE_LIMIT ∧
      SldVariant.sanitize_name "teste_areaKm".data true = "teste_testeAreakm".data ∧
      SldVariant.sanitize_name "teste_areaKm".data true ≠ "teste_areaKm".data) ∧
    (Producao.sanitize_name "teste006_aaaaaaaaaaaaaaaaaaaaaaaaaaaaaaaaaaaaaaaaaaaaaaaaaaaaa_x".data true = "teste006_aaaaaaaaaaaaaaaaaaaaaaaaaaaaaaaaaaaaaaaaaaaaaaaaaaaaa_".data ∧
      Producao.TABLE_PREFIX <+: "teste006_aaaaaaaaaaaaaaaaaaaaaaaaaaaaaaaaaaaaaaaaaaaaaaaaaaaaa_".data ∧
      ("teste006_aaaaaaaaaaaaaaaaaaaaaaaaaaaaaaaaaaaaaaaaaaaaaaaaaaaaa_".data).length ≤ Producao.TRUNCATE_LIMIT ∧
      Producao.sanitize_name "teste006_aaaaaaaaaaaaaaaaaaaaaaaaaaaaaaaaaaaaaaaaaaaaaaaaaaaaa_".data true ≠ "teste006_aaaaaaaaaaaaaaaaaaaaaaaaaaaaaaaaaaaaaaaaaaaaaaaaaaaaa_".data) := by
  decide

/-- Witness for the amended C4 theorem at the canonical prefixed identifier
"teste006_sem_nome". -/
theorem c4_snake_sanitize_idempotent_witness :
    Producao.sanitize_name (underscoreJoin ["teste006".data, "sem".data, "nome".data]) true =
      underscoreJoin ["teste006".data, "sem".data, "nome".data] :=
  c4_snake_sanitize_idempotent ["teste006".data, "sem".data, "nome".data]
    (by decide) (by decide) (by decide) (by decide) (by decide)

namespace RenameScript

/-- Lowercase table for the precomposed Latin uppercase letters (Python's
str.lower() beyond ASCII, restricted to the characters that occur in the
repository's field names). -/
def lowerAccentTable : List (Char × Char) :=
  [('À', 'à'), ('Á', 'á'), ('Â', 'â'), ('Ã', 'ã'), ('Ä', 'ä'),
   ('Ç', 'ç'), ('È', 'è'), ('É', 'é'), ('Ê', 'ê'), ('Ë', 'ë'),
   ('Ì', 'ì'), ('Í', 'í'), ('Î', 'î'), ('Ï', 'ï'), ('Ñ', 'ñ'),
   ('Ò', 'ò'), ('Ó', 'ó'), ('Ô', 'ô'), ('Õ', 'õ'), ('Ö', 'ö'),
   ('Ù', 'ù'), ('Ú', 'ú'), ('Û', 'û'), ('Ü', 'ü'), ('Ý', 'ý')]

/-- Python str.lower() on one character: ASCII uppercase shifted, accented
uppercase via the table, identity elsewhere. -/
def pyLowerChar (c : Char) : Char :=
  if 65 ≤ c.toNat ∧ c.toNat ≤ 90 then Char.ofNat (c.toNat + 32)
  else (((lowerAccentTable.find? (fun e => e.1 == c)).map (fun e => e.2)).getD c)

/-- Python str.lower() (old_name.lower() in phase 1). -/
def pyLower (s : List Char) : List Char := s.map pyLowerChar

/-- The rename_map loop of phase_one_rename_with_suffix: iterate over the
fields (index i), skip fields already lowercase, otherwise resolve the
lowercased target against the taken-name set (which starts as the set of
lowercased names of all fields and grows with each assignment) using the
same while-loop as build_field_rename. -/
def phase_one_aux : List (List Char) → Nat → List (List Char) → List (Nat × List Char)
  | _, _, [] => []
  | taken, i, f :: fs =>
    if pyLower f = f then phase_one_aux taken (i + 1) fs
    else
      (i, resolveDup taken (pyLower f)) ::
        phase_one_aux (taken ++ [resolveDup taken (pyLower f)]) (i + 1) fs

/-- rename_map of phase_one_rename_with_suffix (field index ↦ new name);
final_names_in_transaction starts as the lowercased names of all fields. -/
def phase_one_rename_map (fields : List (List Char)) : List (Nat × List Char) :=
  phase_one_aux (fields.map pyLower) 0 fields

theorem phase_one_aux_index_ge :
    ∀ (fs taken : List (List Char)) (i0 : Nat) (e : Nat × List Char),
      e ∈ phase_one_aux taken i0 fs → i0 ≤ e.1 := by
  intro fs
  induction fs with
  | nil => intro taken i0 e h; cases h
  | cons f fs' ih =>
    intro taken i0 e h
    unfold phase_one_aux at h
    by_cases hf : pyLower f = f
    · rw [if_pos hf] at h
      have := ih _ _ _ h
      omega
    · rw [if_neg hf] at h
      rcases List.mem_cons.mp h with rfl | h'
      · exact le_refl _
      · have := ih _ _ _ h'
        omega

end RenameScript

namespace RenameScript

theorem phase_one_aux_cons_eq (taken : List (List Char)) (i0 : Nat) (f : List Char)
    (fs : List (List Char)) (hf : pyLower f = f) :
    phase_one_aux taken i0 (f :: fs) = phase_one_aux taken (i0 + 1) fs := by
  rw [phase_one_aux, if_pos hf]

theorem phase_one_aux_cons_ne (taken : List (List Char)) (i0 : Nat) (f : List Char)
    (fs : List (List Char)) (hf : ¬ pyLower f = f) :
    phase_one_aux taken i0 (f :: fs) =
      (i0, resolveDup taken (pyLower f)) ::
        phase_one_aux (taken ++ [resolveDup taken (pyLower f)]) (i0 + 1) fs := by
  rw [phase_one_aux, if_neg hf]

theorem phase_one_aux_entries :
    ∀ (fs taken : List (List Char)) (i0 : Nat) (p : Nat) (e : Nat × List Char),
      (phase_one_aux taken i0 fs)[p]? = some e →
      ∃ (j : Nat) (g : List Char), fs[j]? = some g ∧ e.1 = i0 + j ∧ g ≠ pyLower g ∧
        e.2 = resolveDup (taken ++ ((phase_one_aux taken i0 fs).map Prod.snd).take p)
          (pyLower g) := by
  intro fs
  induction fs with
  | nil =>
    intro taken i0 p e he
    simp [phase_one_aux] at he
  | cons f fs' ih =>
    intro taken i0 p e he
    by_cases hf : pyLower f = f
    · have hr := phase_one_aux_cons_eq taken i0 f fs' hf
      rw [hr] at he ⊢
      obtain ⟨j, g, h0, h1, h2, h3⟩ := ih taken (i0 + 1) p e he
      refine ⟨j + 1, g, by simpa using h0, by omega, h2, h3⟩
    · have hr := phase_one_aux_cons_ne taken i0 f fs' hf
      rw [hr] at he ⊢
      cases p with
      | zero =>
        have hee : (i0, resolveDup taken (pyLower f)) = e := by simpa using he
        subst hee
        refine ⟨0, f, by simp, by omega, Ne.symm hf, ?_⟩
        show resolveDup taken (pyLower f) = resolveDup (taken ++ []) (pyLower f)
        rw [List.append_nil]
      | succ p' =>
        rw [List.getElem?_cons_succ] at he
        obtain ⟨j, g, h0, h1, h2, h3⟩ := ih (taken ++ [resolveDup taken (pyLower f)]) (i0 + 1) p' e he
        refine ⟨j + 1, g, by simpa using h0, by omega, h2, ?_⟩
        rw [h3]
        congr 1
        simp

theorem phase_one_aux_mem_of_ne :
    ∀ (fs taken : List (List Char)) (i0 : Nat) (j : Nat) (g : List Char),
      fs[j]? = some g → g ≠ pyLower g →
      ∃ n, (i0 + j, n) ∈ phase_one_aux taken i0 fs := by
  intro fs
  induction fs with
  | nil =>
    intro taken i0 j g hg
    simp at hg
  | cons f fs' ih =>
    intro taken i0 j g hg hne
    by_cases hf : pyLower f = f
    · have hr := phase_one_aux_cons_eq taken i0 f fs' hf
      rw [hr]
      cases j with
      | zero =>
        have hgf : f = g := by simpa using hg
        subst hgf
        exact absurd hf.symm (by simpa using hne)
      | succ j' =>
        rw [List.getElem?_cons_succ] at hg
        obtain ⟨n, hn⟩ := ih taken (i0 + 1) j' g hg hne
        exact ⟨n, by rw [show i0 + (j' + 1) = i0 + 1 + j' by omega]; exact hn⟩
    · have hr := phase_one_aux_cons_ne taken i0 f fs' hf
      rw [hr]
      cases j with
      | zero =>
        exact ⟨resolveDup taken (pyLower f), by simp⟩
      | succ j' =>
        rw [List.getElem?_cons_succ] at hg
        obtain ⟨n, hn⟩ := ih (taken ++ [resolveDup taken (pyLower f)]) (i0 + 1) j' g hg hne
        refine ⟨n, List.mem_cons_of_mem _ ?_⟩
        rw [show i0 + (j' + 1) = i0 + 1 + j' by omega]
        exact hn

theorem phase_one_aux_not_mem_of_eq :
    ∀ (fs taken : List (List Char)) (i0 : Nat) (j : Nat) (g : List Char),
      fs[j]? = some g → g = pyLower g →
      ∀ n, (i0 + j, n) ∉ phase_one_aux taken i0 fs := by
  intro fs
  induction fs with
  | nil =>
    intro taken i0 j g hg
    simp at hg
  | cons f fs' ih =>
    intro taken i0 j g hg heq n hmem
    by_cases hf : pyLower f = f
    · have hr := phase_one_aux_cons_eq taken i0 f fs' hf
      rw [hr] at hmem
      cases j with
      | zero =>
        have := phase_one_aux_index_ge fs' _ _ _ hmem
        omega
      | succ j' =>
        rw [List.getElem?_cons_succ] at hg
        exact ih taken (i0 + 1) j' g hg heq n
          (by rw [show i0 + 1 + j' = i0 + (j' + 1) by omega]; exact hmem)
    · have hr := phase_one_aux_cons_ne taken i0 f fs' hf
      rw [hr] at hmem
      cases j with
      | zero =>
        have hgf : f = g := by simpa using hg
        subst hgf
        exact hf (heq.symm)
      | succ j' =>
        rw [List.getElem?_cons_succ] at hg
        rcases List.mem_cons.mp hmem with hc | hc
        · have : i0 + (j' + 1) = i0 := congrArg Prod.fst hc
          omega
        · exact ih (taken ++ [resolveDup taken (pyLower f)]) (i0 + 1) j' g hg heq n
            (by rw [show i0 + 1 + j' = i0 + (j' + 1) by omega]; exact hc)

end RenameScript

/-- C5 amended: in phase 1 of the two-phase rename, exactly the fields whose
name differs from its lowercased form are renamed; the collision set
initially contains the lowercased names of ALL fields — including the
field's own lowercase — so the bare lowercased target always collides and
every renamed field receives a numeric suffix _k, with k the smallest
positive integer whose candidate is neither a lowercased field name nor a
name already assigned earlier in the same transaction. -/
theorem c5_phase_one_always_suffixed (fields : List (List Char)) :
    (∀ (p : Nat) (e : Nat × List Char),
      (RenameScript.phase_one_rename_map fields)[p]? = some e →
      ∃ g, fields[e.1]? = some g ∧ g ≠ RenameScript.pyLower g ∧
        RenameScript.pyLower g ∈ fields.map RenameScript.pyLower ++
          ((RenameScript.phase_one_rename_map fields).map Prod.snd).take p ∧
        ∃ k, 1 ≤ k ∧ e.2 = suffixCand (RenameScript.pyLower g) k ∧
          suffixCand (RenameScript.pyLower g) k ∉ fields.map RenameScript.pyLower ++
            ((RenameScript.phase_one_rename_map fields).map Prod.snd).take p ∧
          ∀ j, 1 ≤ j → j < k →
            suffixCand (RenameScript.pyLower g) j ∈ fields.map RenameScript.pyLower ++
              ((RenameScript.phase_one_rename_map fields).map Prod.snd).take p) ∧
    (∀ (i : Nat) (g : List Char), fields[i]? = some g → g ≠ RenameScript.pyLower g →
      ∃ n, (i, n) ∈ RenameScript.phase_one_rename_map fields) ∧
    (∀ (i : Nat) (g : List Char), fields[i]? = some g → g = RenameScript.pyLower g →
      ∀ n, (i, n) ∉ RenameScript.phase_one_rename_map fields) := by
  refine ⟨?_, ?_, ?_⟩
  · intro p e he
    obtain ⟨j, g, h0, h1, h2, h3⟩ :=
      RenameScript.phase_one_aux_entries fields (fields.map RenameScript.pyLower) 0 p e he
    rw [show (0 : Nat) + j = j by omega] at h1
    refine ⟨g, h1 ▸ h0, h2, ?_, ?_⟩
    · exact List.mem_append.mpr (Or.inl (List.mem_map_of_mem _ (List.getElem?_mem h0)))
    · obtain ⟨k, hk1, hk2, hk3⟩ :=
        resolveDup_spec (fields.map RenameScript.pyLower ++
          ((RenameScript.phase_one_rename_map fields).map Prod.snd).take p)
          (RenameScript.pyLower g)
      have hbare : RenameScript.pyLower g ∈ fields.map RenameScript.pyLower ++
          ((RenameScript.phase_one_rename_map fields).map Prod.snd).take p :=
        List.mem_append.mpr (Or.inl (List.mem_map_of_mem _ (List.getElem?_mem h0)))
      have hkpos : 1 ≤ k := by
        rcases Nat.eq_zero_or_pos k with rfl | hp
        · simp only [suffixCand, if_pos rfl] at hk2
          exact absurd hbare hk2
        · exact hp
      refine ⟨k, hkpos, ?_, hk2, fun j' hj1 hj2 => hk3 j' hj2⟩
      rw [h3]
      exact hk1
  · intro i g hg hne
    obtain ⟨n, hn⟩ := RenameScript.phase_one_aux_mem_of_ne fields
      (fields.map RenameScript.pyLower) 0 i g hg hne
    exact ⟨n, by rw [show i = 0 + i by omega]; exact hn⟩
  · intro i g hg heq n
    have := RenameScript.phase_one_aux_not_mem_of_eq fields
      (fields.map RenameScript.pyLower) 0 i g hg heq n
    rw [show (0 : Nat) + i = i by omega] at this
    exact this

/-- C5 counterexample: with the single field "Name", whose lowercased target
"name" collides with no other field's name, phase 1 still renames it to
"name_1" rather than the bare "name" the claim predicts, because the
collision set already contains the field's own lowercased name. -/
theorem c5_phase_one_counterexample :
    RenameScript.phase_one_rename_map ["Name".data] = [(0, "name_1".data)] ∧
    "name_1".data ≠ ("name".data : List Char) := by decide

/-- Witness for the amended C5 theorem at the single field "Name". -/
theorem c5_phase_one_always_suffixed_witness :
    ∃ n, (0, n) ∈ RenameScript.phase_one_rename_map ["Name".data] :=
  (c5_phase_one_always_suffixed ["Name".data]).2.1 0 "Name".data (by decide) (by decide)

namespace RenameScript

/-- An abstract Python exception value. -/
structure PyErr where
  msg : List Char
deriving DecidableEq

/-- Observable events of the main loop of the two-phase rename script,
tagged with the index of the layer being processed. -/
inductive Event
  | skippedNoRenameCap (layer : Nat)
  | phase1Ok (layer : Nat)
  | phase1Err (layer : Nat) (msg : List Char)
  | phase2Run (layer : Nat)
  | layerDone (layer : Nat)
deriving DecidableEq

/-- One layer of the run: whether its provider supports RenameAttributes,
and the outcome of the phase-1 edit body (which either completes or
raises). -/
structure LayerRun where
  supportsRename : Bool
  phase1Body : Except PyErr Unit

/-- phase_one_rename_with_suffix wraps its body in try/except: it returns
True on success and False when an exception was caught (after printing the
error). -/
def phase_one_result (r : Except PyErr Unit) : Bool :=
  match r with
  | .ok _ => true
  | .error _ => false

/-- The per-layer part of the main loop: a layer that cannot rename
attributes is skipped; otherwise phase 1 runs (logging success or the
caught error), phase 2 runs exactly when phase 1 returned True, and the
layer is reported finished either way. -/
def process_layer (i : Nat) (r : LayerRun) : List Event :=
  if !r.supportsRename then [Event.skippedNoRenameCap i]
  else
    (match r.phase1Body with
      | .ok _ => [Event.phase1Ok i]
      | .error e => [Event.phase1Err i e.msg]) ++
    (if phase_one_result r.phase1Body then [Event.phase2Run i] else []) ++
    [Event.layerDone i]

/-- The main loop over all layers of the project, in order. -/
def main_loop (layers : List LayerRun) : List Event :=
  (layers.enum.map (fun p => process_layer p.1 p.2)).flatten

theorem process_layer_tag {j : Nat} {r : LayerRun} {e : Event}
    (h : e ∈ process_layer j r) :
    (e = Event.skippedNoRenameCap j) ∨ (e = Event.phase1Ok j) ∨
    (∃ m, e = Event.phase1Err j m) ∨ (e = Event.phase2Run j) ∨ (e = Event.layerDone j) := by
  unfold process_layer at h
  by_cases hs : r.supportsRename = true
  · rw [if_neg (by simp [hs])] at h
    rcases List.mem_append.mp h with h | h
    · rcases List.mem_append.mp h with h | h
      · cases hb : r.phase1Body with
        | ok u => rw [hb] at h; exact Or.inr (Or.inl (by simpa using h))
        | error e' =>
          rw [hb] at h
          exact Or.inr (Or.inr (Or.inl ⟨e'.msg, by simpa using h⟩))
      · by_cases hp : phase_one_result r.phase1Body = true
        · rw [if_pos hp] at h
          exact Or.inr (Or.inr (Or.inr (Or.inl (by simpa using h))))
        · rw [if_neg hp] at h
          cases h
    · exact Or.inr (Or.inr (Or.inr (Or.inr (by simpa using h))))
  · rw [if_pos (by simp [Bool.not_eq_true] at hs; simp [hs])] at h
    exact Or.inl (by simpa using h)

theorem mem_main_loop_iff {layers : List LayerRun} {e : Event} :
    e ∈ main_loop layers ↔
      ∃ (j : Nat) (s : LayerRun), layers[j]? = some s ∧ e ∈ process_layer j s := by
  unfold main_loop
  rw [List.mem_flatten]
  constructor
  · rintro ⟨l, hl, hel⟩
    obtain ⟨⟨j, s⟩, hm, rfl⟩ := List.mem_map.mp hl
    exact ⟨j, s, List.mk_mem_enum_iff_getElem?.mp hm, hel⟩
  · rintro ⟨j, s, hjs, hel⟩
    exact ⟨process_layer j s,
      List.mem_map.mpr ⟨(j, s), List.mk_mem_enum_iff_getElem?.mpr hjs, rfl⟩, hel⟩

end RenameScript

namespace RenameScript

theorem phase2_mem_process_iff {j : Nat} {s : LayerRun} :
    Event.phase2Run j ∈ process_layer j s ↔
      s.supportsRename = true ∧ phase_one_result s.phase1Body = true := by
  unfold process_layer
  cases hb : s.phase1Body with
  | ok u =>
    by_cases hs : s.supportsRename = true
    · rw [if_neg (by simp [hs])]
      simp [hs, phase_one_result]
    · rw [if_pos (by simp [Bool.not_eq_true] at hs; simp [hs])]
      simp [hs]
  | error e' =>
    by_cases hs : s.supportsRename = true
    · rw [if_neg (by simp [hs])]
      simp [hs, phase_one_result]
    · rw [if_pos (by simp [Bool.not_eq_true] at hs; simp [hs])]
      simp [hs]

end RenameScript

/-- C6: for every layer of the two-phase rename script, phase 2 (suffix
cleanup) runs exactly when phase 1 ran for that layer and returned success;
when the phase-1 body raises, the error is caught and reported, phase 2 is
not invoked for that layer, and every other (rename-capable) layer is still
processed to completion. -/
theorem c6_phase_two_iff_phase_one_success
    (layers : List RenameScript.LayerRun) (i : Nat) (r : RenameScript.LayerRun)
    (hi : layers[i]? = some r) :
    (RenameScript.Event.phase2Run i ∈ RenameScript.main_loop layers ↔
      r.supportsRename = true ∧ RenameScript.phase_one_result r.phase1Body = true) ∧
    (∀ e, r.supportsRename = true → r.phase1Body = Except.error e →
      RenameScript.Event.phase1Err i e.msg ∈ RenameScript.main_loop layers ∧
      RenameScript.Event.phase2Run i ∉ RenameScript.main_loop layers) ∧
    (∀ (j : Nat) (s : RenameScript.LayerRun), layers[j]? = some s →
      s.supportsRename = true →
      RenameScript.Event.layerDone j ∈ RenameScript.main_loop layers) := by
  have hiff : RenameScript.Event.phase2Run i ∈ RenameScript.main_loop layers ↔
      r.supportsRename = true ∧ RenameScript.phase_one_result r.phase1Body = true := by
    constructor
    · intro hmem
      obtain ⟨j, s, hjs, hel⟩ := RenameScript.mem_main_loop_iff.mp hmem
      have htag := RenameScript.process_layer_tag hel
      have hij : i = j := by
        rcases htag with h | h | ⟨m, h⟩ | h | h <;> first | (cases h; rfl) | cases h
      subst hij
      have hsr : s = r := by
        rw [hjs] at hi
        exact Option.some_inj.mp hi
      subst hsr
      exact RenameScript.phase2_mem_process_iff.mp hel
    · intro ⟨h1, h2⟩
      exact RenameScript.mem_main_loop_iff.mpr
        ⟨i, r, hi, RenameScript.phase2_mem_process_iff.mpr ⟨h1, h2⟩⟩
  refine ⟨hiff, ?_, ?_⟩
  · intro e hsup hb
    constructor
    · apply RenameScript.mem_main_loop_iff.mpr
      refine ⟨i, r, hi, ?_⟩
      unfold RenameScript.process_layer
      rw [if_neg (by simp [hsup]), hb]
      simp
    · intro hmem
      have := hiff.mp hmem
      rw [hb] at this
      simp [RenameScript.phase_one_result] at this
  · intro j s hjs hsup
    apply RenameScript.mem_main_loop_iff.mpr
    refine ⟨j, s, hjs, ?_⟩
    unfold RenameScript.process_layer
    rw [if_neg (by simp [hsup])]
    simp

/-- Witness for C6: a two-layer project whose first layer's phase-1 body
raises and whose second succeeds. -/
theorem c6_phase_two_iff_phase_one_success_witness :
    RenameScript.Event.phase1Err 0 "boom".data ∈
      RenameScript.main_loop
        [⟨true, Except.error ⟨"boom".data⟩⟩, ⟨true, Except.ok ()⟩] ∧
    RenameScript.Event.phase2Run 0 ∉
      RenameScript.main_loop
        [⟨true, Except.error ⟨"boom".data⟩⟩, ⟨true, Except.ok ()⟩] ∧
    RenameScript.Event.layerDone 1 ∈
      RenameScript.main_loop
        [⟨true, Except.error ⟨"boom".data⟩⟩, ⟨true, Except.ok ()⟩] :=
  ⟨((c6_phase_two_iff_phase_one_success _ 0 _ rfl).2.1 ⟨"boom".data⟩ rfl rfl).1,
   ((c6_phase_two_iff_phase_one_success _ 0 _ rfl).2.1 ⟨"boom".data⟩ rfl rfl).2,
   (c6_phase_two_iff_phase_one_success _ 0 _ rfl).2.2 1 ⟨true, Except.ok ()⟩ rfl rfl⟩

namespace ImportScript

/-- The separator token of the GeoPackage sublayer index. -/
def SEP : List Char := "!!::!!".data

/-- Python str.split(sep) for a non-empty separator: scan left to right for
non-overlapping occurrences; fuel-based so that it reduces (fuel = length of
the string suffices, as each step consumes at least one character). -/
def splitSepAux (sep : List Char) : Nat → List Char → List Char → List (List Char)
  | 0, cur, s => [cur.reverse ++ s]
  | fuel + 1, cur, s =>
    if sep.isPrefixOf s && !sep.isEmpty then
      cur.reverse :: splitSepAux sep fuel [] (s.drop sep.length)
    else
      match s with
      | [] => [cur.reverse]
      | c :: cs => splitSepAux sep fuel (c :: cur) cs

def pySplitSep (sep s : List Char) : List (List Char) := splitSepAux sep s.length [] s

/-- item.split('!!::!!')[1]: none models the IndexError raised when the
separator does not occur in the entry. -/
def extractName (item : List Char) : Option (List Char) :=
  (pySplitSep SEP item)[1]?

/-- The sequential list comprehension [f(item) for item in subs]: the first
raising element aborts the whole comprehension. -/
def comprehend (f : List Char → Option (List Char)) :
    List (List Char) → Option (List (List Char))
  | [] => some []
  | x :: xs =>
    match f x with
    | none => none
    | some y =>
      match comprehend f xs with
      | none => none
      | some ys => some (y :: ys)

/-- list_gpkg_layers: build the name list from the sublayer index entries;
the try/except returns [] when any entry raises. -/
def list_gpkg_layers (subs : List (List Char)) : List (List Char) :=
  match comprehend extractName subs with
  | some l => l
  | none => []

/-- The top-level branch after listing: the run reports that no layers were
found when the list is empty, otherwise it proceeds to the import loop. -/
inductive RunOutcome
  | noLayersFound
  | importsAttempted (layers : List (List Char))
deriving DecidableEq

def main_outcome (subs : List (List Char)) : RunOutcome :=
  if list_gpkg_layers subs = [] then RunOutcome.noLayersFound
  else RunOutcome.importsAttempted (list_gpkg_layers subs)

theorem splitSepAux_no_occurrence {sep : List Char} (hsep : sep ≠ []) :
    ∀ (fuel : Nat) (s cur : List Char), s.length ≤ fuel → ¬ (sep <:+: s) →
      splitSepAux sep fuel cur s = [cur.reverse ++ s] := by
  intro fuel
  induction fuel with
  | zero =>
    intro s cur hlen _
    rfl
  | succ fuel ih =>
    intro s cur hlen hocc
    cases s with
    | nil =>
      have hpre : (sep.isPrefixOf ([] : List Char) && !sep.isEmpty) = false := by
        cases hp : sep.isPrefixOf ([] : List Char) with
        | false => rfl
        | true => exact absurd (List.prefix_nil.mp (List.isPrefixOf_iff_prefix.mp hp)) hsep
      show (if sep.isPrefixOf ([] : List Char) && !sep.isEmpty then
          cur.reverse :: splitSepAux sep fuel [] (List.drop sep.length [])
        else [cur.reverse]) = [cur.reverse ++ []]
      rw [hpre]
      simp
    | cons c cs =>
      have hpre : (sep.isPrefixOf (c :: cs) && !sep.isEmpty) = false := by
        cases hp : sep.isPrefixOf (c :: cs) with
        | false => rfl
        | true => exact absurd (List.isPrefixOf_iff_prefix.mp hp).isInfix hocc
      show (if sep.isPrefixOf (c :: cs) && !sep.isEmpty then
          cur.reverse :: splitSepAux sep fuel [] ((c :: cs).drop sep.length)
        else splitSepAux sep fuel (c :: cur) cs) = [cur.reverse ++ c :: cs]
      rw [hpre]
      simp only [Bool.false_eq_true, if_false]
      have hocc' : ¬ (sep <:+: cs) := fun h => hocc (List.infix_cons h)
      rw [ih cs (c :: cur) (by simpa using Nat.le_of_succ_le_succ hlen) hocc']
      simp

theorem pySplitSep_no_occurrence {sep s : List Char} (hsep : sep ≠ [])
    (hocc : ¬ (sep <:+: s)) : pySplitSep sep s = [s] := by
  unfold pySplitSep
  rw [splitSepAux_no_occurrence hsep s.length s [] (le_refl _) hocc]
  rfl

theorem comprehend_none {f : List Char → Option (List Char)} :
    ∀ {subs : List (List Char)} {item : List Char}, item ∈ subs → f item = none →
      comprehend f subs = none := by
  intro subs
  induction subs with
  | nil => intro item h; cases h
  | cons x xs ih =>
    intro item hmem hnone
    rcases List.mem_cons.mp hmem with rfl | hmem'
    · show (match f item with
        | none => none
        | some y => match comprehend f xs with
          | none => none
          | some ys => some (y :: ys)) = none
      rw [hnone]
    · show (match f x with
        | none => none
        | some y => match comprehend f xs with
          | none => none
          | some ys => some (y :: ys)) = none
      rw [ih hmem' hnone]
      cases f x <;> rfl

end ImportScript

/-- C9: in the batch-import scripts, if any single entry of the container's
sublayer index does not contain the separator token "!!::!!", taking the
second split segment raises, list_gpkg_layers catches the error and returns
the empty list — discarding every layer, including well-formed entries —
and the run then terminates reporting that no layers were found. -/
theorem c9_malformed_sublayer_discards_all (subs : List (List Char))
    (h : ∃ item ∈ subs, ¬ (ImportScript.SEP <:+: item)) :
    ImportScript.list_gpkg_layers subs = [] ∧
    ImportScript.main_outcome subs = ImportScript.RunOutcome.noLayersFound := by
  obtain ⟨item, hmem, hocc⟩ := h
  have hextract : ImportScript.extractName item = none := by
    unfold ImportScript.extractName
    rw [ImportScript.pySplitSep_no_occurrence (by decide) hocc]
    rfl
  have hnone := ImportScript.comprehend_none hmem hextract
  have hlist : ImportScript.list_gpkg_layers subs = [] := by
    unfold ImportScript.list_gpkg_layers
    rw [hnone]
  refine ⟨hlist, ?_⟩
  unfold ImportScript.main_outcome
  rw [hlist]
  rfl

/-- Witness for C9: one well-formed and one malformed sublayer entry. -/
theorem c9_malformed_sublayer_discards_all_witness :
    ImportScript.list_gpkg_layers ["0!!::!!boundaries".data, "malformed".data] = [] ∧
    ImportScript.main_outcome ["0!!::!!boundaries".data, "malformed".data] =
      ImportScript.RunOutcome.noLayersFound :=
  c9_malformed_sublayer_discards_all _ ⟨"malformed".data, by decide, by decide⟩

namespace StyleRegistry

/-- One row of a layer_styles registry, restricted to the columns the
writers key on or that carry the names (the remaining payload columns —
useAsDefault, description, owner, type, timestamps — play no role in the
delete keys or the written names). -/
structure StyleRow where
  f_table_catalog : List Char
  f_table_schema : List Char
  f_table_name : List Char
  f_geometry_column : List Char
  styleName : List Char
  styleQML : List Char
  styleSLD : List Char
deriving DecidableEq

/-- save_style_sqlite of both clean_and_export variants: DELETE FROM
layer_styles WHERE f_table_name=? AND styleName=? (both parameters bound to
table_name), then INSERT a row with f_table_name = styleName = table_name. -/
def save_style_sqlite (db : List StyleRow) (table_name geom_col qml sld : List Char) :
    List StyleRow :=
  (db.filter (fun r => !(r.f_table_name == table_name && r.styleName == table_name))) ++
    [⟨[], [], table_name, geom_col, table_name, qml, sld⟩]

/-- save_style_pg of clean_and_export-producao.py: DELETE keyed on
(f_table_catalog, f_table_schema, f_table_name, stylename) with stylename
bound to table_name, then INSERT with stylename = f_table_name. -/
def save_style_pg_producao (db : List StyleRow)
    (db_name schema table_name geom_col qml sld : List Char) : List StyleRow :=
  (db.filter (fun r => !(r.f_table_catalog == db_name && r.f_table_schema == schema &&
      r.f_table_name == table_name && r.styleName == table_name))) ++
    [⟨db_name, schema, table_name, geom_col, table_name, qml, sld⟩]

/-- save_style_pg of clean_and_export_gpkg-DB-sld.py: DELETE keyed on
(f_table_schema, f_table_name, stylename), INSERT with empty catalog and
stylename = f_table_name. -/
def save_style_pg_sld (db : List StyleRow)
    (schema table_name geom_col qml sld : List Char) : List StyleRow :=
  (db.filter (fun r => !(r.f_table_schema == schema && r.f_table_name == table_name &&
      r.styleName == table_name))) ++
    [⟨[], schema, table_name, geom_col, table_name, qml, sld⟩]

/-! Generic delete-then-insert facts. -/

theorem mem_delete_insert {α : Type} {db : List α} {k : α → Bool} {n : α} :
    ∀ r ∈ db.filter (fun x => !(k x)) ++ [n], r ∈ db ∨ r = n := by
  intro r hr
  rcases List.mem_append.mp hr with h | h
  · exact Or.inl (List.mem_filter.mp h).1
  · exact Or.inr (by simpa using h)

theorem delete_insert_keeps {α : Type} {db : List α} {k : α → Bool} {n : α} :
    ∀ r ∈ db, r ∈ db.filter (fun x => !(k x)) ++ [n] ∨ k r = true := by
  intro r hr
  by_cases hk : k r = true
  · exact Or.inr hk
  · exact Or.inl (List.mem_append.mpr (Or.inl (List.mem_filter.mpr ⟨hr, by simp [hk]⟩)))

theorem countP_delete_insert_eq_one {α : Type} {db : List α} {k q : α → Bool} {n : α}
    (hq : ∀ r, q r = true → k r = true) (hn : q n = true) :
    (db.filter (fun x => !(k x)) ++ [n]).countP q = 1 := by
  rw [List.countP_append]
  have h0 : (db.filter (fun x => !(k x))).countP q = 0 := by
    rw [List.countP_eq_zero]
    intro r hr hqr
    have hm := List.mem_filter.mp hr
    have := hq r hqr
    simp [this] at hm
  rw [h0]
  simp [List.countP_cons, hn]

theorem countP_delete_insert_le {α : Type} {db : List α} {k q : α → Bool} {n : α}
    (hn : q n = false) :
    (db.filter (fun x => !(k x)) ++ [n]).countP q ≤ db.countP q := by
  rw [List.countP_append]
  have h1 : ([n] : List α).countP q = 0 := by simp [List.countP_cons, hn]
  rw [h1]
  simpa using (List.filter_sublist db).countP_le q

end StyleRegistry

/-- C10: every style row the local or database style writers insert has its
style name equal to its table name (styleName = f_table_name = sanitized
table name); the preceding delete removes only rows whose style name equals
their table name (for the written key); the write leaves exactly one row
for the written key; and each writer preserves the invariant that any table
key has at most one style row whose style name is the table name. -/
theorem c10_style_writers_key_equality
    (db : List StyleRegistry.StyleRow)
    (db_name schema table_name geom_col qml sld : List Char) :
    ((∀ r ∈ StyleRegistry.save_style_sqlite db table_name geom_col qml sld,
        r ∈ db ∨ (r.styleName = r.f_table_name ∧ r.f_table_name = table_name)) ∧
      (∀ r ∈ db, r ∈ StyleRegistry.save_style_sqlite db table_name geom_col qml sld ∨
        (r.styleName = r.f_table_name ∧ r.f_table_name = table_name)) ∧
      (StyleRegistry.save_style_sqlite db table_name geom_col qml sld).countP
        (fun r => r.f_table_name == table_name && r.styleName == table_name) = 1 ∧
      ((∀ t, db.countP (fun r => r.f_table_name == t && r.styleName == t) ≤ 1) →
        ∀ t, (StyleRegistry.save_style_sqlite db table_name geom_col qml sld).countP
          (fun r => r.f_table_name == t && r.styleName == t) ≤ 1)) ∧
    ((∀ r ∈ StyleRegistry.save_style_pg_producao db db_name schema table_name geom_col qml sld,
        r ∈ db ∨ (r.styleName = r.f_table_name ∧ r.f_table_name = table_name)) ∧
      (∀ r ∈ db,
        r ∈ StyleRegistry.save_style_pg_producao db db_name schema table_name geom_col qml sld ∨
        (r.styleName = r.f_table_name ∧ r.f_table_name = table_name)) ∧
      (StyleRegistry.save_style_pg_producao db db_name schema table_name geom_col qml sld).countP
        (fun r => r.f_table_catalog == db_name && r.f_table_schema == schema &&
          r.f_table_name == table_name && r.styleName == table_name) = 1 ∧
      ((∀ cat sch t, db.countP (fun r => r.f_table_catalog == cat && r.f_table_schema == sch &&
          r.f_table_name == t && r.styleName == t) ≤ 1) →
        ∀ cat sch t,
          (StyleRegistry.save_style_pg_producao db db_name schema table_name geom_col qml
            sld).countP (fun r => r.f_table_catalog == cat && r.f_table_schema == sch &&
              r.f_table_name == t && r.styleName == t) ≤ 1)) ∧
    ((∀ r ∈ StyleRegistry.save_style_pg_sld db schema table_name geom_col qml sld,
        r ∈ db ∨ (r.styleName = r.f_table_name ∧ r.f_table_name = table_name)) ∧
      (∀ r ∈ db, r ∈ StyleRegistry.save_style_pg_sld db schema table_name geom_col qml sld ∨
        (r.styleName = r.f_table_name ∧ r.f_table_name = table_name)) ∧
      (StyleRegistry.save_style_pg_sld db schema table_name geom_col qml sld).countP
        (fun r => r.f_table_schema == schema && r.f_table_name == table_name &&
          r.styleName == table_name) = 1 ∧
      ((∀ sch t, db.countP (fun r => r.f_table_schema == sch &&
          r.f_table_name == t && r.styleName == t) ≤ 1) →
        ∀ sch t, (StyleRegistry.save_style_pg_sld db schema table_name geom_col qml sld).countP
          (fun r => r.f_table_schema == sch && r.f_table_name == t && r.styleName == t) ≤ 1)) := by
  refine ⟨⟨?_, ?_, ?_, ?_⟩, ⟨?_, ?_, ?_, ?_⟩, ⟨?_, ?_, ?_, ?_⟩⟩
  · intro r hr
    rcases StyleRegistry.mem_delete_insert r hr with h | rfl
    · exact Or.inl h
    · exact Or.inr ⟨rfl, rfl⟩
  · intro r hr
    rcases StyleRegistry.delete_insert_keeps r hr with h | h
    · exact Or.inl h
    · simp only [Bool.and_eq_true, beq_iff_eq] at h
      exact Or.inr ⟨h.2.trans h.1.symm, h.1⟩
  · exact StyleRegistry.countP_delete_insert_eq_one (fun r h => h) (by simp)
  · intro hinv t
    by_cases ht : t = table_name
    · subst ht
      exact le_of_eq (StyleRegistry.countP_delete_insert_eq_one (fun r h => h) (by simp))
    · refine le_trans (StyleRegistry.countP_delete_insert_le ?_) (hinv t)
      have hb : (table_name == t) = false := beq_eq_false_iff_ne.mpr (fun h => ht h.symm)
      simp [hb]
  · intro r hr
    rcases StyleRegistry.mem_delete_insert r hr with h | rfl
    · exact Or.inl h
    · exact Or.inr ⟨rfl, rfl⟩
  · intro r hr
    rcases StyleRegistry.delete_insert_keeps r hr with h | h
    · exact Or.inl h
    · simp only [Bool.and_eq_true, beq_iff_eq] at h
      obtain ⟨⟨⟨hcat, hsch⟩, hft⟩, hsn⟩ := h
      exact Or.inr ⟨hsn.trans hft.symm, hft⟩
  · exact StyleRegistry.countP_delete_insert_eq_one (fun r h => h) (by simp)
  · intro hinv cat sch t
    by_cases hc : cat = db_name
    · by_cases hs : sch = schema
      · by_cases ht : t = table_name
        · subst hc
          subst hs
          subst ht
          exact le_of_eq (StyleRegistry.countP_delete_insert_eq_one (fun r h => h) (by simp))
        · refine le_trans (StyleRegistry.countP_delete_insert_le ?_) (hinv cat sch t)
          have hb : (table_name == t) = false := beq_eq_false_iff_ne.mpr (fun h => ht h.symm)
          simp [hb]
      · refine le_trans (StyleRegistry.countP_delete_insert_le ?_) (hinv cat sch t)
        have hb : (schema == sch) = false := beq_eq_false_iff_ne.mpr (fun h => hs h.symm)
        simp [hb]
    · refine le_trans (StyleRegistry.countP_delete_insert_le ?_) (hinv cat sch t)
      have hb : (db_name == cat) = false := beq_eq_false_iff_ne.mpr (fun h => hc h.symm)
      simp [hb]
  · intro r hr
    rcases StyleRegistry.mem_delete_insert r hr with h | rfl
    · exact Or.inl h
    · exact Or.inr ⟨rfl, rfl⟩
  · intro r hr
    rcases StyleRegistry.delete_insert_keeps r hr with h | h
    · exact Or.inl h
    · simp only [Bool.and_eq_true, beq_iff_eq] at h
      obtain ⟨⟨hsch, hft⟩, hsn⟩ := h
      exact Or.inr ⟨hsn.trans hft.symm, hft⟩
  · exact StyleRegistry.countP_delete_insert_eq_one (fun r h => h) (by simp)
  · intro hinv sch t
    by_cases hs : sch = schema
    · by_cases ht : t = table_name
      · subst hs
        subst ht
        exact le_of_eq (StyleRegistry.countP_delete_insert_eq_one (fun r h => h) (by simp))
      · refine le_trans (StyleRegistry.countP_delete_insert_le ?_) (hinv sch t)
        have hb : (table_name == t) = false := beq_eq_false_iff_ne.mpr (fun h => ht h.symm)
        simp [hb]
    · refine le_trans (StyleRegistry.countP_delete_insert_le ?_) (hinv sch t)
      have hb : (schema == sch) = false := beq_eq_false_iff_ne.mpr (fun h => hs h.symm)
      simp [hb]

/-- Witness for C10: applying the sqlite writer to a one-row registry
discharges the at-most-one hypothesis. -/
theorem c10_style_writers_key_equality_witness :
    (StyleRegistry.save_style_sqlite [] "t1".data "geom".data "q".data "s".data).countP
      (fun r => r.f_table_name == "t1".data && r.styleName == "t1".data) = 1 ∧
    ∀ t, (StyleRegistry.save_style_sqlite [] "t1".data "geom".data "q".data "s".data).countP
      (fun r => r.f_table_name == t && r.styleName == t) ≤ 1 :=
  ⟨(c10_style_writers_key_equality [] "db".data "sch".data "t1".data "geom".data
      "q".data "s".data).1.2.2.1,
   (c10_style_writers_key_equality [] "db".data "sch".data "t1".data "geom".data
      "q".data "s".data).1.2.2.2 (fun t => by simp)⟩

/-- s is obtained from t by replacing some of t's base letters with their
precomposed accented variants (canonical decomposition per nfdTable). -/
inductive AccentVariant : List Char → List Char → Prop
  | nil : AccentVariant [] []
  | same (c : Char) {s t : List Char} : AccentVariant s t → AccentVariant (c :: s) (c :: t)
  | accent (c b m : Char) {s t : List Char} :
      nfdDecomp c = some (b, m) → AccentVariant s t → AccentVariant (c :: s) (b :: t)

theorem nfdTable_mark_isMn : ∀ e ∈ nfdTable, isMn e.2.2 = true := by decide

theorem nfdTable_base_not_isMn : ∀ e ∈ nfdTable, isMn e.2.1 = false := by decide

theorem nfdTable_base_no_decomp : ∀ e ∈ nfdTable, nfdDecomp e.2.1 = none := by decide

theorem nfdTable_not_space : ∀ e ∈ nfdTable,
    pyIsSpace e.1 = false ∧ pyIsSpace e.2.1 = false := by decide

theorem nfdDecomp_table_mem {c b m : Char} (h : nfdDecomp c = some (b, m)) :
    ∃ e ∈ nfdTable, e.1 = c ∧ e.2 = (b, m) := by
  unfold nfdDecomp at h
  cases hf : nfdTable.find? (fun e => e.1 == c) with
  | none => rw [hf] at h; cases h
  | some e =>
    rw [hf] at h
    refine ⟨e, List.mem_of_find?_eq_some hf, ?_, by simpa using h⟩
    simpa using List.find?_some hf

theorem accentVariant_removeMn_nfd {s t : List Char} (h : AccentVariant s t) :
    removeMn (nfd s) = removeMn (nfd t) := by
  induction h with
  | nil => rfl
  | same c h ih =>
    show removeMn (nfdChar c ++ nfd _) = removeMn (nfdChar c ++ nfd _)
    unfold removeMn at ih ⊢
    rw [List.filter_append, List.filter_append, ih]
  | accent c b m hd h ih =>
    obtain ⟨e, he, hk, hee⟩ := nfdDecomp_table_mem hd
    have hm : isMn m = true := by
      have := nfdTable_mark_isMn e he
      rw [hee] at this
      exact this
    have hb : isMn b = false := by
      have := nfdTable_base_not_isMn e he
      rw [hee] at this
      exact this
    have hbd : nfdDecomp b = none := by
      have := nfdTable_base_no_decomp e he
      rw [hee] at this
      exact this
    show removeMn (nfdChar c ++ nfd _) = removeMn (nfdChar b ++ nfd _)
    unfold removeMn at ih ⊢
    rw [List.filter_append, List.filter_append, ih]
    congr 1
    unfold nfdChar
    rw [hd, hbd]
    simp [hm, hb]

theorem accentVariant_all_space {s t : List Char} (h : AccentVariant s t) :
    s.all pyIsSpace = t.all pyIsSpace := by
  induction h with
  | nil => rfl
  | same c h ih => simp [List.all_cons, ih]
  | accent c b m hd h ih =>
    obtain ⟨e, he, hk, hee⟩ := nfdDecomp_table_mem hd
    have hcsp : pyIsSpace c = false := by
      rw [← hk]
      exact (nfdTable_not_space e he).1
    have hbsp : pyIsSpace b = false := by
      have := (nfdTable_not_space e he).2
      rw [hee] at this
      exact this
    simp [List.all_cons, hcsp, hbsp, ih]

/-- C8: for every pair of input strings that differ only in that one uses
precomposed accented variants of letters where the other uses the bare base
letters, sanitize_name returns identical output for both, in both the
lowercase-underscore and the camelCase variant. -/
theorem c8_accent_invariance {s t : List Char} (h : AccentVariant s t) (b : Bool) :
    Producao.sanitize_name s b = Producao.sanitize_name t b ∧
    SldVariant.sanitize_name s b = SldVariant.sanitize_name t b := by
  have hall := accentVariant_all_space h
  have hnfd := accentVariant_removeMn_nfd h
  have hcb : Producao.cleanBody s = Producao.cleanBody t := by
    unfold Producao.cleanBody
    rw [hnfd]
  have hwo : SldVariant.wordsOf s = SldVariant.wordsOf t := by
    unfold SldVariant.wordsOf
    rw [hnfd]
  constructor
  · unfold Producao.sanitize_name
    rw [hall, hcb]
  · unfold SldVariant.sanitize_name
    rw [hall, hwo]

/-- Witness for C8 at the concrete pair "Área" / "Area". -/
theorem c8_accent_invariance_witness :
    Producao.sanitize_name "Área".data false = Producao.sanitize_name "Area".data false ∧
    SldVariant.sanitize_name "Área".data false = SldVariant.sanitize_name "Area".data false :=
  c8_accent_invariance
    (AccentVariant.accent 'Á' 'A' '́' (by decide)
      (AccentVariant.same 'r' (AccentVariant.same 'e'
        (AccentVariant.same 'a' AccentVariant.nil)))) false

namespace StyleExport

/-- Python str.replace for a non-empty pattern: scan left to right,
replacing leftmost non-overlapping occurrences; fuel-based (fuel = length of
the string suffices, as every step consumes at least one character). -/
def replaceFuel (pat rep : List Char) : Nat → List Char → List Char
  | 0, s => s
  | fuel + 1, s =>
    if pat.isPrefixOf s && !pat.isEmpty && !s.isEmpty then
      rep ++ replaceFuel pat rep fuel (s.drop pat.length)
    else
      match s with
      | [] => []
      | c :: cs => c :: replaceFuel pat rep fuel cs

def pyReplace (s pat rep : List Char) : List Char := replaceFuel pat rep s.length s

/-- QML attribute marker: field="name". -/
def mQ1 (n : List Char) : List Char := "field=\"".data ++ n ++ "\"".data

/-- QML element marker: <field name="name". -/
def mQ2 (n : List Char) : List Char := "<field name=\"".data ++ n ++ "\"".data

/-- QML element-text marker: >name</. -/
def mQ3 (n : List Char) : List Char := ">".data ++ n ++ "</".data

/-- SLD property-reference marker: <ogc:PropertyName>name</ogc:PropertyName>. -/
def mSld (n : List Char) : List Char :=
  "<ogc:PropertyName>".data ++ n ++ "</ogc:PropertyName>".data

/-- The QML rename-substitution of export_styles for one (old, new) pair:
the three replaces, applied only when the names differ. -/
def qmlSubstPair (s : List Char) (p : List Char × List Char) : List Char :=
  if p.1 = p.2 then s
  else
    pyReplace (pyReplace (pyReplace s (mQ1 p.1) (mQ1 p.2)) (mQ2 p.1) (mQ2 p.2))
      (mQ3 p.1) (mQ3 p.2)

/-- The full QML rename-substitution over the items of field_rename. -/
def qmlSubst (s : List Char) (ps : List (List Char × List Char)) : List Char :=
  ps.foldl qmlSubstPair s

/-- The SLD rename-substitution for one pair. -/
def sldSubstPair (s : List Char) (p : List Char × List Char) : List Char :=
  if p.1 = p.2 then s else pyReplace s (mSld p.1) (mSld p.2)

/-- The full SLD rename-substitution over the items of field_rename. -/
def sldSubst (s : List Char) (ps : List (List Char × List Char)) : List Char :=
  ps.foldl sldSubstPair s

/-- A name of identifier shape, as produced by the sanitizer. -/
def IdentName (n : List Char) : Prop := n ≠ [] ∧ ∀ c ∈ n, identChar c = true

end StyleExport

/-- C3 counterexample: with the rename map produced by build_field_rename
for the fields ["A", "a"] — namely A ↦ a, a ↦ a_1 — the payload ">A</"
(one QML element-text marker originally referencing the old field name "A")
is rewritten twice: the first pair turns it into ">a</" and the second pair
turns that into ">a_1</".  A's new name is "a", yet the result contains no
marker ">a</" at all, so the marker that originally referenced "A" does not
reference A's new name. -/
theorem c3_rename_substitution_counterexample :
    Producao.build_field_rename ["A".data, "a".data] =
      [("A".data, "a".data), ("a".data, "a_1".data)] ∧
    StyleExport.mQ3 "A".data <:+: ">A</".data ∧
    StyleExport.qmlSubst ">A</".data [("A".data, "a".data), ("a".data, "a_1".data)] =
      ">a_1</".data ∧
    ¬ (StyleExport.mQ3 "a".data <:+:
        StyleExport.qmlSubst ">A</".data [("A".data, "a".data), ("a".data, "a_1".data)]) := by
  decide

namespace StyleExport

theorem replaceFuel_hit (pat rep : List Char) (fuel : Nat) (s : List Char)
    (h : pat.isPrefixOf s = true) (hp : pat ≠ []) (hs : s ≠ []) :
    replaceFuel pat rep (fuel+1) s = rep ++ replaceFuel pat rep fuel (s.drop pat.length) := by
  rw [replaceFuel.eq_def]
  simp only []
  rw [if_pos]
  simp [h, hp, hs, List.isEmpty_iff]

theorem replaceFuel_miss (pat rep : List Char) (fuel : Nat) (c : Char) (cs : List Char)
    (h : pat.isPrefixOf (c :: cs) = false) :
    replaceFuel pat rep (fuel+1) (c :: cs) = c :: replaceFuel pat rep fuel cs := by
  rw [replaceFuel.eq_def]
  simp only []
  rw [if_neg]
  simp [h]

theorem replaceFuel_nil (pat rep : List Char) (fuel : Nat) : replaceFuel pat rep fuel [] = [] := by
  cases fuel with
  | zero => rfl
  | succ n =>
    rw [replaceFuel.eq_def]
    simp

theorem prefix_append_cases {α : Type} {y u v : List α} (h : y <+: u ++ v) :
    y <+: u ∨ ∃ y₂, y = u ++ y₂ ∧ y₂ <+: v := by
  obtain ⟨w, hw⟩ := h
  rcases List.append_eq_append_iff.mp hw with ⟨a, ha, _⟩ | ⟨c, hc, hv⟩
  · exact Or.inl ⟨a, ha.symm⟩
  · exact Or.inr ⟨c, hc, ⟨w, hv.symm⟩⟩

theorem suffix_append_cases {α : Type} {y u v : List α} (h : y <:+ u ++ v) :
    y <:+ v ∨ ∃ y₁, y₁ <:+ u ∧ y₁ ≠ [] ∧ y = y₁ ++ v := by
  obtain ⟨q, hq⟩ := h
  rcases List.append_eq_append_iff.mp hq with ⟨a, ha, hy⟩ | ⟨c, hc, hv⟩
  · rcases a with _ | ⟨x, xs⟩
    · refine Or.inl ?xx
      simp only [List.nil_append] at hy
      exact hy ▸ List.suffix_refl v
    · exact Or.inr ⟨x :: xs, ⟨q, ha.symm⟩, by simp, hy⟩
  · exact Or.inl ⟨c, hv.symm⟩

theorem infix_append_cases {α : Type} {y u v : List α} (h : y <:+: u ++ v) :
    y <:+: u ∨ y <:+: v ∨
      ∃ y₁ y₂, y = y₁ ++ y₂ ∧ y₁ ≠ [] ∧ y₂ ≠ [] ∧ y₁ <:+ u ∧ y₂ <+: v := by
  obtain ⟨q, r, hqr⟩ := h
  have hqr' : (q ++ y) ++ r = u ++ v := by simpa [List.append_assoc] using hqr
  rcases List.append_eq_append_iff.mp hqr' with ⟨a, ha, _⟩ | ⟨c, hc, hv⟩
  · exact Or.inl ⟨q, a, by rw [ha, List.append_assoc]⟩
  · rcases List.append_eq_append_iff.mp hc with ⟨b, hb, hy⟩ | ⟨d, hd, hcy⟩
    · rcases b with _ | ⟨x, xs⟩
      · refine Or.inr (Or.inl ?xa)
        simp only [List.nil_append] at hy
        exact ⟨[], r, by simp [hy, hv]⟩
      · rcases c with _ | ⟨z, zs⟩
        · refine Or.inl ?xb
          have hy' : y = x :: xs := by simpa using hy
          exact List.IsSuffix.isInfix ⟨q, by rw [hy']; exact hb.symm⟩
        · exact Or.inr (Or.inr ⟨x :: xs, z :: zs, hy, by simp, by simp,
            ⟨q, hb.symm⟩, ⟨r, hv.symm⟩⟩)
    · refine Or.inr (Or.inl ?xc)
      exact ⟨d, r, by rw [hv, hcy]⟩

theorem replaceFuel_rep_occurs (pat rep : List Char) (hp : pat ≠ []) :
    ∀ fuel s, s.length ≤ fuel → pat <:+: s → rep <:+: replaceFuel pat rep fuel s := by
  intro fuel
  induction fuel with
  | zero =>
    intro s hl hin
    have hs : s = [] := List.length_eq_zero.mp (Nat.le_zero.mp hl)
    subst hs
    exact absurd (List.infix_nil.mp hin) hp
  | succ n IH =>
    intro s hl hin
    have hs : s ≠ [] := by
      rintro rfl
      exact hp (List.infix_nil.mp hin)
    by_cases hpre : pat.isPrefixOf s = true
    · rw [replaceFuel_hit pat rep n s hpre hp hs]
      exact ⟨[], replaceFuel pat rep n (s.drop pat.length), by simp⟩
    · rcases s with _ | ⟨c, cs⟩
      · exact absurd rfl hs
      · rw [replaceFuel_miss pat rep n c cs (Bool.eq_false_iff.mpr hpre)]
        rcases List.infix_cons_iff.mp hin with h1 | h2
        · exact absurd ( List.isPrefixOf_iff_prefix.mpr h1) hpre
        · have : cs.length ≤ n := by simpa using hl
          exact List.infix_cons (IH cs this h2)

theorem replaceFuel_prefix_none (T pat rep : List Char) (hp : pat ≠ [])
    (hS1 : ∀ y, y <:+ T → y ≠ T → y ≠ [] → ¬ y <+: rep)
    (hS2 : ¬ rep <:+: T) :
    ∀ fuel s y, s.length ≤ fuel → y <:+ T → y ≠ T → ¬ y <+: s →
      ¬ y <+: replaceFuel pat rep fuel s := by
  intro fuel
  induction fuel with
  | zero =>
    intro s y _ _ _ hns
    exact hns
  | succ n IH =>
    intro s y hl hyT hyne hns
    have hynil : y ≠ [] := by
      rintro rfl
      exact hns List.nil_prefix
    by_cases hs : s = []
    · subst hs
      rw [replaceFuel_nil]
      intro hpr
      exact hynil (List.prefix_nil.mp hpr)
    · by_cases hpre : pat.isPrefixOf s = true
      · rw [replaceFuel_hit pat rep n s hpre hp hs]
        intro hyp
        rcases prefix_append_cases hyp with h1 | ⟨y₂, hy, _⟩
        · exact hS1 y hyT hyne hynil h1
        · apply hS2
          obtain ⟨w, hw⟩ := hyT
          exact ⟨w, y₂, by rw [List.append_assoc, ← hy, hw]⟩
      · rcases s with _ | ⟨c, cs⟩
        · exact absurd rfl hs
        · rw [replaceFuel_miss pat rep n c cs (Bool.eq_false_iff.mpr hpre)]
          intro hyp
          rcases y with _ | ⟨d, y'⟩
          · exact hynil rfl
          · obtain ⟨hdc, hy'⟩ := List.cons_prefix_cons.mp hyp
            subst hdc
            have hns' : ¬ y' <+: cs := fun hh => hns (List.cons_prefix_cons.mpr ⟨rfl, hh⟩)
            have hy'T : y' <:+ T := List.IsSuffix.trans ⟨[d], rfl⟩ hyT
            have hy'ne : y' ≠ T := by
              intro h
              have := List.IsSuffix.length_le hyT
              rw [← h] at this
              simp at this
            have hcs : cs.length ≤ n := by simpa using hl
            exact IH cs y' hcs hy'T hy'ne hns' hy'

theorem replaceFuel_keep_absent (T pat rep : List Char) (hp : pat ≠ [])
    (hNA : ¬ T <:+: rep)
    (hNB : ∀ z, z <:+ rep → z ≠ rep → z ≠ [] → ¬ z <+: T)
    (hND : ¬ rep <:+: T)
    (hNE : ∀ y, y <:+ T → y ≠ T → y ≠ [] → ¬ y <+: rep) :
    ∀ fuel s, s.length ≤ fuel → ¬ T <:+: s → ¬ T <:+: replaceFuel pat rep fuel s := by
  intro fuel
  induction fuel with
  | zero =>
    intro s _ habs
    exact habs
  | succ n IH =>
    intro s hl habs
    have hT : T ≠ [] := by
      rintro rfl
      exact habs List.nil_infix
    by_cases hs : s = []
    · subst hs
      rw [replaceFuel_nil]
      intro hin
      exact hT (List.infix_nil.mp hin)
    · by_cases hpre : pat.isPrefixOf s = true
      · rw [replaceFuel_hit pat rep n s hpre hp hs]
        intro hin
        rcases infix_append_cases hin with h1 | h2 | ⟨y₁, y₂, hTeq, h1ne, h2ne, h1suf, h2pre⟩
        · exact hNA h1
        · have hd : ¬ T <:+: s.drop pat.length :=
            fun hh => habs (hh.trans (List.drop_suffix _ _).isInfix)
          have hdl : (s.drop pat.length).length ≤ n := by
            have hp1 : 0 < pat.length := List.length_pos.mpr hp
            rw [List.length_drop]
            omega
          exact IH (s.drop pat.length) hdl hd h2
        · by_cases hyr : y₁ = rep
          · subst hyr
            exact hND (List.IsPrefix.isInfix ⟨y₂, hTeq.symm⟩)
          · exact hNB y₁ h1suf hyr h1ne ⟨y₂, hTeq.symm⟩
      · rcases s with _ | ⟨c, cs⟩
        · exact absurd rfl hs
        · rw [replaceFuel_miss pat rep n c cs (Bool.eq_false_iff.mpr hpre)]
          intro hin
          have hcs : cs.length ≤ n := by simpa using hl
          have habs' : ¬ T <:+: cs := fun hh => habs (List.infix_cons hh)
          rcases List.infix_cons_iff.mp hin with h1 | h2
          · rcases T with _ | ⟨d, T'⟩
            · exact hT rfl
            · obtain ⟨hdc, hT'⟩ := List.cons_prefix_cons.mp h1
              subst hdc
              have hnp : ¬ T' <+: cs := fun hh =>
                habs (List.IsPrefix.isInfix (List.cons_prefix_cons.mpr ⟨rfl, hh⟩))
              have hsufT : T' <:+ d :: T' := ⟨[d], rfl⟩
              have hneT : T' ≠ d :: T' := by
                intro h
                have : (d :: T').length ≤ T'.length := h ▸ Nat.le_refl _
                simp at this
              exact replaceFuel_prefix_none (d :: T') pat rep hp hNE hND n cs T'
                hcs hsufT hneT hnp hT'
          · exact IH cs hcs habs' h2

theorem replaceFuel_pat_gone (pat rep : List Char) (hp : pat ≠ [])
    (hA1 : ¬ pat <:+: rep)
    (hA2 : ∀ z, z <:+ rep → z ≠ rep → z ≠ [] → ¬ z <+: pat)
    (hAS1 : ∀ y, y <:+ pat → y ≠ pat → y ≠ [] → ¬ y <+: rep)
    (hAS2 : ¬ rep <:+: pat) :
    ∀ fuel s, s.length ≤ fuel → ¬ pat <:+: replaceFuel pat rep fuel s := by
  intro fuel
  induction fuel with
  | zero =>
    intro s hl
    have hs : s = [] := List.length_eq_zero.mp (Nat.le_zero.mp hl)
    subst hs
    intro hin
    exact hp (List.infix_nil.mp hin)
  | succ n IH =>
    intro s hl
    by_cases hs : s = []
    · subst hs
      rw [replaceFuel_nil]
      intro hin
      exact hp (List.infix_nil.mp hin)
    · by_cases hpre : pat.isPrefixOf s = true
      · rw [replaceFuel_hit pat rep n s hpre hp hs]
        intro hin
        rcases infix_append_cases hin with h1 | h2 | ⟨y₁, y₂, hTeq, h1ne, h2ne, h1suf, h2pre⟩
        · exact hA1 h1
        · have hdl : (s.drop pat.length).length ≤ n := by
            have hp1 : 0 < pat.length := List.length_pos.mpr hp
            rw [List.length_drop]
            omega
          exact IH (s.drop pat.length) hdl h2
        · by_cases hyr : y₁ = rep
          · subst hyr
            exact hAS2 (List.IsPrefix.isInfix ⟨y₂, hTeq.symm⟩)
          · exact hA2 y₁ h1suf hyr h1ne ⟨y₂, hTeq.symm⟩
      · rcases s with _ | ⟨c, cs⟩
        · exact absurd rfl hs
        · rw [replaceFuel_miss pat rep n c cs (Bool.eq_false_iff.mpr hpre)]
          intro hin
          have hcs : cs.length ≤ n := by simpa using hl
          rcases List.infix_cons_iff.mp hin with h1 | h2
          · obtain ⟨d, p', hpat⟩ : ∃ d p', pat = d :: p' := by
              rcases pat with _ | ⟨d, p'⟩
              · exact absurd rfl hp
              · exact ⟨d, p', rfl⟩
            have h1' : d :: p' <+: c :: replaceFuel pat rep n cs := by
              rw [← hpat]
              exact h1
            obtain ⟨hdc, hp'⟩ := List.cons_prefix_cons.mp h1'
            subst hdc
            have hnpre : ¬ pat <+: d :: cs := fun hh =>
              hpre ( List.isPrefixOf_iff_prefix.mpr hh)
            have hnp : ¬ p' <+: cs := by
              intro hh
              apply hnpre
              rw [hpat]
              exact List.cons_prefix_cons.mpr ⟨rfl, hh⟩
            have hsufT : p' <:+ pat := by
              rw [hpat]
              exact ⟨[d], rfl⟩
            have hneT : p' ≠ pat := by
              intro h
              rw [hpat] at h
              have : (d :: p').length ≤ p'.length := h ▸ Nat.le_refl _
              simp at this
            exact replaceFuel_prefix_none pat pat rep hp hAS1 hAS2 n cs p'
              hcs hsufT hneT hnp hp'
          · exact IH cs hcs h2

theorem replaceFuel_prefix_keep (T pat rep : List Char) (hp : pat ≠ [])
    (hP1 : ∀ y, y <:+ T → y ≠ T → y ≠ [] → ¬ y <+: pat)
    (hP2 : ¬ pat <:+: T) :
    ∀ fuel s y, s.length ≤ fuel → y <:+ T → y ≠ T → y <+: s →
      y <+: replaceFuel pat rep fuel s := by
  intro fuel
  induction fuel with
  | zero =>
    intro s y _ _ _ hys
    exact hys
  | succ n IH =>
    intro s y hl hyT hyne hys
    by_cases hynil : y = []
    · subst hynil
      exact List.nil_prefix
    · by_cases hs : s = []
      · subst hs
        exact absurd (List.prefix_nil.mp hys) hynil
      · by_cases hpre : pat.isPrefixOf s = true
        · exfalso
          obtain ⟨s', hs'⟩ := List.isPrefixOf_iff_prefix.mp hpre
          have hys' : y <+: pat ++ s' := by
            rw [hs']
            exact hys
          rcases prefix_append_cases hys' with h1 | ⟨y₂, hy, _⟩
          · exact hP1 y hyT hyne hynil h1
          · apply hP2
            have hpy : pat <+: y := ⟨y₂, hy.symm⟩
            exact hpy.isInfix.trans hyT.isInfix
        · rcases s with _ | ⟨c, cs⟩
          · exact absurd rfl hs
          · rw [replaceFuel_miss pat rep n c cs (Bool.eq_false_iff.mpr hpre)]
            rcases y with _ | ⟨d, y'⟩
            · exact absurd rfl hynil
            · obtain ⟨hdc, hy'⟩ := List.cons_prefix_cons.mp hys
              subst hdc
              have hy'T : y' <:+ T := List.IsSuffix.trans ⟨[d], rfl⟩ hyT
              have hy'ne : y' ≠ T := by
                intro h
                have := List.IsSuffix.length_le hyT
                rw [← h] at this
                simp at this
              have hcs : cs.length ≤ n := by simpa using hl
              exact List.cons_prefix_cons.mpr ⟨rfl, IH cs y' hcs hy'T hy'ne hy'⟩

theorem replaceFuel_infix_keep (T pat rep : List Char) (hp : pat ≠ [])
    (hPA : ¬ pat <:+: T) (hPB : ¬ T <:+: pat)
    (hPC : ∀ y, y <:+ pat → y ≠ pat → y ≠ [] → ¬ y <+: T)
    (hPD : ∀ y, y <:+ T → y ≠ T → y ≠ [] → ¬ y <+: pat) :
    ∀ fuel s, s.length ≤ fuel → T <:+: s → T <:+: replaceFuel pat rep fuel s := by
  intro fuel
  induction fuel with
  | zero =>
    intro s _ hin
    exact hin
  | succ n IH =>
    intro s hl hin
    by_cases hT : T = []
    · subst hT
      exact List.nil_infix
    · have hs : s ≠ [] := by
        rintro rfl
        exact hT (List.infix_nil.mp hin)
      by_cases hpre : pat.isPrefixOf s = true
      · rw [replaceFuel_hit pat rep n s hpre hp hs]
        obtain ⟨t, ht⟩ := List.isPrefixOf_iff_prefix.mp hpre
        have hdrop : s.drop pat.length = t := by
          rw [← ht, List.drop_left]
        have hin' : T <:+: pat ++ t := by
          rw [ht]
          exact hin
        rcases infix_append_cases hin' with h1 | h2 | ⟨y₁, y₂, hTeq, h1ne, h2ne, h1suf, h2pre⟩
        · exact absurd h1 hPB
        · have hdl : t.length ≤ n := by
            have : s.length = pat.length + t.length := by rw [← ht]; simp
            have hp1 : 0 < pat.length := List.length_pos.mpr hp
            omega
          have := IH t hdl h2
          rw [hdrop]
          exact this.trans ⟨rep, [], by simp⟩
        · exfalso
          by_cases hyr : y₁ = pat
          · subst hyr
            exact hPA (List.IsPrefix.isInfix ⟨y₂, hTeq.symm⟩)
          · exact hPC y₁ h1suf hyr h1ne ⟨y₂, hTeq.symm⟩
      · rcases s with _ | ⟨c, cs⟩
        · exact absurd rfl hs
        · rw [replaceFuel_miss pat rep n c cs (Bool.eq_false_iff.mpr hpre)]
          have hcs : cs.length ≤ n := by simpa using hl
          rcases List.infix_cons_iff.mp hin with h1 | h2
          · rcases T with _ | ⟨d, T'⟩
            · exact absurd rfl hT
            · obtain ⟨hdc, hT'⟩ := List.cons_prefix_cons.mp h1
              subst hdc
              have hsufT : T' <:+ d :: T' := ⟨[d], rfl⟩
              have hneT : T' ≠ d :: T' := by
                intro h
                have : (d :: T').length ≤ T'.length := h ▸ Nat.le_refl _
                simp at this
              have := replaceFuel_prefix_keep (d :: T') pat rep hp hPD hPA n cs T'
                hcs hsufT hneT hT'
              exact List.IsPrefix.isInfix (List.cons_prefix_cons.mpr ⟨rfl, this⟩)
          · exact List.infix_cons (IH cs hcs h2)

theorem ident_delim_eq (a : List Char) :
    ∀ (b r r' : List Char) (d d' : Char),
      (∀ c ∈ a, identChar c = true) → (∀ c ∈ b, identChar c = true) →
      identChar d = false → identChar d' = false →
      a ++ d :: r = b ++ d' :: r' → a = b ∧ d = d' ∧ r = r' := by
  induction a with
  | nil =>
    intro b r r' d d' _ hb hd _ h
    rcases b with _ | ⟨e, b'⟩
    · simp at h
      exact ⟨rfl, h.1, h.2⟩
    · simp at h
      obtain ⟨rfl, -⟩ := h
      rw [hb d (by simp)] at hd
      cases hd
  | cons c a' IH =>
    intro b r r' d d' ha hb hd hd' h
    rcases b with _ | ⟨e, b'⟩
    · simp at h
      obtain ⟨rfl, -⟩ := h
      rw [ha c (by simp)] at hd'
      cases hd'
    · simp at h
      obtain ⟨rfl, h2⟩ := h
      obtain ⟨h3, h4, h5⟩ := IH b' r r' d d' (fun x hx => ha x (by simp [hx]))
        (fun x hx => hb x (by simp [hx])) hd hd' h2
      exact ⟨by rw [h3], h4, h5⟩

theorem ident_delim_pre (a : List Char) :
    ∀ (b r r' : List Char) (d d' : Char),
      (∀ c ∈ a, identChar c = true) → (∀ c ∈ b, identChar c = true) →
      identChar d = false → identChar d' = false →
      a ++ d :: r <+: b ++ d' :: r' → a = b ∧ d = d' ∧ r <+: r' := by
  induction a with
  | nil =>
    intro b r r' d d' _ hb hd _ h
    rcases b with _ | ⟨e, b'⟩
    · simp at h
      obtain ⟨rfl, h2⟩ := List.cons_prefix_cons.mp (by simpa using h)
      exact ⟨rfl, rfl, h2⟩
    · obtain ⟨rfl, -⟩ := List.cons_prefix_cons.mp (by simpa using h)
      rw [hb d (by simp)] at hd
      cases hd
  | cons c a' IH =>
    intro b r r' d d' ha hb hd hd' h
    rcases b with _ | ⟨e, b'⟩
    · obtain ⟨rfl, -⟩ := List.cons_prefix_cons.mp (by simpa using h)
      rw [ha c (by simp)] at hd'
      cases hd'
    · obtain ⟨rfl, h2⟩ := List.cons_prefix_cons.mp (by simpa using h)
      obtain ⟨h3, h4, h5⟩ := IH b' r r' d d' (fun x hx => ha x (by simp [hx]))
        (fun x hx => hb x (by simp [hx])) hd hd' h2
      exact ⟨by rw [h3], h4, h5⟩

theorem unique_first_split (δ : Char) (x₁ : List Char) :
    ∀ (y₁ x₂ y₂ : List Char), δ ∉ x₁ → δ ∉ x₂ →
      x₁ ++ δ :: y₁ = x₂ ++ δ :: y₂ → x₁ = x₂ ∧ y₁ = y₂ := by
  induction x₁ with
  | nil =>
    intro y₁ x₂ y₂ _ h2 h
    rcases x₂ with _ | ⟨e, x₂'⟩
    · simp at h
      exact ⟨rfl, h⟩
    · simp at h
      obtain ⟨rfl, -⟩ := h
      exact absurd (by simp) h2
  | cons c x₁' IH =>
    intro y₁ x₂ y₂ h1 h2 h
    rcases x₂ with _ | ⟨e, x₂'⟩
    · simp at h
      obtain ⟨rfl, -⟩ := h
      exact absurd (by simp) h1
    · simp at h
      obtain ⟨rfl, h3⟩ := h
      obtain ⟨h4, h5⟩ := IH y₁ x₂' y₂ (fun hm => h1 (by simp [hm])) (fun hm => h2 (by simp [hm])) h3
      exact ⟨by rw [h4], h5⟩

theorem countP_eq_zero_of_ident (a : List Char) (d : Char)
    (ha : ∀ c ∈ a, identChar c = true) (hd : identChar d = false) :
    a.countP (fun c => c == d) = 0 := by
  rw [List.countP_eq_zero]
  intro c hc
  simp only [beq_iff_eq]
  intro h
  subst h
  rw [ha c hc] at hd
  cases hd

theorem not_mem_of_ident {a : List Char} {d : Char}
    (ha : ∀ c ∈ a, identChar c = true) (hd : identChar d = false) : d ∉ a := by
  intro hm
  rw [ha d hm] at hd
  cases hd

theorem delim_occurrence (δ : Char) (x y x' y' u v : List Char)
    (hx : δ ∉ x) (hx' : δ ∉ x')
    (hcnt : (x ++ δ :: y).countP (fun c => c == δ) =
      (x' ++ δ :: y').countP (fun c => c == δ))
    (h : u ++ (x ++ δ :: y) ++ v = x' ++ δ :: y') :
    u ++ x = x' ∧ y ++ v = y' := by
  have hcL := congrArg (List.countP (fun c => c == δ)) h
  simp only [List.countP_append] at hcL
  simp only [List.countP_append] at hcnt
  have hu : u.countP (fun c => c == δ) = 0 := by omega
  have hv : v.countP (fun c => c == δ) = 0 := by omega
  have hδu : δ ∉ u := by
    intro hm
    have := List.countP_eq_zero.mp hu δ hm
    simp at this
  have hδv : δ ∉ v := by
    intro hm
    have := List.countP_eq_zero.mp hv δ hm
    simp at this
  have heq : (u ++ x) ++ δ :: (y ++ v) = x' ++ δ :: y' := by
    rw [← h]
    simp [List.append_assoc]
  have hnm : δ ∉ u ++ x := by
    intro hm
    rcases List.mem_append.mp hm with h1 | h2
    · exact hδu h1
    · exact hx h2
  exact unique_first_split δ (u ++ x) (y ++ v) x' y' hnm hx' heq

theorem mQ1_split (n : List Char) :
    mQ1 n = "field".data ++ '=' :: ('"' :: (n ++ ['"'])) := rfl

theorem mQ2_split (n : List Char) :
    mQ2 n = [] ++ '<' :: ("field name=\"".data ++ n ++ ['"']) := by
  show mQ2 n = '<' :: ("field name=\"".data ++ n ++ ['"'])
  simp [mQ2]

theorem mQ3_split (n : List Char) :
    mQ3 n = [] ++ '>' :: (n ++ ['<', '/']) := by
  show mQ3 n = '>' :: (n ++ ['<', '/'])
  simp [mQ3]

theorem mSld_split (n : List Char) :
    mSld n = [] ++ '<' :: ("ogc:PropertyName>".data ++ n ++ "</ogc:PropertyName>".data) := by
  show mSld n = '<' :: ("ogc:PropertyName>".data ++ n ++ "</ogc:PropertyName>".data)
  simp [mSld]

theorem mQ1_count (n : List Char) (hn : ∀ c ∈ n, identChar c = true) :
    (mQ1 n).countP (fun c => c == '=') = 1 := by
  simp [mQ1, List.countP_append, countP_eq_zero_of_ident n '=' hn rfl]

theorem mQ2_count (n : List Char) (hn : ∀ c ∈ n, identChar c = true) :
    (mQ2 n).countP (fun c => c == '<') = 1 := by
  simp [mQ2, List.countP_append, countP_eq_zero_of_ident n '<' hn rfl]

theorem mQ3_count (n : List Char) (hn : ∀ c ∈ n, identChar c = true) :
    (mQ3 n).countP (fun c => c == '>') = 1 := by
  simp [mQ3, List.countP_append, countP_eq_zero_of_ident n '>' hn rfl]

theorem mSld_count (n : List Char) (hn : ∀ c ∈ n, identChar c = true) :
    (mSld n).countP (fun c => c == '<') = 2 := by
  simp [mSld, List.countP_append, countP_eq_zero_of_ident n '<' hn rfl]

theorem mQ2_esplit (n : List Char) :
    mQ2 n = "<field name".data ++ '=' :: ('"' :: (n ++ ['"'])) := rfl

theorem mQ2_ecount (n : List Char) (hn : ∀ c ∈ n, identChar c = true) :
    (mQ2 n).countP (fun c => c == '=') = 1 := by
  simp [mQ2, List.countP_append, countP_eq_zero_of_ident n '=' hn rfl]

theorem not_infix_of_mem_not_mem (d : Char) {p t : List Char}
    (hd : d ∈ p) (ht : d ∉ t) : ¬ p <:+: t :=
  fun h => ht (h.sublist.subset hd)

theorem not_mem_marker {d : Char} (X E b : List Char)
    (hb : ∀ c ∈ b, identChar c = true) (hd : identChar d = false)
    (hX : d ∉ X) (hE : d ∉ E) : d ∉ X ++ b ++ E := by
  intro hm
  rcases List.mem_append.mp hm with h1 | h2
  · rcases List.mem_append.mp h1 with h3 | h4
    · exact hX h3
    · exact not_mem_of_ident hb hd h4
  · exact hE h2

theorem length_zero_of_append_self {u X : List Char} (h : u ++ X = X) : u = [] := by
  have hl := congrArg List.length h
  simp at hl
  exact hl

theorem mQ1_not_infix_mQ1 (a b : List Char) (ha : ∀ c ∈ a, identChar c = true)
    (hb : ∀ c ∈ b, identChar c = true) (hab : a ≠ b) : ¬ mQ1 a <:+: mQ1 b := by
  intro h
  obtain ⟨u, v, huv⟩ := h
  rw [mQ1_split a, mQ1_split b] at huv
  obtain ⟨hx, hy⟩ := delim_occurrence '=' "field".data ('"' :: (a ++ ['"'])) "field".data
      ('"' :: (b ++ ['"'])) u v (by decide) (by decide)
      (by rw [← mQ1_split a, ← mQ1_split b, mQ1_count a ha, mQ1_count b hb]) huv
  have hu : u = [] := length_zero_of_append_self hx
  subst hu
  have hy' : a ++ '"' :: v = b ++ '"' :: [] := by
    simpa [List.append_assoc] using hy
  obtain ⟨he, -, -⟩ := ident_delim_eq a b ('"' :: v).tail [] '"' '"' ha hb (by decide) (by decide)
    (by simpa using hy')
  exact hab he

theorem mQ2_not_infix_mQ2 (a b : List Char) (ha : ∀ c ∈ a, identChar c = true)
    (hb : ∀ c ∈ b, identChar c = true) (hab : a ≠ b) : ¬ mQ2 a <:+: mQ2 b := by
  intro h
  obtain ⟨u, v, huv⟩ := h
  rw [mQ2_esplit a, mQ2_esplit b] at huv
  obtain ⟨hx, hy⟩ := delim_occurrence '=' "<field name".data ('"' :: (a ++ ['"']))
      "<field name".data ('"' :: (b ++ ['"'])) u v (by decide) (by decide)
      (by rw [← mQ2_esplit a, ← mQ2_esplit b, mQ2_ecount a ha, mQ2_ecount b hb]) huv
  have hu : u = [] := length_zero_of_append_self hx
  subst hu
  have hy' : a ++ '"' :: v = b ++ '"' :: [] := by
    simpa [List.append_assoc] using hy
  obtain ⟨he, -, -⟩ := ident_delim_eq a b v [] '"' '"' ha hb (by decide) (by decide) hy'
  exact hab he

theorem mQ3_not_infix_mQ3 (a b : List Char) (ha : ∀ c ∈ a, identChar c = true)
    (hb : ∀ c ∈ b, identChar c = true) (hab : a ≠ b) : ¬ mQ3 a <:+: mQ3 b := by
  intro h
  obtain ⟨u, v, huv⟩ := h
  rw [mQ3_split a, mQ3_split b] at huv
  obtain ⟨hx, hy⟩ := delim_occurrence '>' [] (a ++ ['<', '/']) []
      (b ++ ['<', '/']) u v (by decide) (by decide)
      (by rw [← mQ3_split a, ← mQ3_split b, mQ3_count a ha, mQ3_count b hb]) huv
  have hy' : a ++ '<' :: ('/' :: v) = b ++ '<' :: ['/'] := by
    simpa [List.append_assoc] using hy
  obtain ⟨he, -, -⟩ := ident_delim_eq a b ('/' :: v) ['/'] '<' '<' ha hb (by decide) (by decide) hy'
  exact hab he

theorem mSld_not_infix_mSld (a b : List Char) (ha : ∀ c ∈ a, identChar c = true)
    (hb : ∀ c ∈ b, identChar c = true) (hab : a ≠ b) : ¬ mSld a <:+: mSld b := by
  intro h
  obtain ⟨u, v, huv⟩ := h
  rw [mSld_split a, mSld_split b] at huv
  obtain ⟨hx, hy⟩ := delim_occurrence '<' []
      ("ogc:PropertyName>".data ++ a ++ "</ogc:PropertyName>".data) []
      ("ogc:PropertyName>".data ++ b ++ "</ogc:PropertyName>".data) u v
      (by decide) (by decide)
      (by rw [← mSld_split a, ← mSld_split b, mSld_count a ha, mSld_count b hb]) huv
  have hy2 : "ogc:PropertyName>".data ++ (a ++ ("</ogc:PropertyName>".data ++ v)) =
      "ogc:PropertyName>".data ++ (b ++ "</ogc:PropertyName>".data) := by
    simpa [List.append_assoc] using hy
  have hy3 := List.append_cancel_left hy2
  have hy4 : a ++ '<' :: ("/ogc:PropertyName>".data ++ v) =
      b ++ '<' :: "/ogc:PropertyName>".data := by
    simpa using hy3
  obtain ⟨he, -, -⟩ := ident_delim_eq a b ("/ogc:PropertyName>".data ++ v)
    "/ogc:PropertyName>".data '<' '<' ha hb (by decide) (by decide) hy4
  exact hab he

theorem mQ1_not_infix_mQ2 (a b : List Char) (ha : ∀ c ∈ a, identChar c = true)
    (hb : ∀ c ∈ b, identChar c = true) : ¬ mQ1 a <:+: mQ2 b := by
  intro h
  obtain ⟨u, v, huv⟩ := h
  rw [mQ1_split a, mQ2_esplit b] at huv
  obtain ⟨hx, hy⟩ := delim_occurrence '=' "field".data ('"' :: (a ++ ['"']))
      "<field name".data ('"' :: (b ++ ['"'])) u v (by decide) (by decide)
      (by rw [← mQ1_split a, ← mQ2_esplit b, mQ1_count a ha, mQ2_ecount b hb]) huv
  have hrev := congrArg List.reverse hx
  rw [List.reverse_append] at hrev
  have hA : ("field".data).reverse = 'd' :: 'l' :: 'e' :: 'i' :: 'f' :: [] := by decide
  have hB : ("<field name".data).reverse =
      'e' :: 'm' :: 'a' :: 'n' :: ' ' :: 'd' :: 'l' :: 'e' :: 'i' :: 'f' :: '<' :: [] := by decide
  rw [hA, hB] at hrev
  simp at hrev

theorem mQ2_not_infix_mQ1 (a b : List Char) (hb : ∀ c ∈ b, identChar c = true) :
    ¬ mQ2 a <:+: mQ1 b := by
  apply not_infix_of_mem_not_mem '<'
  · show '<' ∈ "<field name=\"".data ++ a ++ "\"".data
    exact List.mem_append_left _ (List.mem_append_left _ (by decide))
  · show '<' ∉ "field=\"".data ++ b ++ "\"".data
    exact not_mem_marker _ _ b hb (by decide) (by decide) (by decide)

theorem mQ3_not_infix_mQ1 (a b : List Char) (hb : ∀ c ∈ b, identChar c = true) :
    ¬ mQ3 a <:+: mQ1 b := by
  apply not_infix_of_mem_not_mem '>'
  · show '>' ∈ ">".data ++ a ++ "</".data
    exact List.mem_append_left _ (List.mem_append_left _ (by decide))
  · show '>' ∉ "field=\"".data ++ b ++ "\"".data
    exact not_mem_marker _ _ b hb (by decide) (by decide) (by decide)

theorem mQ3_not_infix_mQ2 (a b : List Char) (hb : ∀ c ∈ b, identChar c = true) :
    ¬ mQ3 a <:+: mQ2 b := by
  apply not_infix_of_mem_not_mem '>'
  · show '>' ∈ ">".data ++ a ++ "</".data
    exact List.mem_append_left _ (List.mem_append_left _ (by decide))
  · show '>' ∉ "<field name=\"".data ++ b ++ "\"".data
    exact not_mem_marker _ _ b hb (by decide) (by decide) (by decide)

theorem mQ1_not_infix_mQ3 (a b : List Char) (hb : ∀ c ∈ b, identChar c = true) :
    ¬ mQ1 a <:+: mQ3 b := by
  apply not_infix_of_mem_not_mem '='
  · show '=' ∈ "field=\"".data ++ a ++ "\"".data
    exact List.mem_append_left _ (List.mem_append_left _ (by decide))
  · show '=' ∉ ">".data ++ b ++ "</".data
    exact not_mem_marker _ _ b hb (by decide) (by decide) (by decide)

theorem mQ2_not_infix_mQ3 (a b : List Char) (hb : ∀ c ∈ b, identChar c = true) :
    ¬ mQ2 a <:+: mQ3 b := by
  apply not_infix_of_mem_not_mem '='
  · show '=' ∈ "<field name=\"".data ++ a ++ "\"".data
    exact List.mem_append_left _ (List.mem_append_left _ (by decide))
  · show '=' ∉ ">".data ++ b ++ "</".data
    exact not_mem_marker _ _ b hb (by decide) (by decide) (by decide)

theorem marker_suffix_cases {y d am e : List Char} (h : y <:+ d ++ am ++ e) :
    y <:+ e ∨ (∃ a₂, a₂ <:+ am ∧ a₂ ≠ [] ∧ y = a₂ ++ e) ∨
      (∃ d₂, d₂ <:+ d ∧ d₂ ≠ [] ∧ y = d₂ ++ am ++ e) := by
  have h' : y <:+ d ++ (am ++ e) := by simpa [List.append_assoc] using h
  rcases suffix_append_cases h' with h1 | ⟨d₂, hd₂, hne, rfl⟩
  · rcases suffix_append_cases h1 with h2 | ⟨a₂, ha₂, hne, rfl⟩
    · exact Or.inl h2
    · exact Or.inr (Or.inl ⟨a₂, ha₂, hne, rfl⟩)
  · exact Or.inr (Or.inr ⟨d₂, hd₂, hne, by rw [List.append_assoc]⟩)

theorem head?_of_pre {y w : List Char} (h : y <+: w) (hy : y ≠ []) :
    y.head? = w.head? := by
  obtain ⟨t, rfl⟩ := h
  rcases y with _ | ⟨c, y'⟩
  · exact absurd rfl hy
  · rfl

theorem head?_append_ne {d₂ : List Char} (w : List Char) (h : d₂ ≠ []) :
    (d₂ ++ w).head? = d₂.head? := by
  rcases d₂ with _ | ⟨c, t⟩
  · exact absurd rfl h
  · rfl

theorem head_of_ident_append {a₂ w : List Char} {c : Char}
    (ha : ∀ x ∈ a₂, identChar x = true) (hne : a₂ ≠ []) (hc : identChar c = false) :
    (a₂ ++ w).head? ≠ some c := by
  rcases a₂ with _ | ⟨x, xs⟩
  · exact absurd rfl hne
  · intro h
    simp only [List.cons_append, List.head?_cons, Option.some.injEq] at h
    subst h
    rw [ha x (by simp)] at hc
    cases hc

theorem suffix_mQ1_not_prefix_mQ1 (a b : List Char)
    (ha : ∀ c ∈ a, identChar c = true) (hb : ∀ c ∈ b, identChar c = true) :
    ∀ y, y <:+ mQ1 a → y ≠ mQ1 a → y ≠ [] → ¬ y <+: mQ1 b := by
  intro y hsuf hyne hynil hpre
  have hhead : y.head? = some 'f' := by
    rw [head?_of_pre hpre hynil]
    rfl
  have hsuf' : y <:+ "field=\"".data ++ a ++ ['"'] := hsuf
  rcases marker_suffix_cases hsuf' with h1 | ⟨a₂, ha₂, hne, rfl⟩ | ⟨d₂, hd₂, hne, rfl⟩
  · exact (by decide : ∀ z ∈ (['"'] : List Char).tails, z.head? = some 'f' → False)
      y ((List.mem_tails _ _).mpr h1) hhead
  · have hpre' : a₂ ++ '"' :: [] <+: "field".data ++ '=' :: ('"' :: (b ++ ['"'])) := by
      rw [← mQ1_split b]
      exact hpre
    obtain ⟨-, hdd, -⟩ := ident_delim_pre a₂ "field".data [] ('"' :: (b ++ ['"'])) '"' '='
      (fun x hx => ha x (ha₂.subset hx)) (by decide) (by decide) (by decide) hpre'
    exact absurd hdd (by decide)
  · have hh : d₂.head? = some 'f' := by
      rw [head?_append_ne ['"'] (fun hh0 => hne (List.append_eq_nil.mp hh0).1),
        head?_append_ne a hne] at hhead
      exact hhead
    have hd := (by decide : ∀ z ∈ ("field=\"".data).tails, z.head? = some 'f' →
      z = "field=\"".data) d₂ ((List.mem_tails _ _).mpr hd₂) hh
    subst hd
    exact hyne rfl

theorem suffix_mQ2_not_prefix_mQ1 (a b : List Char)
    (ha : ∀ c ∈ a, identChar c = true) :
    ∀ y, y <:+ mQ2 a → y ≠ mQ2 a → y ≠ [] → ¬ y <+: mQ1 b := by
  intro y hsuf hyne hynil hpre
  have hhead : y.head? = some 'f' := by
    rw [head?_of_pre hpre hynil]
    rfl
  have hsuf' : y <:+ "<field name=\"".data ++ a ++ ['"'] := hsuf
  rcases marker_suffix_cases hsuf' with h1 | ⟨a₂, ha₂, hne, rfl⟩ | ⟨d₂, hd₂, hne, rfl⟩
  · exact (by decide : ∀ z ∈ (['"'] : List Char).tails, z.head? = some 'f' → False)
      y ((List.mem_tails _ _).mpr h1) hhead
  · have hpre' : a₂ ++ '"' :: [] <+: "field".data ++ '=' :: ('"' :: (b ++ ['"'])) := by
      rw [← mQ1_split b]
      exact hpre
    obtain ⟨-, hdd, -⟩ := ident_delim_pre a₂ "field".data [] ('"' :: (b ++ ['"'])) '"' '='
      (fun x hx => ha x (ha₂.subset hx)) (by decide) (by decide) (by decide) hpre'
    exact absurd hdd (by decide)
  · have hh : d₂.head? = some 'f' := by
      rw [head?_append_ne ['"'] (fun hh0 => hne (List.append_eq_nil.mp hh0).1),
        head?_append_ne a hne] at hhead
      exact hhead
    have hd := (by decide : ∀ z ∈ ("<field name=\"".data).tails, z.head? = some 'f' →
      z = "field name=\"".data) d₂ ((List.mem_tails _ _).mpr hd₂) hh
    subst hd
    have hpre' : "field".data ++ ' ' :: ("name=\"".data ++ (a ++ ['"'])) <+:
        "field".data ++ '=' :: ('"' :: (b ++ ['"'])) := by
      rw [← mQ1_split b]
      exact hpre
    obtain ⟨-, hdd, -⟩ := ident_delim_pre "field".data "field".data
      ("name=\"".data ++ (a ++ ['"'])) ('"' :: (b ++ ['"'])) ' ' '='
      (by decide) (by decide) (by decide) (by decide) hpre'
    exact absurd hdd (by decide)

theorem suffix_mQ3_not_prefix_mQ1 (a b : List Char)
    (ha : ∀ c ∈ a, identChar c = true) :
    ∀ y, y <:+ mQ3 a → y ≠ mQ3 a → y ≠ [] → ¬ y <+: mQ1 b := by
  intro y hsuf hyne hynil hpre
  have hhead : y.head? = some 'f' := by
    rw [head?_of_pre hpre hynil]
    rfl
  have hsuf' : y <:+ ['>'] ++ a ++ ['<', '/'] := hsuf
  rcases marker_suffix_cases hsuf' with h1 | ⟨a₂, ha₂, hne, rfl⟩ | ⟨d₂, hd₂, hne, rfl⟩
  · exact (by decide : ∀ z ∈ (['<', '/'] : List Char).tails, z.head? = some 'f' → False)
      y ((List.mem_tails _ _).mpr h1) hhead
  · have hpre' : a₂ ++ '<' :: ['/'] <+: "field".data ++ '=' :: ('"' :: (b ++ ['"'])) := by
      rw [← mQ1_split b]
      exact hpre
    obtain ⟨-, hdd, -⟩ := ident_delim_pre a₂ "field".data ['/'] ('"' :: (b ++ ['"'])) '<' '='
      (fun x hx => ha x (ha₂.subset hx)) (by decide) (by decide) (by decide) hpre'
    exact absurd hdd (by decide)
  · have hh : d₂.head? = some 'f' := by
      rw [head?_append_ne ['<', '/'] (fun hh0 => hne (List.append_eq_nil.mp hh0).1),
        head?_append_ne a hne] at hhead
      exact hhead
    exact (by decide : ∀ z ∈ (['>'] : List Char).tails, z.head? = some 'f' → False)
      d₂ ((List.mem_tails _ _).mpr hd₂) hh

theorem suffix_mQ1_not_prefix_mQ2 (a b : List Char)
    (ha : ∀ c ∈ a, identChar c = true) :
    ∀ y, y <:+ mQ1 a → y ≠ mQ1 a → y ≠ [] → ¬ y <+: mQ2 b := by
  intro y hsuf hyne hynil hpre
  have hhead : y.head? = some '<' := by
    rw [head?_of_pre hpre hynil]
    rfl
  have hsuf' : y <:+ "field=\"".data ++ a ++ ['"'] := hsuf
  rcases marker_suffix_cases hsuf' with h1 | ⟨a₂, ha₂, hne, rfl⟩ | ⟨d₂, hd₂, hne, rfl⟩
  · exact (by decide : ∀ z ∈ (['"'] : List Char).tails, z.head? = some '<' → False)
      y ((List.mem_tails _ _).mpr h1) hhead
  · exact head_of_ident_append (fun x hx => ha x (ha₂.subset hx)) hne (by decide) hhead
  · have hh : d₂.head? = some '<' := by
      rw [head?_append_ne ['"'] (fun hh0 => hne (List.append_eq_nil.mp hh0).1),
        head?_append_ne a hne] at hhead
      exact hhead
    exact (by decide : ∀ z ∈ ("field=\"".data).tails, z.head? = some '<' → False)
      d₂ ((List.mem_tails _ _).mpr hd₂) hh

theorem suffix_mQ2_not_prefix_mQ2 (a b : List Char)
    (ha : ∀ c ∈ a, identChar c = true) :
    ∀ y, y <:+ mQ2 a → y ≠ mQ2 a → y ≠ [] → ¬ y <+: mQ2 b := by
  intro y hsuf hyne hynil hpre
  have hhead : y.head? = some '<' := by
    rw [head?_of_pre hpre hynil]
    rfl
  have hsuf' : y <:+ "<field name=\"".data ++ a ++ ['"'] := hsuf
  rcases marker_suffix_cases hsuf' with h1 | ⟨a₂, ha₂, hne, rfl⟩ | ⟨d₂, hd₂, hne, rfl⟩
  · exact (by decide : ∀ z ∈ (['"'] : List Char).tails, z.head? = some '<' → False)
      y ((List.mem_tails _ _).mpr h1) hhead
  · exact head_of_ident_append (fun x hx => ha x (ha₂.subset hx)) hne (by decide) hhead
  · have hh : d₂.head? = some '<' := by
      rw [head?_append_ne ['"'] (fun hh0 => hne (List.append_eq_nil.mp hh0).1),
        head?_append_ne a hne] at hhead
      exact hhead
    have hd := (by decide : ∀ z ∈ ("<field name=\"".data).tails, z.head? = some '<' →
      z = "<field name=\"".data) d₂ ((List.mem_tails _ _).mpr hd₂) hh
    subst hd
    exact hyne rfl

theorem suffix_mQ3_not_prefix_mQ2 (a b : List Char)
    (ha : ∀ c ∈ a, identChar c = true) :
    ∀ y, y <:+ mQ3 a → y ≠ mQ3 a → y ≠ [] → ¬ y <+: mQ2 b := by
  intro y hsuf hyne hynil hpre
  have hhead : y.head? = some '<' := by
    rw [head?_of_pre hpre hynil]
    rfl
  have hsuf' : y <:+ ['>'] ++ a ++ ['<', '/'] := hsuf
  rcases marker_suffix_cases hsuf' with h1 | ⟨a₂, ha₂, hne, rfl⟩ | ⟨d₂, hd₂, hne, rfl⟩
  · have hy := (by decide : ∀ z ∈ (['<', '/'] : List Char).tails, z.head? = some '<' →
      z = ['<', '/']) y ((List.mem_tails _ _).mpr h1) hhead
    subst hy
    obtain ⟨t, ht⟩ := hpre
    have ht' : '<' :: '/' :: t =
        '<' :: 'f' :: ("ield name=\"".data ++ (b ++ ['"'])) := ht
    simp at ht'
  · exact head_of_ident_append (fun x hx => ha x (ha₂.subset hx)) hne (by decide) hhead
  · have hh : d₂.head? = some '<' := by
      rw [head?_append_ne ['<', '/'] (fun hh0 => hne (List.append_eq_nil.mp hh0).1),
        head?_append_ne a hne] at hhead
      exact hhead
    exact (by decide : ∀ z ∈ (['>'] : List Char).tails, z.head? = some '<' → False)
      d₂ ((List.mem_tails _ _).mpr hd₂) hh

theorem suffix_mQ1_not_prefix_mQ3 (a b : List Char)
    (ha : ∀ c ∈ a, identChar c = true) :
    ∀ y, y <:+ mQ1 a → y ≠ mQ1 a → y ≠ [] → ¬ y <+: mQ3 b := by
  intro y hsuf hyne hynil hpre
  have hhead : y.head? = some '>' := by
    rw [head?_of_pre hpre hynil]
    rfl
  have hsuf' : y <:+ "field=\"".data ++ a ++ ['"'] := hsuf
  rcases marker_suffix_cases hsuf' with h1 | ⟨a₂, ha₂, hne, rfl⟩ | ⟨d₂, hd₂, hne, rfl⟩
  · exact (by decide : ∀ z ∈ (['"'] : List Char).tails, z.head? = some '>' → False)
      y ((List.mem_tails _ _).mpr h1) hhead
  · exact head_of_ident_append (fun x hx => ha x (ha₂.subset hx)) hne (by decide) hhead
  · have hh : d₂.head? = some '>' := by
      rw [head?_append_ne ['"'] (fun hh0 => hne (List.append_eq_nil.mp hh0).1),
        head?_append_ne a hne] at hhead
      exact hhead
    exact (by decide : ∀ z ∈ ("field=\"".data).tails, z.head? = some '>' → False)
      d₂ ((List.mem_tails _ _).mpr hd₂) hh

theorem suffix_mQ2_not_prefix_mQ3 (a b : List Char)
    (ha : ∀ c ∈ a, identChar c = true) :
    ∀ y, y <:+ mQ2 a → y ≠ mQ2 a → y ≠ [] → ¬ y <+: mQ3 b := by
  intro y hsuf hyne hynil hpre
  have hhead : y.head? = some '>' := by
    rw [head?_of_pre hpre hynil]
    rfl
  have hsuf' : y <:+ "<field name=\"".data ++ a ++ ['"'] := hsuf
  rcases marker_suffix_cases hsuf' with h1 | ⟨a₂, ha₂, hne, rfl⟩ | ⟨d₂, hd₂, hne, rfl⟩
  · exact (by decide : ∀ z ∈ (['"'] : List Char).tails, z.head? = some '>' → False)
      y ((List.mem_tails _ _).mpr h1) hhead
  · exact head_of_ident_append (fun x hx => ha x (ha₂.subset hx)) hne (by decide) hhead
  · have hh : d₂.head? = some '>' := by
      rw [head?_append_ne ['"'] (fun hh0 => hne (List.append_eq_nil.mp hh0).1),
        head?_append_ne a hne] at hhead
      exact hhead
    exact (by decide : ∀ z ∈ ("<field name=\"".data).tails, z.head? = some '>' → False)
      d₂ ((List.mem_tails _ _).mpr hd₂) hh

theorem suffix_mQ3_not_prefix_mQ3 (a b : List Char)
    (ha : ∀ c ∈ a, identChar c = true) :
    ∀ y, y <:+ mQ3 a → y ≠ mQ3 a → y ≠ [] → ¬ y <+: mQ3 b := by
  intro y hsuf hyne hynil hpre
  have hhead : y.head? = some '>' := by
    rw [head?_of_pre hpre hynil]
    rfl
  have hsuf' : y <:+ ['>'] ++ a ++ ['<', '/'] := hsuf
  rcases marker_suffix_cases hsuf' with h1 | ⟨a₂, ha₂, hne, rfl⟩ | ⟨d₂, hd₂, hne, rfl⟩
  · exact (by decide : ∀ z ∈ (['<', '/'] : List Char).tails, z.head? = some '>' → False)
      y ((List.mem_tails _ _).mpr h1) hhead
  · exact head_of_ident_append (fun x hx => ha x (ha₂.subset hx)) hne (by decide) hhead
  · have hh : d₂.head? = some '>' := by
      rw [head?_append_ne ['<', '/'] (fun hh0 => hne (List.append_eq_nil.mp hh0).1),
        head?_append_ne a hne] at hhead
      exact hhead
    have hd := (by decide : ∀ z ∈ (['>'] : List Char).tails, z.head? = some '>' →
      z = ['>']) d₂ ((List.mem_tails _ _).mpr hd₂) hh
    subst hd
    exact hyne rfl

theorem suffix_mSld_not_prefix_mSld (a b : List Char)
    (ha : ∀ c ∈ a, identChar c = true) :
    ∀ y, y <:+ mSld a → y ≠ mSld a → y ≠ [] → ¬ y <+: mSld b := by
  intro y hsuf hyne hynil hpre
  have hhead : y.head? = some '<' := by
    rw [head?_of_pre hpre hynil]
    rfl
  have hsuf' : y <:+ "<ogc:PropertyName>".data ++ a ++ "</ogc:PropertyName>".data := hsuf
  rcases marker_suffix_cases hsuf' with h1 | ⟨a₂, ha₂, hne, rfl⟩ | ⟨d₂, hd₂, hne, rfl⟩
  · have hy := (by decide : ∀ z ∈ ("</ogc:PropertyName>".data).tails, z.head? = some '<' →
      z = "</ogc:PropertyName>".data) y ((List.mem_tails _ _).mpr h1) hhead
    subst hy
    obtain ⟨t, ht⟩ := hpre
    have ht' : '<' :: '/' :: ("ogc:PropertyName>".data ++ t) =
        '<' :: 'o' :: ("gc:PropertyName>".data ++ (b ++ "</ogc:PropertyName>".data)) := ht
    simp at ht'
  · exact head_of_ident_append (fun x hx => ha x (ha₂.subset hx)) hne (by decide) hhead
  · have hh : d₂.head? = some '<' := by
      rw [head?_append_ne "</ogc:PropertyName>".data
        (fun hh0 => hne (List.append_eq_nil.mp hh0).1),
        head?_append_ne a hne] at hhead
      exact hhead
    have hd := (by decide : ∀ z ∈ ("<ogc:PropertyName>".data).tails, z.head? = some '<' →
      z = "<ogc:PropertyName>".data) d₂ ((List.mem_tails _ _).mpr hd₂) hh
    subst hd
    exact hyne rfl

theorem pyReplace_rep_occurs {s pat rep : List Char} (hp : pat ≠ [])
    (h : pat <:+: s) : rep <:+: pyReplace s pat rep :=
  replaceFuel_rep_occurs pat rep hp s.length s (Nat.le_refl _) h

theorem pyReplace_pat_gone {pat rep : List Char} (hp : pat ≠ [])
    (hA1 : ¬ pat <:+: rep)
    (hA2 : ∀ z, z <:+ rep → z ≠ rep → z ≠ [] → ¬ z <+: pat)
    (hAS1 : ∀ y, y <:+ pat → y ≠ pat → y ≠ [] → ¬ y <+: rep)
    (hAS2 : ¬ rep <:+: pat) (s : List Char) : ¬ pat <:+: pyReplace s pat rep :=
  replaceFuel_pat_gone pat rep hp hA1 hA2 hAS1 hAS2 s.length s (Nat.le_refl _)

theorem pyReplace_infix_keep (T pat rep : List Char) (hp : pat ≠ [])
    (hPA : ¬ pat <:+: T) (hPB : ¬ T <:+: pat)
    (hPC : ∀ y, y <:+ pat → y ≠ pat → y ≠ [] → ¬ y <+: T)
    (hPD : ∀ y, y <:+ T → y ≠ T → y ≠ [] → ¬ y <+: pat)
    {s : List Char} (h : T <:+: s) : T <:+: pyReplace s pat rep :=
  replaceFuel_infix_keep T pat rep hp hPA hPB hPC hPD s.length s (Nat.le_refl _) h

theorem pyReplace_keep_absent (T pat rep : List Char) (hp : pat ≠ [])
    (hNA : ¬ T <:+: rep)
    (hNB : ∀ z, z <:+ rep → z ≠ rep → z ≠ [] → ¬ z <+: T)
    (hND : ¬ rep <:+: T)
    (hNE : ∀ y, y <:+ T → y ≠ T → y ≠ [] → ¬ y <+: rep)
    {s : List Char} (h : ¬ T <:+: s) : ¬ T <:+: pyReplace s pat rep :=
  replaceFuel_keep_absent T pat rep hp hNA hNB hND hNE s.length s (Nat.le_refl _) h

theorem marker_ne_nil {X x E : List Char} (hX : X ≠ []) : X ++ x ++ E ≠ [] := by
  intro h
  rcases List.append_eq_nil.mp h with ⟨h1, -⟩
  rcases List.append_eq_nil.mp h1 with ⟨h2, -⟩
  exact hX h2

theorem mQ1_ne_nil (x : List Char) : mQ1 x ≠ [] := marker_ne_nil (by decide)
theorem mQ2_ne_nil (x : List Char) : mQ2 x ≠ [] := marker_ne_nil (by decide)
theorem mQ3_ne_nil (x : List Char) : mQ3 x ≠ [] := marker_ne_nil (by decide)
theorem mSld_ne_nil (x : List Char) : mSld x ≠ [] := marker_ne_nil (by decide)

theorem qmlSubstPair_subst {o n : List Char} (ho : IdentName o) (hn : IdentName n)
    (hon : o ≠ n) (s : List Char) :
    ((mQ1 o <:+: s → mQ1 n <:+: qmlSubstPair s (o, n)) ∧
      ¬ mQ1 o <:+: qmlSubstPair s (o, n)) ∧
    ((mQ2 o <:+: s → mQ2 n <:+: qmlSubstPair s (o, n)) ∧
      ¬ mQ2 o <:+: qmlSubstPair s (o, n)) ∧
    ((mQ3 o <:+: s → mQ3 n <:+: qmlSubstPair s (o, n)) ∧
      ¬ mQ3 o <:+: qmlSubstPair s (o, n)) := by
  have hr : qmlSubstPair s (o, n) =
      pyReplace (pyReplace (pyReplace s (mQ1 o) (mQ1 n)) (mQ2 o) (mQ2 n))
        (mQ3 o) (mQ3 n) := if_neg hon
  rw [hr]
  refine ⟨⟨?p1, ?a1⟩, ⟨?p2, ?a2⟩, ⟨?p3, ?a3⟩⟩
  case p1 =>
    intro h
    have h1 : mQ1 n <:+: pyReplace s (mQ1 o) (mQ1 n) :=
      pyReplace_rep_occurs (mQ1_ne_nil o) h
    have h2 := pyReplace_infix_keep _ (mQ2 o) (mQ2 n) (mQ2_ne_nil o)
      (mQ2_not_infix_mQ1 o n hn.2) (mQ1_not_infix_mQ2 n o hn.2 ho.2)
      (suffix_mQ2_not_prefix_mQ1 o n ho.2) (suffix_mQ1_not_prefix_mQ2 n o hn.2) h1
    exact pyReplace_infix_keep _ (mQ3 o) (mQ3 n) (mQ3_ne_nil o)
      (mQ3_not_infix_mQ1 o n hn.2) (mQ1_not_infix_mQ3 n o ho.2)
      (suffix_mQ3_not_prefix_mQ1 o n ho.2) (suffix_mQ1_not_prefix_mQ3 n o hn.2) h2
  case a1 =>
    have h1 : ¬ mQ1 o <:+: pyReplace s (mQ1 o) (mQ1 n) :=
      pyReplace_pat_gone (mQ1_ne_nil o)
        (mQ1_not_infix_mQ1 o n ho.2 hn.2 hon)
        (suffix_mQ1_not_prefix_mQ1 n o hn.2 ho.2)
        (suffix_mQ1_not_prefix_mQ1 o n ho.2 hn.2)
        (mQ1_not_infix_mQ1 n o hn.2 ho.2 (Ne.symm hon)) s
    have h2 := pyReplace_keep_absent _ (mQ2 o) (mQ2 n) (mQ2_ne_nil o)
      (mQ1_not_infix_mQ2 o n ho.2 hn.2) (suffix_mQ2_not_prefix_mQ1 n o hn.2)
      (mQ2_not_infix_mQ1 n o ho.2) (suffix_mQ1_not_prefix_mQ2 o n ho.2) h1
    exact pyReplace_keep_absent _ (mQ3 o) (mQ3 n) (mQ3_ne_nil o)
      (mQ1_not_infix_mQ3 o n hn.2) (suffix_mQ3_not_prefix_mQ1 n o hn.2)
      (mQ3_not_infix_mQ1 n o ho.2) (suffix_mQ1_not_prefix_mQ3 o n ho.2) h2
  case p2 =>
    intro h
    have h1 := pyReplace_infix_keep _ (mQ1 o) (mQ1 n) (mQ1_ne_nil o)
      (mQ1_not_infix_mQ2 o o ho.2 ho.2) (mQ2_not_infix_mQ1 o o ho.2)
      (suffix_mQ1_not_prefix_mQ2 o o ho.2) (suffix_mQ2_not_prefix_mQ1 o o ho.2) h
    have h2 : mQ2 n <:+: pyReplace (pyReplace s (mQ1 o) (mQ1 n)) (mQ2 o) (mQ2 n) :=
      pyReplace_rep_occurs (mQ2_ne_nil o) h1
    exact pyReplace_infix_keep _ (mQ3 o) (mQ3 n) (mQ3_ne_nil o)
      (mQ3_not_infix_mQ2 o n hn.2) (mQ2_not_infix_mQ3 n o ho.2)
      (suffix_mQ3_not_prefix_mQ2 o n ho.2) (suffix_mQ2_not_prefix_mQ3 n o hn.2) h2
  case a2 =>
    have h2 : ¬ mQ2 o <:+: pyReplace (pyReplace s (mQ1 o) (mQ1 n)) (mQ2 o) (mQ2 n) :=
      pyReplace_pat_gone (mQ2_ne_nil o)
        (mQ2_not_infix_mQ2 o n ho.2 hn.2 hon)
        (suffix_mQ2_not_prefix_mQ2 n o hn.2)
        (suffix_mQ2_not_prefix_mQ2 o n ho.2)
        (mQ2_not_infix_mQ2 n o hn.2 ho.2 (Ne.symm hon)) _
    exact pyReplace_keep_absent _ (mQ3 o) (mQ3 n) (mQ3_ne_nil o)
      (mQ2_not_infix_mQ3 o n hn.2) (suffix_mQ3_not_prefix_mQ2 n o hn.2)
      (mQ3_not_infix_mQ2 n o ho.2) (suffix_mQ2_not_prefix_mQ3 o n ho.2) h2
  case p3 =>
    intro h
    have h1 := pyReplace_infix_keep _ (mQ1 o) (mQ1 n) (mQ1_ne_nil o)
      (mQ1_not_infix_mQ3 o o ho.2) (mQ3_not_infix_mQ1 o o ho.2)
      (suffix_mQ1_not_prefix_mQ3 o o ho.2) (suffix_mQ3_not_prefix_mQ1 o o ho.2) h
    have h2 := pyReplace_infix_keep _ (mQ2 o) (mQ2 n) (mQ2_ne_nil o)
      (mQ2_not_infix_mQ3 o o ho.2) (mQ3_not_infix_mQ2 o o ho.2)
      (suffix_mQ2_not_prefix_mQ3 o o ho.2) (suffix_mQ3_not_prefix_mQ2 o o ho.2) h1
    exact pyReplace_rep_occurs (mQ3_ne_nil o) h2
  case a3 =>
    exact pyReplace_pat_gone (mQ3_ne_nil o)
      (mQ3_not_infix_mQ3 o n ho.2 hn.2 hon)
      (suffix_mQ3_not_prefix_mQ3 n o hn.2)
      (suffix_mQ3_not_prefix_mQ3 o n ho.2)
      (mQ3_not_infix_mQ3 n o hn.2 ho.2 (Ne.symm hon)) _

theorem sldSubstPair_subst {o n : List Char} (ho : IdentName o) (hn : IdentName n)
    (hon : o ≠ n) (s : List Char) :
    (mSld o <:+: s → mSld n <:+: sldSubstPair s (o, n)) ∧
      ¬ mSld o <:+: sldSubstPair s (o, n) := by
  have hr : sldSubstPair s (o, n) = pyReplace s (mSld o) (mSld n) := if_neg hon
  rw [hr]
  constructor
  · intro h
    exact pyReplace_rep_occurs (mSld_ne_nil o) h
  · exact pyReplace_pat_gone (mSld_ne_nil o)
      (mSld_not_infix_mSld o n ho.2 hn.2 hon)
      (suffix_mSld_not_prefix_mSld n o hn.2)
      (suffix_mSld_not_prefix_mSld o n ho.2)
      (mSld_not_infix_mSld n o hn.2 ho.2 (Ne.symm hon)) s

theorem qmlSubstPair_keep_pres {o n m : List Char} (ho : IdentName o) (hn : IdentName n)
    (hm : IdentName m) (hmo : m ≠ o) (hon : o ≠ n) (s : List Char) :
    (mQ1 m <:+: s → mQ1 m <:+: qmlSubstPair s (o, n)) ∧
    (mQ2 m <:+: s → mQ2 m <:+: qmlSubstPair s (o, n)) ∧
    (mQ3 m <:+: s → mQ3 m <:+: qmlSubstPair s (o, n)) := by
  have hr : qmlSubstPair s (o, n) =
      pyReplace (pyReplace (pyReplace s (mQ1 o) (mQ1 n)) (mQ2 o) (mQ2 n))
        (mQ3 o) (mQ3 n) := if_neg hon
  rw [hr]
  refine ⟨?k1, ?k2, ?k3⟩
  case k1 =>
    intro h
    have h1 := pyReplace_infix_keep _ (mQ1 o) (mQ1 n) (mQ1_ne_nil o)
      (mQ1_not_infix_mQ1 o m ho.2 hm.2 (Ne.symm hmo)) (mQ1_not_infix_mQ1 m o hm.2 ho.2 hmo)
      (suffix_mQ1_not_prefix_mQ1 o m ho.2 hm.2) (suffix_mQ1_not_prefix_mQ1 m o hm.2 ho.2) h
    have h2 := pyReplace_infix_keep _ (mQ2 o) (mQ2 n) (mQ2_ne_nil o)
      (mQ2_not_infix_mQ1 o m hm.2) (mQ1_not_infix_mQ2 m o hm.2 ho.2)
      (suffix_mQ2_not_prefix_mQ1 o m ho.2) (suffix_mQ1_not_prefix_mQ2 m o hm.2) h1
    exact pyReplace_infix_keep _ (mQ3 o) (mQ3 n) (mQ3_ne_nil o)
      (mQ3_not_infix_mQ1 o m hm.2) (mQ1_not_infix_mQ3 m o ho.2)
      (suffix_mQ3_not_prefix_mQ1 o m ho.2) (suffix_mQ1_not_prefix_mQ3 m o hm.2) h2
  case k2 =>
    intro h
    have h1 := pyReplace_infix_keep _ (mQ1 o) (mQ1 n) (mQ1_ne_nil o)
      (mQ1_not_infix_mQ2 o m ho.2 hm.2) (mQ2_not_infix_mQ1 m o ho.2)
      (suffix_mQ1_not_prefix_mQ2 o m ho.2) (suffix_mQ2_not_prefix_mQ1 m o hm.2) h
    have h2 := pyReplace_infix_keep _ (mQ2 o) (mQ2 n) (mQ2_ne_nil o)
      (mQ2_not_infix_mQ2 o m ho.2 hm.2 (Ne.symm hmo)) (mQ2_not_infix_mQ2 m o hm.2 ho.2 hmo)
      (suffix_mQ2_not_prefix_mQ2 o m ho.2) (suffix_mQ2_not_prefix_mQ2 m o hm.2) h1
    exact pyReplace_infix_keep _ (mQ3 o) (mQ3 n) (mQ3_ne_nil o)
      (mQ3_not_infix_mQ2 o m hm.2) (mQ2_not_infix_mQ3 m o ho.2)
      (suffix_mQ3_not_prefix_mQ2 o m ho.2) (suffix_mQ2_not_prefix_mQ3 m o hm.2) h2
  case k3 =>
    intro h
    have h1 := pyReplace_infix_keep _ (mQ1 o) (mQ1 n) (mQ1_ne_nil o)
      (mQ1_not_infix_mQ3 o m hm.2) (mQ3_not_infix_mQ1 m o ho.2)
      (suffix_mQ1_not_prefix_mQ3 o m ho.2) (suffix_mQ3_not_prefix_mQ1 m o hm.2) h
    have h2 := pyReplace_infix_keep _ (mQ2 o) (mQ2 n) (mQ2_ne_nil o)
      (mQ2_not_infix_mQ3 o m hm.2) (mQ3_not_infix_mQ2 m o ho.2)
      (suffix_mQ2_not_prefix_mQ3 o m ho.2) (suffix_mQ3_not_prefix_mQ2 m o hm.2) h1
    exact pyReplace_infix_keep _ (mQ3 o) (mQ3 n) (mQ3_ne_nil o)
      (mQ3_not_infix_mQ3 o m ho.2 hm.2 (Ne.symm hmo)) (mQ3_not_infix_mQ3 m o hm.2 ho.2 hmo)
      (suffix_mQ3_not_prefix_mQ3 o m ho.2) (suffix_mQ3_not_prefix_mQ3 m o hm.2) h2

theorem qmlSubstPair_keep_abs {o n m : List Char} (ho : IdentName o) (hn : IdentName n)
    (hm : IdentName m) (hmn : m ≠ n) (hon : o ≠ n) (s : List Char) :
    (¬ mQ1 m <:+: s → ¬ mQ1 m <:+: qmlSubstPair s (o, n)) ∧
    (¬ mQ2 m <:+: s → ¬ mQ2 m <:+: qmlSubstPair s (o, n)) ∧
    (¬ mQ3 m <:+: s → ¬ mQ3 m <:+: qmlSubstPair s (o, n)) := by
  have hr : qmlSubstPair s (o, n) =
      pyReplace (pyReplace (pyReplace s (mQ1 o) (mQ1 n)) (mQ2 o) (mQ2 n))
        (mQ3 o) (mQ3 n) := if_neg hon
  rw [hr]
  refine ⟨?k1, ?k2, ?k3⟩
  case k1 =>
    intro h
    have h1 := pyReplace_keep_absent _ (mQ1 o) (mQ1 n) (mQ1_ne_nil o)
      (mQ1_not_infix_mQ1 m n hm.2 hn.2 hmn) (suffix_mQ1_not_prefix_mQ1 n m hn.2 hm.2)
      (mQ1_not_infix_mQ1 n m hn.2 hm.2 (Ne.symm hmn)) (suffix_mQ1_not_prefix_mQ1 m n hm.2 hn.2) h
    have h2 := pyReplace_keep_absent _ (mQ2 o) (mQ2 n) (mQ2_ne_nil o)
      (mQ1_not_infix_mQ2 m n hm.2 hn.2) (suffix_mQ2_not_prefix_mQ1 n m hn.2)
      (mQ2_not_infix_mQ1 n m hm.2) (suffix_mQ1_not_prefix_mQ2 m n hm.2) h1
    exact pyReplace_keep_absent _ (mQ3 o) (mQ3 n) (mQ3_ne_nil o)
      (mQ1_not_infix_mQ3 m n hn.2) (suffix_mQ3_not_prefix_mQ1 n m hn.2)
      (mQ3_not_infix_mQ1 n m hm.2) (suffix_mQ1_not_prefix_mQ3 m n hm.2) h2
  case k2 =>
    intro h
    have h1 := pyReplace_keep_absent _ (mQ1 o) (mQ1 n) (mQ1_ne_nil o)
      (mQ2_not_infix_mQ1 m n hn.2) (suffix_mQ1_not_prefix_mQ2 n m hn.2)
      (mQ1_not_infix_mQ2 n m hn.2 hm.2) (suffix_mQ2_not_prefix_mQ1 m n hm.2) h
    have h2 := pyReplace_keep_absent _ (mQ2 o) (mQ2 n) (mQ2_ne_nil o)
      (mQ2_not_infix_mQ2 m n hm.2 hn.2 hmn) (suffix_mQ2_not_prefix_mQ2 n m hn.2)
      (mQ2_not_infix_mQ2 n m hn.2 hm.2 (Ne.symm hmn)) (suffix_mQ2_not_prefix_mQ2 m n hm.2) h1
    exact pyReplace_keep_absent _ (mQ3 o) (mQ3 n) (mQ3_ne_nil o)
      (mQ2_not_infix_mQ3 m n hn.2) (suffix_mQ3_not_prefix_mQ2 n m hn.2)
      (mQ3_not_infix_mQ2 n m hm.2) (suffix_mQ2_not_prefix_mQ3 m n hm.2) h2
  case k3 =>
    intro h
    have h1 := pyReplace_keep_absent _ (mQ1 o) (mQ1 n) (mQ1_ne_nil o)
      (mQ3_not_infix_mQ1 m n hn.2) (suffix_mQ1_not_prefix_mQ3 n m hn.2)
      (mQ1_not_infix_mQ3 n m hm.2) (suffix_mQ3_not_prefix_mQ1 m n hm.2) h
    have h2 := pyReplace_keep_absent _ (mQ2 o) (mQ2 n) (mQ2_ne_nil o)
      (mQ3_not_infix_mQ2 m n hn.2) (suffix_mQ2_not_prefix_mQ3 n m hn.2)
      (mQ2_not_infix_mQ3 n m hm.2) (suffix_mQ3_not_prefix_mQ2 m n hm.2) h1
    exact pyReplace_keep_absent _ (mQ3 o) (mQ3 n) (mQ3_ne_nil o)
      (mQ3_not_infix_mQ3 m n hm.2 hn.2 hmn) (suffix_mQ3_not_prefix_mQ3 n m hn.2)
      (mQ3_not_infix_mQ3 n m hn.2 hm.2 (Ne.symm hmn)) (suffix_mQ3_not_prefix_mQ3 m n hm.2) h2

theorem sldSubstPair_keep_pres {o n m : List Char} (ho : IdentName o) (hn : IdentName n)
    (hm : IdentName m) (hmo : m ≠ o) (hon : o ≠ n) (s : List Char) :
    mSld m <:+: s → mSld m <:+: sldSubstPair s (o, n) := by
  have hr : sldSubstPair s (o, n) = pyReplace s (mSld o) (mSld n) := if_neg hon
  rw [hr]
  intro h
  exact pyReplace_infix_keep _ (mSld o) (mSld n) (mSld_ne_nil o)
    (mSld_not_infix_mSld o m ho.2 hm.2 (Ne.symm hmo)) (mSld_not_infix_mSld m o hm.2 ho.2 hmo)
    (suffix_mSld_not_prefix_mSld o m ho.2) (suffix_mSld_not_prefix_mSld m o hm.2) h

theorem sldSubstPair_keep_abs {o n m : List Char} (ho : IdentName o) (hn : IdentName n)
    (hm : IdentName m) (hmn : m ≠ n) (hon : o ≠ n) (s : List Char) :
    ¬ mSld m <:+: s → ¬ mSld m <:+: sldSubstPair s (o, n) := by
  have hr : sldSubstPair s (o, n) = pyReplace s (mSld o) (mSld n) := if_neg hon
  rw [hr]
  intro h
  exact pyReplace_keep_absent _ (mSld o) (mSld n) (mSld_ne_nil o)
    (mSld_not_infix_mSld m n hm.2 hn.2 hmn) (suffix_mSld_not_prefix_mSld n m hn.2)
    (mSld_not_infix_mSld n m hn.2 hm.2 (Ne.symm hmn)) (suffix_mSld_not_prefix_mSld m n hm.2) h

theorem qmlSubst_keep_pres {m : List Char} (hm : IdentName m) :
    ∀ ps : List (List Char × List Char), (∀ p ∈ ps, IdentName p.1 ∧ IdentName p.2) →
      (∀ p ∈ ps, p.1 ≠ p.2 → m ≠ p.1) →
      ∀ s, (mQ1 m <:+: s → mQ1 m <:+: qmlSubst s ps) ∧
           (mQ2 m <:+: s → mQ2 m <:+: qmlSubst s ps) ∧
           (mQ3 m <:+: s → mQ3 m <:+: qmlSubst s ps) := by
  intro ps
  induction ps with
  | nil =>
    intro _ _ s
    exact ⟨id, id, id⟩
  | cons q rest IH =>
    intro hid hdis s
    have hq := hid q (by simp)
    have hrest := IH (fun p hp => hid p (by simp [hp])) (fun p hp => hdis p (by simp [hp]))
    by_cases hqq : q.1 = q.2
    · have heq : qmlSubst s (q :: rest) = qmlSubst s rest := by
        show List.foldl qmlSubstPair (qmlSubstPair s q) rest = List.foldl qmlSubstPair s rest
        rw [show qmlSubstPair s q = s from if_pos hqq]
      rw [heq]
      exact hrest s
    · have hmo : m ≠ q.1 := hdis q (by simp) hqq
      have hkeep := qmlSubstPair_keep_pres hq.1 hq.2 hm hmo hqq s
      have hgoal : qmlSubst s (q :: rest) = qmlSubst (qmlSubstPair s q) rest := rfl
      rw [hgoal]
      refine ⟨fun h => (hrest (qmlSubstPair s q)).1 (hkeep.1 h),
        fun h => (hrest (qmlSubstPair s q)).2.1 (hkeep.2.1 h),
        fun h => (hrest (qmlSubstPair s q)).2.2 (hkeep.2.2 h)⟩

theorem qmlSubst_keep_abs {m : List Char} (hm : IdentName m) :
    ∀ ps : List (List Char × List Char), (∀ p ∈ ps, IdentName p.1 ∧ IdentName p.2) →
      (∀ p ∈ ps, p.1 ≠ p.2 → m ≠ p.2) →
      ∀ s, (¬ mQ1 m <:+: s → ¬ mQ1 m <:+: qmlSubst s ps) ∧
           (¬ mQ2 m <:+: s → ¬ mQ2 m <:+: qmlSubst s ps) ∧
           (¬ mQ3 m <:+: s → ¬ mQ3 m <:+: qmlSubst s ps) := by
  intro ps
  induction ps with
  | nil =>
    intro _ _ s
    exact ⟨id, id, id⟩
  | cons q rest IH =>
    intro hid hdis s
    have hq := hid q (by simp)
    have hrest := IH (fun p hp => hid p (by simp [hp])) (fun p hp => hdis p (by simp [hp]))
    by_cases hqq : q.1 = q.2
    · have heq : qmlSubst s (q :: rest) = qmlSubst s rest := by
        show List.foldl qmlSubstPair (qmlSubstPair s q) rest = List.foldl qmlSubstPair s rest
        rw [show qmlSubstPair s q = s from if_pos hqq]
      rw [heq]
      exact hrest s
    · have hmn : m ≠ q.2 := hdis q (by simp) hqq
      have hkeep := qmlSubstPair_keep_abs hq.1 hq.2 hm hmn hqq s
      have hgoal : qmlSubst s (q :: rest) = qmlSubst (qmlSubstPair s q) rest := rfl
      rw [hgoal]
      refine ⟨fun h => (hrest (qmlSubstPair s q)).1 (hkeep.1 h),
        fun h => (hrest (qmlSubstPair s q)).2.1 (hkeep.2.1 h),
        fun h => (hrest (qmlSubstPair s q)).2.2 (hkeep.2.2 h)⟩

theorem sldSubst_keep_pres {m : List Char} (hm : IdentName m) :
    ∀ ps : List (List Char × List Char), (∀ p ∈ ps, IdentName p.1 ∧ IdentName p.2) →
      (∀ p ∈ ps, p.1 ≠ p.2 → m ≠ p.1) →
      ∀ s, mSld m <:+: s → mSld m <:+: sldSubst s ps := by
  intro ps
  induction ps with
  | nil =>
    intro _ _ s
    exact id
  | cons q rest IH =>
    intro hid hdis s
    have hq := hid q (by simp)
    have hrest := IH (fun p hp => hid p (by simp [hp])) (fun p hp => hdis p (by simp [hp]))
    by_cases hqq : q.1 = q.2
    · have heq : sldSubst s (q :: rest) = sldSubst s rest := by
        show List.foldl sldSubstPair (sldSubstPair s q) rest = List.foldl sldSubstPair s rest
        rw [show sldSubstPair s q = s from if_pos hqq]
      rw [heq]
      exact hrest s
    · have hmo : m ≠ q.1 := hdis q (by simp) hqq
      intro h
      exact hrest (sldSubstPair s q) (sldSubstPair_keep_pres hq.1 hq.2 hm hmo hqq s h)

theorem sldSubst_keep_abs {m : List Char} (hm : IdentName m) :
    ∀ ps : List (List Char × List Char), (∀ p ∈ ps, IdentName p.1 ∧ IdentName p.2) →
      (∀ p ∈ ps, p.1 ≠ p.2 → m ≠ p.2) →
      ∀ s, ¬ mSld m <:+: s → ¬ mSld m <:+: sldSubst s ps := by
  intro ps
  induction ps with
  | nil =>
    intro _ _ s
    exact id
  | cons q rest IH =>
    intro hid hdis s
    have hq := hid q (by simp)
    have hrest := IH (fun p hp => hid p (by simp [hp])) (fun p hp => hdis p (by simp [hp]))
    by_cases hqq : q.1 = q.2
    · have heq : sldSubst s (q :: rest) = sldSubst s rest := by
        show List.foldl sldSubstPair (sldSubstPair s q) rest = List.foldl sldSubstPair s rest
        rw [show sldSubstPair s q = s from if_pos hqq]
      rw [heq]
      exact hrest s
    · have hmn : m ≠ q.2 := hdis q (by simp) hqq
      intro h
      exact hrest (sldSubstPair s q) (sldSubstPair_keep_abs hq.1 hq.2 hm hmn hqq s h)

theorem rename_subst_spec (ps : List (List Char × List Char)) (s : List Char)
    (hid : ∀ p ∈ ps, IdentName p.1 ∧ IdentName p.2)
    (hkeys : (ps.map Prod.fst).Nodup)
    (hnochain : ∀ p ∈ ps, ∀ q ∈ ps, p.1 ≠ p.2 → q.1 ≠ q.2 → p.2 ≠ q.1) :
    ∀ p ∈ ps, p.1 ≠ p.2 →
      ((mQ1 p.1 <:+: s → mQ1 p.2 <:+: qmlSubst s ps) ∧ ¬ mQ1 p.1 <:+: qmlSubst s ps) ∧
      ((mQ2 p.1 <:+: s → mQ2 p.2 <:+: qmlSubst s ps) ∧ ¬ mQ2 p.1 <:+: qmlSubst s ps) ∧
      ((mQ3 p.1 <:+: s → mQ3 p.2 <:+: qmlSubst s ps) ∧ ¬ mQ3 p.1 <:+: qmlSubst s ps) ∧
      ((mSld p.1 <:+: s → mSld p.2 <:+: sldSubst s ps) ∧ ¬ mSld p.1 <:+: sldSubst s ps) := by
  intro p hp hpne
  obtain ⟨pre, post, rfl⟩ := List.append_of_mem hp
  obtain ⟨hido, hidn⟩ := hid p (by simp)
  have hqml : ∀ t, qmlSubst t (pre ++ p :: post) =
      qmlSubst (qmlSubstPair (qmlSubst t pre) p) post := by
    intro t
    show List.foldl qmlSubstPair t (pre ++ p :: post) = _
    rw [List.foldl_append]
    rfl
  have hsld : ∀ t, sldSubst t (pre ++ p :: post) =
      sldSubst (sldSubstPair (sldSubst t pre) p) post := by
    intro t
    show List.foldl sldSubstPair t (pre ++ p :: post) = _
    rw [List.foldl_append]
    rfl
  -- distinct keys: p.1 differs from every key in pre
  have hpre1 : ∀ q ∈ pre, q.1 ≠ p.1 := by
    intro q hq heq
    rw [List.map_append] at hkeys
    have hdisj := List.disjoint_of_nodup_append hkeys
    exact hdisj (List.mem_map_of_mem Prod.fst hq) (by simp [heq])
  have hidpre : ∀ q ∈ pre, IdentName q.1 ∧ IdentName q.2 :=
    fun q hq => hid q (by simp [hq])
  have hidpost : ∀ q ∈ post, IdentName q.1 ∧ IdentName q.2 :=
    fun q hq => hid q (by simp [hq])
  -- no-chaining instances
  have hpost1 : ∀ q ∈ post, q.1 ≠ q.2 → p.2 ≠ q.1 := by
    intro q hq hqact
    exact hnochain p (by simp) q (by simp [hq]) hpne hqact
  have hpost2 : ∀ q ∈ post, q.1 ≠ q.2 → p.1 ≠ q.2 := by
    intro q hq hqact
    exact fun heq => hnochain q (by simp [hq]) p (by simp) hqact hpne (heq.symm)
  have hkeeppre := qmlSubst_keep_pres hido pre hidpre
    (fun q hq _ => fun heq => hpre1 q hq heq.symm) s
  have hpair := qmlSubstPair_subst hido hidn hpne (qmlSubst s pre)
  have hkeeppostP := qmlSubst_keep_pres hidn post hidpost hpost1
    (qmlSubstPair (qmlSubst s pre) p)
  have hkeeppostA := qmlSubst_keep_abs hido post hidpost hpost2
    (qmlSubstPair (qmlSubst s pre) p)
  have hskeeppre := sldSubst_keep_pres hido pre hidpre
    (fun q hq _ => fun heq => hpre1 q hq heq.symm) s
  have hspair := sldSubstPair_subst hido hidn hpne (sldSubst s pre)
  have hskeeppostP := sldSubst_keep_pres hidn post hidpost hpost1
    (sldSubstPair (sldSubst s pre) p)
  have hskeeppostA := sldSubst_keep_abs hido post hidpost hpost2
    (sldSubstPair (sldSubst s pre) p)
  rw [hqml s, hsld s]
  refine ⟨⟨fun h => ?p1, ?a1⟩, ⟨fun h => ?p2, ?a2⟩, ⟨fun h => ?p3, ?a3⟩, ⟨fun h => ?p4, ?a4⟩⟩
  case p1 => exact hkeeppostP.1 (hpair.1.1 (hkeeppre.1 h))
  case a1 => exact hkeeppostA.1 hpair.1.2
  case p2 => exact hkeeppostP.2.1 (hpair.2.1.1 (hkeeppre.2.1 h))
  case a2 => exact hkeeppostA.2.1 hpair.2.1.2
  case p3 => exact hkeeppostP.2.2 (hpair.2.2.1 (hkeeppre.2.2 h))
  case a3 => exact hkeeppostA.2.2 hpair.2.2.2
  case p4 => exact hskeeppostP (hspair.1 (hskeeppre h))
  case a4 => exact hskeeppostA hspair.2

instance decidableIdentName (n : List Char) : Decidable (IdentName n) :=
  inferInstanceAs (Decidable (n ≠ [] ∧ ∀ c ∈ n, identChar c = true))

end StyleExport

/-- C3: export_styles rewrites field references in saved styles through the
rename map, but only under non-interference conditions absent from the claim
as stated: when the old names are identifier-shaped and pairwise distinct and
no pair's new name collides with the old name of another pair being renamed,
every QML marker (field="o", <field name="o", >o</) and SLD marker
(<ogc:PropertyName>o</ogc:PropertyName>) of an old field name o present in
the original document yields the corresponding marker of that field's new
name in the rewritten document, and no marker of the old name survives. -/
theorem c3_rename_substitution (ps : List (List Char × List Char)) (s : List Char)
    (hid : ∀ p ∈ ps, StyleExport.IdentName p.1 ∧ StyleExport.IdentName p.2)
    (hkeys : (ps.map Prod.fst).Nodup)
    (hnochain : ∀ p ∈ ps, ∀ q ∈ ps, p.1 ≠ p.2 → q.1 ≠ q.2 → p.2 ≠ q.1) :
    ∀ p ∈ ps, p.1 ≠ p.2 →
      ((StyleExport.mQ1 p.1 <:+: s →
          StyleExport.mQ1 p.2 <:+: StyleExport.qmlSubst s ps) ∧
        ¬ StyleExport.mQ1 p.1 <:+: StyleExport.qmlSubst s ps) ∧
      ((StyleExport.mQ2 p.1 <:+: s →
          StyleExport.mQ2 p.2 <:+: StyleExport.qmlSubst s ps) ∧
        ¬ StyleExport.mQ2 p.1 <:+: StyleExport.qmlSubst s ps) ∧
      ((StyleExport.mQ3 p.1 <:+: s →
          StyleExport.mQ3 p.2 <:+: StyleExport.qmlSubst s ps) ∧
        ¬ StyleExport.mQ3 p.1 <:+: StyleExport.qmlSubst s ps) ∧
      ((StyleExport.mSld p.1 <:+: s →
          StyleExport.mSld p.2 <:+: StyleExport.sldSubst s ps) ∧
        ¬ StyleExport.mSld p.1 <:+: StyleExport.sldSubst s ps) :=
  StyleExport.rename_subst_spec ps s hid hkeys hnochain

/-- Witness for C3 at a concrete input: the single-pair map a ↦ b on the
payload ">a</" satisfies the hypotheses, the element-text marker of "a" is
rewritten to the marker of "b", and the marker of "a" is gone. -/
theorem c3_rename_substitution_witness :
    (∀ p ∈ [("a".data, "b".data)],
      StyleExport.IdentName p.1 ∧ StyleExport.IdentName p.2) ∧
    (([("a".data, "b".data)].map Prod.fst).Nodup) ∧
    ("a".data ≠ "b".data) ∧
    (StyleExport.mQ3 "a".data <:+: ">a</".data →
      StyleExport.mQ3 "b".data <:+:
        StyleExport.qmlSubst ">a</".data [("a".data, "b".data)]) ∧
    ¬ StyleExport.mQ3 "a".data <:+:
        StyleExport.qmlSubst ">a</".data [("a".data, "b".data)] :=
  ⟨by decide, by decide, by decide,
    (c3_rename_substitution [("a".data, "b".data)] ">a</".data (by decide) (by decide)
      (by decide) ("a".data, "b".data) (by decide) (by decide)).2.2.1.1,
    (c3_rename_substitution [("a".data, "b".data)] ">a</".data (by decide) (by decide)
      (by decide) ("a".data, "b".data) (by decide) (by decide)).2.2.1.2⟩
